import Mathlib

/-!
Verification of the left-leaning red-black tree (`src/unnamed/part_000`,
class `RedBlackTree`). The TypeScript code is translated function by
function into a shallow embedding:

- a `Node | null` pointer becomes a `Tree` value (`nil` for `null`);
- the in-place mutations become pure functions returning the new subtree
  root, exactly as the code itself returns the new root of every subtree
  it touches;
- the `assert` helper from `../shared` throws on a false condition, so
  every code path that can reach a failed assert returns `Res.assertFail`;
- the private methods mutate `this.#size`, so their embeddings take the
  current size and return the new one;
- the delete family recurses on trees rebuilt by `moveRedLeft` /
  `moveRedRight`, which is not structural recursion, so those three
  functions take explicit fuel and return `Res.outOfFuel` when it runs
  out; the public wrappers pass `count + 1` fuel, which the lemmas show
  is never exhausted;
- the ordering and equality capabilities (`lessThan`, `lessThanOrEqual`,
  `greaterThanOrEqual`, `equality`) are the comparison operators of a
  `LinearOrder`, matching the contract that equality holds exactly when
  neither strict order does.
-/

set_option linter.unusedVariables false
set_option linter.unusedSectionVars false

namespace Calcium

/-- Node colors. Modelled from the spec: the Node and Color definitions live
in the red-black-node module which is not among the sources; the spec states
that a node's color is Red or Black. -/
inductive Color : Type where
  | Red : Color
  | Black : Color
deriving DecidableEq, Repr

/-- A subtree pointer. Modelled from the spec: a Node holds key, value,
color and two optional children; `nil` plays the part of `null`. -/
inductive Tree (α β : Type) : Type where
  | nil : Tree α β
  | node (color : Color) (left : Tree α β) (key : α) (value : β)
      (right : Tree α β) : Tree α β
deriving DecidableEq, Repr

/-- Outcome of running a translated piece of code: a normal return, an
assertion failure (the shared `assert` helper throws on a false condition),
or fuel exhaustion of the embedding itself (no counterpart in the code; the
lemmas show the wrappers never produce it). -/
inductive Res (γ : Type) : Type where
  | ok (val : γ) : Res γ
  | assertFail : Res γ
  | outOfFuel : Res γ
deriving DecidableEq, Repr

def Res.bind {γ δ : Type} : Res γ → (γ → Res δ) → Res δ
  | .ok a, f => f a
  | .assertFail, _ => .assertFail
  | .outOfFuel, _ => .outOfFuel

instance : Monad Res where
  pure := Res.ok
  bind := Res.bind

variable {α β : Type}

def Tree.left : Tree α β → Tree α β
  | .nil => .nil
  | .node _ l _ _ _ => l

def Tree.right : Tree α β → Tree α β
  | .nil => .nil
  | .node _ _ _ _ r => r

def Tree.key? : Tree α β → Option α
  | .nil => none
  | .node _ _ k _ _ => some k

def Tree.value? : Tree α β → Option β
  | .nil => none
  | .node _ _ _ v _ => some v

def Tree.isNil : Tree α β → Bool
  | .nil => true
  | .node _ _ _ _ _ => false

/-- Number of nodes in a subtree (spec-side measure, also used as fuel). -/
def Tree.count : Tree α β → Nat
  | .nil => 0
  | .node _ l _ _ r => l.count + r.count + 1

/-- In-order list of key-value pairs of a subtree (spec-side). -/
def inorderP : Tree α β → List (α × β)
  | .nil => []
  | .node _ l k v r => inorderP l ++ (k, v) :: inorderP r

/-- In-order list of keys (spec-side). -/
def inorderKeys (t : Tree α β) : List α := (inorderP t).map Prod.fst

/-- `isRed(node)`: false for an absent node, true iff the color is Red. -/
def isRed : Tree α β → Bool
  | .nil => false
  | .node c _ _ _ _ => c = .Red

/-- `flipColor(node)`: toggle a single node's color. -/
def flipColor : Color → Color
  | .Red => .Black
  | .Black => .Red

/-- `flipColors(node)`: toggle the node and both children; asserts both
children present. -/
def flipColors : Tree α β → Res (Tree α β)
  | .node c (.node lc ll lk lv lr) k v (.node rc rl rk rv rr) =>
      .ok (.node (flipColor c) (.node (flipColor lc) ll lk lv lr) k v
        (.node (flipColor rc) rl rk rv rr))
  | _ => .assertFail

/-- `rotateLeft(node)`: asserts `node.right` present; the right child
becomes the root keeping the old root's color, the old root turns red. -/
def rotateLeft : Tree α β → Res (Tree α β)
  | .node c l k v (.node _ rl rk rv rr) =>
      .ok (.node c (.node .Red l k v rl) rk rv rr)
  | _ => .assertFail

/-- `rotateRight(node)`: asserts `node.left` present; mirror image. -/
def rotateRight : Tree α β → Res (Tree α β)
  | .node c (.node _ ll lk lv lr) k v r =>
      .ok (.node c ll lk lv (.node .Red lr k v r))
  | _ => .assertFail

/-- `moveRedLeft(node)`. -/
def moveRedLeft (t : Tree α β) : Res (Tree α β) := do
  let t1 ← flipColors t
  match t1 with
  | .node c l k v (.node rc rl rk rv rr) =>
    if isRed rl then do
      let r2 ← rotateRight (.node rc rl rk rv rr)
      let t2 ← rotateLeft (.node c l k v r2)
      flipColors t2
    else
      pure (.node c l k v (.node rc rl rk rv rr))
  | _ => .assertFail

/-- `moveRedRight(node)`. -/
def moveRedRight (t : Tree α β) : Res (Tree α β) := do
  let t1 ← flipColors t
  match t1 with
  | .node c (.node lc ll lk lv lr) k v r =>
    if isRed ll then do
      let t2 ← rotateRight (.node c (.node lc ll lk lv lr) k v r)
      flipColors t2
    else
      pure (.node c (.node lc ll lk lv lr) k v r)
  | _ => .assertFail

/-- `fixUp(node)`: rotate left on a right red, rotate right on two left
reds in a row, flip colors when both children are red. -/
def fixUp (t : Tree α β) : Res (Tree α β) := do
  let t1 ← if isRed t.right && !isRed t.left then rotateLeft t else pure t
  let t2 ← if isRed t1.left && isRed t1.left.left then rotateRight t1 else pure t1
  if isRed t2.left && isRed t2.right then flipColors t2 else pure t2

/-! The three iterators. `entries()` keeps a current node pointer and an
explicit stack; one call of `next()` pushes left children until it can pop
a node, then emits its entry and moves to its right child. `iterNext`
performs exactly one such call on the iterator state. -/

/-- One `next()` call of the `entries()` iterator: `none` when done. -/
def iterNext : Tree α β → List (Tree α β) →
    Option ((α × β) × (Tree α β × List (Tree α β)))
  | .node c l k v r, stack => iterNext l (.node c l k v r :: stack)
  | .nil, .node _ _ k v r :: rest => some ((k, v), (r, rest))
  | .nil, .nil :: _ => none
  | .nil, [] => none

/-- Measure for the iterator state: nodes not yet emitted. -/
def iterMeasure (t : Tree α β) (stack : List (Tree α β)) : Nat :=
  t.count + (stack.map (fun s => s.right.count + 1)).sum

def iterNext_measure {t : Tree α β} {stack : List (Tree α β)}
    {e : α × β} {t2 : Tree α β} {stack2 : List (Tree α β)}
    (h : iterNext t stack = some (e, (t2, stack2))) :
    iterMeasure t2 stack2 < iterMeasure t stack := by
  induction t generalizing stack with
  | nil =>
    cases stack with
    | nil => simp [iterNext] at h
    | cons s rest =>
      cases s with
      | nil => simp [iterNext] at h
      | node c l k v r =>
        simp only [iterNext, Option.some_inj, Prod.mk.injEq] at h
        obtain ⟨he, ht, hs⟩ := h
        subst ht
        subst hs
        simp only [iterMeasure, Tree.count, Tree.right, List.map_cons,
          List.sum_cons]
        omega
  | node c l k v r ihl ihr =>
    rw [iterNext] at h
    have := ihl h
    simp only [iterMeasure, Tree.count, List.map_cons, List.sum_cons,
      Tree.right] at this ⊢
    omega

/-- Drain the `entries()` iterator from a given state into a list. -/
def entriesAux (t : Tree α β) (stack : List (Tree α β)) : List (α × β) :=
  match h : iterNext t stack with
  | none => []
  | some (e, (t2, stack2)) => e :: entriesAux t2 stack2
termination_by iterMeasure t stack
decreasing_by exact iterNext_measure h

/-- Drain the `keys()` iterator: it calls the entries iterator's `next()`
and yields the first pair component. -/
def keysAux (t : Tree α β) (stack : List (Tree α β)) : List α :=
  match h : iterNext t stack with
  | none => []
  | some (e, (t2, stack2)) => e.1 :: keysAux t2 stack2
termination_by iterMeasure t stack
decreasing_by exact iterNext_measure h

/-- Drain the `values()` iterator: it calls the entries iterator's `next()`
and yields the second pair component. -/
def valuesAux (t : Tree α β) (stack : List (Tree α β)) : List β :=
  match h : iterNext t stack with
  | none => []
  | some (e, (t2, stack2)) => e.2 :: valuesAux t2 stack2
termination_by iterMeasure t stack
decreasing_by exact iterNext_measure h

variable [LinearOrder α]

/-- `#set(node, key, value)`: recursive insert; threads `this.#size`. -/
def setNode (t : Tree α β) (key : α) (value : β) (size : Int) :
    Res (Tree α β × Int) :=
  match t with
  | .nil => .ok (.node .Red .nil key value .nil, size + 1)
  | .node c l k v r =>
    if key = k then do
      let t2 ← fixUp (.node c l k value r)
      pure (t2, size)
    else if key < k then do
      let ls ← setNode l key value size
      let t2 ← fixUp (.node c ls.1 k v r)
      pure (t2, ls.2)
    else do
      let rs ← setNode r key value size
      let t2 ← fixUp (.node c l k v rs.1)
      pure (t2, rs.2)

/-- `#get(node, key)`: standard BST search returning the node or null. -/
def getNode (t : Tree α β) (key : α) : Tree α β :=
  match t with
  | .nil => .nil
  | .node c l k v r =>
    if key = k then .node c l k v r
    else if key < k then getNode l key
    else getNode r key

/-- `#min(node)`: descend all left. -/
def minNode : Tree α β → Tree α β
  | .nil => .nil
  | .node c .nil k v r => .node c .nil k v r
  | .node _ (.node lc ll lk lv lr) _ _ _ => minNode (.node lc ll lk lv lr)

/-- `#max(node)`: descend all right. -/
def maxNode : Tree α β → Tree α β
  | .nil => .nil
  | .node c l k v .nil => .node c l k v .nil
  | .node _ _ _ _ (.node rc rl rk rv rr) => maxNode (.node rc rl rk rv rr)

/-- `#previous(node, key)`: strict predecessor search. -/
def previousNode (t : Tree α β) (key : α) : Tree α β :=
  match t with
  | .nil => .nil
  | .node c l k v r =>
    if key ≤ k then previousNode l key
    else
      match previousNode r key with
      | .nil => .node c l k v r
      | .node pc pl pk pv pr => .node pc pl pk pv pr

/-- `#next(node, key)`: strict successor search. -/
def nextNode (t : Tree α β) (key : α) : Tree α β :=
  match t with
  | .nil => .nil
  | .node c l k v r =>
    if key ≥ k then nextNode r key
    else
      match nextNode l key with
      | .nil => .node c l k v r
      | .node pc pl pk pv pr => .node pc pl pk pv pr

/-- `#deleteMin(node)`, with fuel. -/
def deleteMinNodeF : Nat → Tree α β → Int → Res (Tree α β × Int)
  | 0, _, _ => .outOfFuel
  | _ + 1, .nil, _ => .assertFail
  | fuel + 1, .node c l k v r, size =>
    match l with
    | .nil => .ok (.nil, size - 1)
    | _ => do
      let t1 ←
        if !isRed l && !isRed l.left then moveRedLeft (.node c l k v r)
        else pure (.node c l k v r)
      match t1 with
      | .nil => .assertFail
      | .node c1 l1 k1 v1 r1 =>
        match l1 with
        | .nil => .assertFail
        | _ => do
          let ls ← deleteMinNodeF fuel l1 size
          let t2 ← fixUp (.node c1 ls.1 k1 v1 r1)
          pure (t2, ls.2)

/-- `#deleteMax(node)`, with fuel. -/
def deleteMaxNodeF : Nat → Tree α β → Int → Res (Tree α β × Int)
  | 0, _, _ => .outOfFuel
  | _ + 1, .nil, _ => .assertFail
  | fuel + 1, .node c l k v r, size => do
    let t1 ←
      if isRed l then rotateRight (.node c l k v r) else pure (.node c l k v r)
    match t1 with
    | .nil => .assertFail
    | .node c1 l1 k1 v1 r1 =>
      match r1 with
      | .nil => .ok (.nil, size - 1)
      | _ => do
        let t2 ←
          if !isRed r1 && !isRed r1.left then moveRedRight (.node c1 l1 k1 v1 r1)
          else pure (.node c1 l1 k1 v1 r1)
        match t2 with
        | .nil => .assertFail
        | .node c2 l2 k2 v2 r2 =>
          match r2 with
          | .nil => .assertFail
          | _ => do
            let rs ← deleteMaxNodeF fuel r2 size
            let t3 ← fixUp (.node c2 l2 k2 v2 rs.1)
            pure (t3, rs.2)

/-- `#delete(node, key)`, with fuel. -/
def deleteNodeF : Nat → Tree α β → α → Int → Res (Tree α β × Int)
  | 0, _, _, _ => .outOfFuel
  | _ + 1, .nil, _, _ => .assertFail
  | fuel + 1, .node c l k v r, key, size =>
    if key < k then
      match l with
      | .nil => .assertFail
      | _ => do
        let t1 ←
          if !isRed l && !isRed l.left then moveRedLeft (.node c l k v r)
          else pure (.node c l k v r)
        match t1 with
        | .nil => .assertFail
        | .node c1 l1 k1 v1 r1 =>
          match l1 with
          | .nil => .assertFail
          | _ => do
            let ls ← deleteNodeF fuel l1 key size
            let t2 ← fixUp (.node c1 ls.1 k1 v1 r1)
            pure (t2, ls.2)
    else do
      let t1 ←
        if isRed l then rotateRight (.node c l k v r) else pure (.node c l k v r)
      match t1 with
      | .nil => .assertFail
      | .node c1 l1 k1 v1 r1 =>
        if key = k1 && r1.isNil then .ok (.nil, size - 1)
        else do
          let t2 ←
            if !isRed r1 && (!r1.isNil && !isRed r1.left) then
              moveRedRight (.node c1 l1 k1 v1 r1)
            else pure (.node c1 l1 k1 v1 r1)
          match t2 with
          | .nil => .assertFail
          | .node c2 l2 k2 v2 r2 =>
            if key = k2 then
              match r2 with
              | .nil => .assertFail
              | _ =>
                match minNode r2 with
                | .nil => .assertFail
                | .node _ _ mk mv _ => do
                  let rs ← deleteMinNodeF fuel r2 size
                  let t3 ← fixUp (.node c2 l2 mk mv rs.1)
                  pure (t3, rs.2)
            else
              match r2 with
              | .nil => do
                let t3 ← fixUp (.node c2 l2 k2 v2 .nil)
                pure (t3, size)
              | _ => do
                let rs ← deleteNodeF fuel r2 key size
                let t3 ← fixUp (.node c2 l2 k2 v2 rs.1)
                pure (t3, rs.2)

/-- The public class: the private root pointer and the size attribute. -/
structure RedBlackTree (α β : Type) : Type where
  root : Tree α β
  size : Int
deriving DecidableEq, Repr

/-- A freshly constructed tree. -/
def RedBlackTree.empty : RedBlackTree α β := ⟨.nil, 0⟩

/-- Setting the returned root's color to Black, as the public mutators do
on a non-null root. -/
def paintBlack : Tree α β → Tree α β
  | .nil => .nil
  | .node _ l k v r => .node .Black l k v r

/-- Public `set(key, value)`. -/
def RedBlackTree.set (m : RedBlackTree α β) (key : α) (value : β) :
    Res (RedBlackTree α β) := do
  let rs ← setNode m.root key value m.size
  pure ⟨paintBlack rs.1, rs.2⟩

/-- Public `get(key)`. -/
def RedBlackTree.get (m : RedBlackTree α β) (key : α) : Option β :=
  (getNode m.root key).value?

/-- Public `min()`. -/
def RedBlackTree.minKey (m : RedBlackTree α β) : Option α :=
  match m.root with
  | .nil => none
  | .node c l k v r => (minNode (.node c l k v r)).key?

/-- Public `max()`. -/
def RedBlackTree.maxKey (m : RedBlackTree α β) : Option α :=
  match m.root with
  | .nil => none
  | .node c l k v r => (maxNode (.node c l k v r)).key?

/-- Public `previous(key)`. -/
def RedBlackTree.previous (m : RedBlackTree α β) (key : α) : Option α :=
  (previousNode m.root key).key?

/-- Public `next(key)`. -/
def RedBlackTree.next (m : RedBlackTree α β) (key : α) : Option α :=
  (nextNode m.root key).key?

/-- Public `deleteMin()`: returns the new tree and the boolean result. -/
def RedBlackTree.deleteMin (m : RedBlackTree α β) :
    Res (RedBlackTree α β × Bool) :=
  match m.root with
  | .nil => .ok (m, false)
  | .node c l k v r => do
    let rs ← deleteMinNodeF ((Tree.node c l k v r).count + 1)
      (.node c l k v r) m.size
    pure (⟨paintBlack rs.1, rs.2⟩, decide (rs.2 < m.size))

/-- Public `deleteMax()`. -/
def RedBlackTree.deleteMax (m : RedBlackTree α β) :
    Res (RedBlackTree α β × Bool) :=
  match m.root with
  | .nil => .ok (m, false)
  | .node c l k v r => do
    let rs ← deleteMaxNodeF ((Tree.node c l k v r).count + 1)
      (.node c l k v r) m.size
    pure (⟨paintBlack rs.1, rs.2⟩, decide (rs.2 < m.size))

/-- Public `delete(key)`. -/
def RedBlackTree.delete (m : RedBlackTree α β) (key : α) :
    Res (RedBlackTree α β × Bool) :=
  match m.root with
  | .nil => .ok (m, false)
  | .node c l k v r => do
    let rs ← deleteNodeF ((Tree.node c l k v r).count + 1)
      (.node c l k v r) key m.size
    pure (⟨paintBlack rs.1, rs.2⟩, decide (rs.2 < m.size))

/-- Public `clear()`. -/
def RedBlackTree.clear (m : RedBlackTree α β) : RedBlackTree α β := ⟨.nil, 0⟩

/-- Construction from an iterable of key-value pairs: repeated `set`. -/
def RedBlackTree.ofList (l : List (α × β)) : Res (RedBlackTree α β) :=
  l.foldlM (fun m e => m.set e.1 e.2) RedBlackTree.empty

/-- Public `entries()`: the sequence the fresh iterator yields. -/
def RedBlackTree.entries (m : RedBlackTree α β) : List (α × β) :=
  entriesAux m.root []

/-- Public `keys()`. -/
def RedBlackTree.keys (m : RedBlackTree α β) : List α :=
  keysAux m.root []

/-- Public `values()`. -/
def RedBlackTree.values (m : RedBlackTree α β) : List β :=
  valuesAux m.root []

/-- Public `[Symbol.iterator]()`: the code returns `this.entries()`. -/
def RedBlackTree.symbolIterator (m : RedBlackTree α β) : List (α × β) :=
  m.entries


/-! Spec-side invariant definitions. -/

/-- Local left-leaning shape conditions at every node: no node's right
child is red, and no node has a red left child whose own left child is
red. (The node's own color is constrained by its parent, or by the root
rule at the root.) -/
def shapeOk : Tree α β → Bool
  | .nil => true
  | .node _ l _ _ r =>
    !isRed r && !(isRed l && isRed l.left) && shapeOk l && shapeOk r

/-- Like `shapeOk` but the root itself may have a red left child with a red
left-left grandchild; the shape `setNode` hands back to its caller. -/
def shapeOkA : Tree α β → Bool
  | .nil => true
  | .node _ l _ _ r => !isRed r && shapeOk l && shapeOk r

/-- Perfect black balance: every path from the root to a null leaf crosses
the same number of black nodes, that number being the index. -/
inductive Bal : Tree α β → Nat → Prop where
  | nil : Bal .nil 0
  | red {l r : Tree α β} {h : Nat} {k : α} {v : β} :
      Bal l h → Bal r h → Bal (.node .Red l k v r) h
  | black {l r : Tree α β} {h : Nat} {k : α} {v : β} :
      Bal l h → Bal r h → Bal (.node .Black l k v r) (h + 1)

/-- Computable black-height check: `some h` when every root-to-null path
crosses the same number `h` of black nodes. -/
def blackHeight? : Tree α β → Option Nat
  | .nil => some 0
  | .node c l _ _ r =>
    match blackHeight? l, blackHeight? r with
    | some hl, some hr =>
      if hl = hr then some (hl + (if c = .Black then 1 else 0)) else none
    | _, _ => none

/-- The full invariant of a tree state: left-leaning shape everywhere, root
black or tree empty, black balance, strictly increasing in-order key
sequence, and size equal to the number of live nodes. -/
def Invariant (m : RedBlackTree α β) : Prop :=
  shapeOk m.root = true ∧ isRed m.root = false ∧
    (blackHeight? m.root).isSome = true ∧
    List.Pairwise (fun a b => a < b) (inorderKeys m.root) ∧
    m.size = (m.root.count : Int)

instance (m : RedBlackTree α β) : Decidable (Invariant m) := by
  unfold Invariant
  infer_instance

/-- A public mutating call, as used in reachability. -/
inductive Op (α β : Type) : Type where
  | set (key : α) (value : β) : Op α β
  | del (key : α) : Op α β
  | delMin : Op α β
  | delMax : Op α β
  | clear : Op α β

/-- Run one public call, keeping only the resulting state. -/
def applyOp (m : RedBlackTree α β) : Op α β → Res (RedBlackTree α β)
  | .set k v => m.set k v
  | .del k => (m.delete k).bind (fun p => .ok p.1)
  | .delMin => m.deleteMin.bind (fun p => .ok p.1)
  | .delMax => m.deleteMax.bind (fun p => .ok p.1)
  | .clear => .ok m.clear

/-- Run a sequence of public calls from a starting state. -/
def applyOps (m : RedBlackTree α β) : List (Op α β) → Res (RedBlackTree α β)
  | [] => .ok m
  | op :: rest => (applyOp m op).bind (fun m2 => applyOps m2 rest)

/-- States reachable from the empty tree through public calls that return. -/
def Reachable (m : RedBlackTree α β) : Prop :=
  ∃ ops : List (Op α β), applyOps RedBlackTree.empty ops = .ok m

/-- Sorted-association-list insertion, the specification of `set` at the
level of the in-order list. -/
def listInsert : List (α × β) → α → β → List (α × β)
  | [], key, val => [(key, val)]
  | (a, b) :: rest, key, val =>
    if key = a then (key, val) :: rest
    else if key < a then (key, val) :: (a, b) :: rest
    else (a, b) :: listInsert rest key val

/-- Association-list lookup, the specification of `get` at the level of
the in-order list. -/
def lookupKV : List (α × β) → α → Option β
  | [], _ => none
  | (a, b) :: rest, key => if key = a then some b else lookupKV rest key

/-- The last value set for a key in a list of set calls, if any. -/
def lastValue (ops : List (α × β)) (key : α) : Option β :=
  (ops.reverse.find? (fun p => p.1 = key)).map (fun p => p.2)

/-- Replace the value stored at a key, touching nothing else; the
specification of `set` on an already-present key. -/
def updateValue : Tree α β → α → β → Tree α β
  | .nil, _, _ => .nil
  | .node c l k v r, key, val =>
    if key = k then .node c l k val r
    else if key < k then .node c (updateValue l key val) k v r
    else .node c l k v (updateValue r key val)

/-- Erase keys and colors, keeping shape and values; used to state frame
conditions. -/
def Tree.valueShape : Tree α β → Tree Unit β
  | .nil => .nil
  | .node _ l _ v r => .node .Red l.valueShape () v r.valueShape

/-- Erase values, keeping shape, keys and colors; used to state frame
conditions. -/
def Tree.keyColorShape : Tree α β → Tree α Unit
  | .nil => .nil
  | .node c l k _ r => .node c l.keyColorShape k () r.keyColorShape

/-- Repeated `deleteMin` driven by fuel, recording the minimum key before
each deletion, stopping on an empty tree. -/
def drainMin : Nat → RedBlackTree α β → Res (List α)
  | 0, m => if m.root.isNil then .ok [] else .outOfFuel
  | fuel + 1, m =>
    match m.minKey with
    | none => .ok []
    | some k =>
      (m.deleteMin).bind (fun p => (drainMin fuel p.1).bind
        (fun rest => .ok (k :: rest)))

/-- Repeated `deleteMax`, recording the maximum key before each deletion. -/
def drainMax : Nat → RedBlackTree α β → Res (List α)
  | 0, m => if m.root.isNil then .ok [] else .outOfFuel
  | fuel + 1, m =>
    match m.maxKey with
    | none => .ok []
    | some k =>
      (m.deleteMax).bind (fun p => (drainMax fuel p.1).bind
        (fun rest => .ok (k :: rest)))

/-! Sample states used to instantiate the claims below. Each literal is the
exact state the corresponding public-call sequence produces. -/

def sampleA : RedBlackTree Nat Nat :=
  ⟨.node .Black (.node .Red .nil 2 20 .nil) 3 30 .nil, 2⟩

def sample1357 : RedBlackTree Nat Nat :=
  ⟨.node .Black (.node .Black .nil 1 1 .nil) 3 3
    (.node .Black (.node .Red .nil 5 5 .nil) 7 7 .nil), 4⟩

def sampleC2 : RedBlackTree Nat Nat := ⟨.node .Black .nil 5 50 .nil, 1⟩

def sampleC3 : RedBlackTree Nat Nat :=
  ⟨.node .Black (.node .Red .nil 1 30 .nil) 2 20 .nil, 2⟩

def sampleC9 : RedBlackTree Nat Nat :=
  ⟨.node .Black (.node .Red .nil 3 30 .nil) 5 50 .nil, 2⟩

/-! Basic lemmas about the embedding. -/

@[simp]
theorem Res.bind_okL {γ δ : Type} (a : γ) (f : γ → Res δ) :
    Res.bind (.ok a) f = f a := rfl

@[simp]
theorem Res.bind_failL {γ δ : Type} (f : γ → Res δ) :
    Res.bind .assertFail f = .assertFail := rfl

@[simp]
theorem Res.bind_fuelL {γ δ : Type} (f : γ → Res δ) :
    Res.bind .outOfFuel f = .outOfFuel := rfl

@[simp]
theorem Res.monadBind {γ δ : Type} (x : Res γ) (f : γ → Res δ) :
    x >>= f = Res.bind x f := rfl

@[simp]
theorem Res.monadPure {γ : Type} (a : γ) : (pure a : Res γ) = .ok a := rfl

@[simp]
theorem Tree.left_nil : (Tree.nil : Tree α β).left = .nil := rfl

@[simp]
theorem Tree.left_node (c : Color) (l : Tree α β) (k : α) (v : β)
    (r : Tree α β) : (Tree.node c l k v r).left = l := rfl

@[simp]
theorem Tree.right_nil : (Tree.nil : Tree α β).right = .nil := rfl

@[simp]
theorem Tree.right_node (c : Color) (l : Tree α β) (k : α) (v : β)
    (r : Tree α β) : (Tree.node c l k v r).right = r := rfl

@[simp]
theorem Tree.isNil_nil : (Tree.nil : Tree α β).isNil = true := rfl

@[simp]
theorem Tree.isNil_node (c : Color) (l : Tree α β) (k : α) (v : β)
    (r : Tree α β) : (Tree.node c l k v r).isNil = false := rfl

@[simp]
theorem Tree.key?_nil : (Tree.nil : Tree α β).key? = none := rfl

@[simp]
theorem Tree.key?_node (c : Color) (l : Tree α β) (k : α) (v : β)
    (r : Tree α β) : (Tree.node c l k v r).key? = some k := rfl

@[simp]
theorem Tree.value?_nil : (Tree.nil : Tree α β).value? = none := rfl

@[simp]
theorem Tree.value?_node (c : Color) (l : Tree α β) (k : α) (v : β)
    (r : Tree α β) : (Tree.node c l k v r).value? = some v := rfl

@[simp]
theorem isRed_nil : isRed (Tree.nil : Tree α β) = false := rfl

@[simp]
theorem isRed_red (l : Tree α β) (k : α) (v : β) (r : Tree α β) :
    isRed (Tree.node .Red l k v r) = true := rfl

@[simp]
theorem isRed_black (l : Tree α β) (k : α) (v : β) (r : Tree α β) :
    isRed (Tree.node .Black l k v r) = false := rfl

theorem isRed_false_cases {t : Tree α β} (h : isRed t = false) :
    t = .nil ∨ ∃ l k v r, t = .node .Black l k v r := by
  cases t with
  | nil => exact Or.inl rfl
  | node c l k v r =>
    cases c with
    | Red => simp at h
    | Black => exact Or.inr ⟨l, k, v, r, rfl⟩

theorem isRed_true_cases {t : Tree α β} (h : isRed t = true) :
    ∃ l k v r, t = .node .Red l k v r := by
  cases t with
  | nil => simp at h
  | node c l k v r =>
    cases c with
    | Red => exact ⟨l, k, v, r, rfl⟩
    | Black => simp at h

@[simp]
theorem inorderP_nil : inorderP (Tree.nil : Tree α β) = [] := rfl

@[simp]
theorem inorderP_node (c : Color) (l : Tree α β) (k : α) (v : β)
    (r : Tree α β) :
    inorderP (Tree.node c l k v r) = inorderP l ++ (k, v) :: inorderP r := rfl

theorem inorderP_ne_nil (c : Color) (l : Tree α β) (k : α) (v : β)
    (r : Tree α β) : inorderP (Tree.node c l k v r) ≠ [] := by
  simp

theorem count_eq_length_inorderP (t : Tree α β) :
    t.count = (inorderP t).length := by
  induction t with
  | nil => rfl
  | node c l k v r ihl ihr => simp [Tree.count, ihl, ihr]; omega

/-- Dropping the first element of a node's in-order list when the left
subtree is not empty. -/
theorem inorderP_node_tail (c : Color) (cl : Color) (ll : Tree α β) (lk : α)
    (lv : β) (lr : Tree α β) (k : α) (v : β) (r : Tree α β) :
    (inorderP (Tree.node c (.node cl ll lk lv lr) k v r)).tail =
      (inorderP (Tree.node cl ll lk lv lr)).tail ++ (k, v) :: inorderP r := by
  simp only [inorderP_node]
  rw [List.tail_append_of_ne_nil]
  exact inorderP_ne_nil cl ll lk lv lr

theorem bal_nil_inv {h : Nat} (hb : Bal (Tree.nil : Tree α β) h) : h = 0 := by
  cases hb; rfl

theorem bal_red_inv {l r : Tree α β} {k : α} {v : β} {h : Nat}
    (hb : Bal (Tree.node .Red l k v r) h) : Bal l h ∧ Bal r h := by
  cases hb; exact ⟨by assumption, by assumption⟩

theorem bal_black_inv {l r : Tree α β} {k : α} {v : β} {h : Nat}
    (hb : Bal (Tree.node .Black l k v r) h) :
    ∃ h0, h = h0 + 1 ∧ Bal l h0 ∧ Bal r h0 := by
  cases hb with
  | black hl hr => exact ⟨_, rfl, hl, hr⟩

theorem bal_node_inv {c : Color} {l r : Tree α β} {k : α} {v : β} {h : Nat}
    (hb : Bal (Tree.node c l k v r) h) :
    ∃ h0, Bal l h0 ∧ Bal r h0 ∧
      h = h0 + (if c = .Black then 1 else 0) := by
  cases c with
  | Red => obtain ⟨hl, hr⟩ := bal_red_inv hb; exact ⟨h, hl, hr, by simp⟩
  | Black =>
    obtain ⟨h0, rfl, hl, hr⟩ := bal_black_inv hb
    exact ⟨h0, hl, hr, by simp⟩

theorem bal_node_mk {c : Color} {l r : Tree α β} {h : Nat} (k : α) (v : β)
    (hl : Bal l h) (hr : Bal r h) :
    Bal (Tree.node c l k v r) (h + (if c = .Black then 1 else 0)) := by
  cases c with
  | Red => simpa using Bal.red hl hr
  | Black => simpa using Bal.black hl hr

/-- A black-balanced tree of height zero that is not red is empty. -/
theorem bal_zero_not_red {t : Tree α β} (hb : Bal t 0)
    (hr : isRed t = false) : t = .nil := by
  cases t with
  | nil => rfl
  | node c l k v r =>
    cases c with
    | Red => simp at hr
    | Black => obtain ⟨h0, hh, _, _⟩ := bal_black_inv hb; omega

/-- A black-balanced tree of positive height that is not red is a black
node. -/
theorem bal_pos_not_red {t : Tree α β} {h : Nat} (hb : Bal t (h + 1))
    (hr : isRed t = false) :
    ∃ l k v r, t = .node .Black l k v r ∧ Bal l h ∧ Bal r h := by
  cases t with
  | nil => exact absurd (bal_nil_inv hb) (by omega)
  | node c l k v r =>
    cases c with
    | Red => simp at hr
    | Black =>
      obtain ⟨h0, hh, hl, hrr⟩ := bal_black_inv hb
      have : h0 = h := by omega
      subst this
      exact ⟨l, k, v, r, rfl, hl, hrr⟩

theorem bal_blackHeight {t : Tree α β} {h : Nat} (hb : Bal t h) :
    blackHeight? t = some h := by
  induction hb with
  | nil => rfl
  | red hl hr ihl ihr => simp [blackHeight?, ihl, ihr]
  | black hl hr ihl ihr => simp [blackHeight?, ihl, ihr]

theorem blackHeight_bal {t : Tree α β} {h : Nat}
    (hb : blackHeight? t = some h) : Bal t h := by
  induction t generalizing h with
  | nil => simp [blackHeight?] at hb; subst hb; exact Bal.nil
  | node c l k v r ihl ihr =>
    simp only [blackHeight?] at hb
    cases hl : blackHeight? l with
    | none => rw [hl] at hb; simp at hb
    | some a =>
      cases hr : blackHeight? r with
      | none => rw [hl, hr] at hb; simp at hb
      | some b =>
        rw [hl, hr] at hb
        by_cases hab : a = b
        · subst hab
          simp only [if_pos, Option.some_inj] at hb
          subst hb
          exact bal_node_mk k v (ihl hl) (ihr hr)
        · simp only [if_neg hab] at hb
          simp at hb

theorem blackHeight_isSome_iff_bal (t : Tree α β) :
    (blackHeight? t).isSome = true ↔ ∃ h, Bal t h := by
  constructor
  · intro hs
    cases hh : blackHeight? t with
    | none => rw [hh] at hs; simp at hs
    | some h => exact ⟨h, blackHeight_bal hh⟩
  · rintro ⟨h, hb⟩
    rw [bal_blackHeight hb]
    rfl

/-- `shapeOk` ignores the root's own color. -/
theorem shapeOk_recolor (c c2 : Color) (l : Tree α β) (k : α) (v : β)
    (r : Tree α β) :
    shapeOk (Tree.node c l k v r) = shapeOk (Tree.node c2 l k v r) := rfl

theorem shapeOk_node_parts {c : Color} {l r : Tree α β} {k : α} {v : β}
    (h : shapeOk (Tree.node c l k v r) = true) :
    isRed r = false ∧ (isRed l = false ∨ isRed l.left = false) ∧
      shapeOk l = true ∧ shapeOk r = true := by
  simp only [shapeOk, Bool.and_eq_true, Bool.not_eq_true] at h
  obtain ⟨⟨⟨h1, h2⟩, h3⟩, h4⟩ := h
  refine ⟨by simpa using h1, ?_, h3, h4⟩
  cases hl : isRed l with
  | false => exact Or.inl rfl
  | true =>
    right
    cases hll : isRed l.left with
    | false => rfl
    | true => rw [hl, hll] at h2; simp at h2

theorem shapeOk_node_mk {c : Color} {l r : Tree α β} {k : α} {v : β}
    (h1 : isRed r = false) (h2 : isRed l = false ∨ isRed l.left = false)
    (h3 : shapeOk l = true) (h4 : shapeOk r = true) :
    shapeOk (Tree.node c l k v r) = true := by
  simp only [shapeOk, Bool.and_eq_true, Bool.not_eq_true]
  refine ⟨⟨⟨by simp [h1], ?_⟩, h3⟩, h4⟩
  rcases h2 with h2 | h2 <;> simp [h2]

@[simp]
theorem flipColor_red : flipColor .Red = .Black := rfl

@[simp]
theorem flipColor_black : flipColor .Black = .Red := rfl

@[simp]
theorem flipColor_flipColor (c : Color) : flipColor (flipColor c) = c := by
  cases c <;> rfl

/-- fixUp is the identity when the node already satisfies the local
left-leaning conditions. -/
theorem fixUp_id {t : Tree α β} (h1 : isRed t.right = false)
    (h2 : isRed t.left = false ∨ isRed t.left.left = false) :
    fixUp t = .ok t := by
  rcases h2 with h2 | h2 <;>
    simp [fixUp, h1, h2]

theorem deleteMin_main {fuel : Nat} : ∀ {t : Tree α β} {s : Int} {h : Nat},
    t.count < fuel → shapeOk t = true → Bal t h →
    (isRed t = true → isRed t.left = false) → t ≠ .nil →
    ∃ t2, deleteMinNodeF fuel t s = .ok (t2, s - 1) ∧
      inorderP t2 = (inorderP t).tail ∧ shapeOk t2 = true ∧
      (∃ h2, Bal t2 h2) ∧
      ((isRed t = true ∨ isRed t.left = true) →
        (Bal t2 h ∧ (isRed t = false → isRed t2 = false) ∧
          (isRed t2 = true → isRed t2.left = false))) := by
  induction fuel with
  | zero => intro t s h hc _ _ _ _; omega
  | succ fuel ih =>
    intro t s h hc hs hb hrr hne
    match t with
    | .nil => exact absurd rfl hne
    | .node c l k v r =>
      obtain ⟨hsr, hsll, hsl, hsr2⟩ := shapeOk_node_parts hs
      obtain ⟨h0, hbl, hbr, hh⟩ := bal_node_inv hb
      match l with
      | .nil =>
        -- leftmost node: balance forces the right child to be empty too
        have hr0 : h0 = 0 := by
          have := bal_nil_inv hbl
          omega
        subst hr0
        have hrnil : r = .nil := bal_zero_not_red hbr hsr
        subst hrnil
        refine ⟨.nil, by simp [deleteMinNodeF], by simp, rfl, ⟨0, Bal.nil⟩, ?_⟩
        rintro (hdp | hdp)
        · cases c with
          | Black => simp at hdp
          | Red =>
            simp only [if_neg (by simp : ¬(Color.Red = Color.Black))] at hh
            subst hh
            exact ⟨Bal.nil, fun hf => by simp at hf, fun hf => by simp at hf⟩
        · simp at hdp
      | .node lc ll lk lv lr =>
        simp only [deleteMinNodeF, Res.monadBind, Res.monadPure]
        have hcnt : (Tree.node lc ll lk lv lr).count < fuel := by
          simp only [Tree.count] at hc ⊢
          omega
        by_cases hcase : isRed (Tree.node lc ll lk lv lr) = true ∨ isRed ll = true
        · -- the left child or its left child is already red: no moveRedLeft
          have hguard : (!isRed (Tree.node lc ll lk lv lr)
              && !isRed (Tree.node lc ll lk lv lr).left) = false := by
            rcases hcase with hcase | hcase <;> simp [hcase]
          rw [hguard]
          simp only [Bool.false_eq_true, if_false, Res.bind_okL]
          have hLrr : isRed (Tree.node lc ll lk lv lr) = true →
              isRed (Tree.node lc ll lk lv lr).left = false := by
            intro hred
            rcases hsll with hx | hx
            · rw [hred] at hx; cases hx
            · simpa using hx
          obtain ⟨l2, hdel, hino, hshape2, hex, hdp2⟩ :=
            ih hcnt hsl hbl hLrr (by simp)
          have hdpL : isRed (Tree.node lc ll lk lv lr) = true ∨
              isRed (Tree.node lc ll lk lv lr).left = true := by
            rcases hcase with hcase | hcase
            · exact Or.inl hcase
            · exact Or.inr (by simpa using hcase)
          obtain ⟨hbal2, hcol2, hrr2⟩ := hdp2 hdpL
          have hl2or : isRed l2 = false ∨ isRed l2.left = false := by
            cases hx : isRed l2 with
            | false => exact Or.inl rfl
            | true => exact Or.inr (hrr2 hx)
          rw [hdel]
          simp only [Res.bind_okL]
          rw [fixUp_id (by simpa using hsr) (by simpa using hl2or)]
          refine ⟨.node c l2 k v r, by simp, ?_, ?_, ?_, ?_⟩
          · rw [inorderP_node_tail]
            simp [hino]
          · exact shapeOk_node_mk hsr hl2or hshape2 hsr2
          · exact ⟨_, bal_node_mk k v hbal2 hbr⟩
          · intro hdpT
            refine ⟨by rw [hh]; exact bal_node_mk k v hbal2 hbr, ?_, ?_⟩
            · intro hx
              simpa using hx
            · intro hx
              have hcred : isRed (Tree.node lc ll lk lv lr) = false := by
                apply hrr
                simpa using hx
              simpa using hcol2 hcred
        · -- both black: moveRedLeft borrows from the right sibling
          have hgl : isRed (Tree.node lc ll lk lv lr) = false := by
            cases hx : isRed (Tree.node lc ll lk lv lr) with
            | false => rfl
            | true => exact absurd (Or.inl hx) hcase
          have hgll : isRed ll = false := by
            cases hx : isRed ll with
            | false => rfl
            | true => exact absurd (Or.inr hx) hcase
          have hlcB : lc = .Black := by
            cases lc with
            | Red => simp at hgl
            | Black => rfl
          subst hlcB
          obtain ⟨hL1, hhl, hbll, hblr⟩ := bal_black_inv hbl
          obtain ⟨rl0, rk0, rv0, rr0, hrq, hbrl, hbrr⟩ := by
            rw [hhl] at hbr
            exact bal_pos_not_red hbr hsr
          subst hrq
          obtain ⟨hr1, hr2, hr3, hr4⟩ := shapeOk_node_parts hsr2
          have hguard : (!isRed (Tree.node .Black ll lk lv lr)
              && !isRed (Tree.node .Black ll lk lv lr).left) = true := by
            simp [hgll]
          rw [hguard]
          simp only [if_true]
          cases hrl0 : isRed rl0 with
          | false =>
            -- no borrow: flip colors only
            have hmrl : moveRedLeft (Tree.node c (.node .Black ll lk lv lr) k v
                (.node .Black rl0 rk0 rv0 rr0)) =
                .ok (.node (flipColor c) (.node .Red ll lk lv lr) k v
                  (.node .Red rl0 rk0 rv0 rr0)) := by
              simp [moveRedLeft, flipColors, hrl0]
            rw [hmrl]
            simp only [Res.bind_okL]
            have hLrr : isRed (Tree.node Color.Red ll lk lv lr) = true →
                isRed (Tree.node Color.Red ll lk lv lr).left = false := by
              intro _
              simpa using hgll
            have hsL1 : shapeOk (Tree.node Color.Red ll lk lv lr) = true := by
              rw [shapeOk_recolor .Red .Black]
              exact hsl
            obtain ⟨l2, hdel, hino, hshape2, hex, hdp2⟩ :=
              ih (by simpa [Tree.count] using hcnt) hsL1
                (Bal.red hbll hblr) hLrr (by simp)
            obtain ⟨hbal2, hcol2, hrr2⟩ := hdp2 (Or.inl (by simp))
            rw [hdel]
            simp only [Res.bind_okL]
            cases hl2 : isRed l2 with
            | false =>
              -- recursion result black: rotate the red right child left
              have hfix : fixUp (Tree.node (flipColor c) l2 k v
                  (.node .Red rl0 rk0 rv0 rr0)) =
                  .ok (.node (flipColor c) (.node .Red l2 k v rl0) rk0 rv0 rr0) := by
                simp [fixUp, hl2, rotateLeft, hrl0, hr1]
              rw [hfix]
              simp only [Res.bind_okL]
              refine ⟨_, rfl, ?_, ?_, ?_, ?_⟩
              · rw [inorderP_node_tail]
                simp [hino, inorderP_node_tail]
              · refine shapeOk_node_mk (by simpa using hr1) (Or.inr (by simpa using hl2)) ?_ hr4
                exact shapeOk_node_mk hrl0 (Or.inl hl2) hshape2 hr3
              · cases c with
                | Red =>
                  refine ⟨hL1 + 1, ?_⟩
                  simp only [flipColor_red]
                  exact Bal.black (Bal.red hbal2 hbrl) hbrr
                | Black =>
                  refine ⟨hL1, ?_⟩
                  simp only [flipColor_black]
                  exact Bal.red (Bal.red hbal2 hbrl) hbrr
              · intro hdpT
                have hcR : c = .Red := by
                  rcases hdpT with hx | hx
                  · cases c with
                    | Red => rfl
                    | Black => simp at hx
                  · rw [Tree.left_node] at hx
                    rw [hx] at hgl
                    cases hgl
                subst hcR
                refine ⟨?_, ?_, ?_⟩
                · rw [hh, hhl]
                  simp only [flipColor_red]
                  have : hL1 + 1 + (if Color.Red = Color.Black then 1 else 0) = hL1 + 1 := by simp
                  rw [this]
                  exact Bal.black (Bal.red hbal2 hbrl) hbrr
                · intro hx
                  simp at hx
                · intro hx
                  simp only [flipColor_red] at hx
                  simp at hx
            | true =>
              -- recursion result red: both children red, flip colors back
              obtain ⟨a, ak, av, b, hl2q⟩ := isRed_true_cases hl2
              subst hl2q
              have hrra := hrr2 hl2
              have hfix : fixUp (Tree.node (flipColor c)
                  (.node .Red a ak av b) k v (.node .Red rl0 rk0 rv0 rr0)) =
                  .ok (.node c (.node .Black a ak av b) k v
                    (.node .Black rl0 rk0 rv0 rr0)) := by
                simp only [Tree.left_node, Tree.right_node] at hrra
                simp [fixUp, flipColors, hrra]
              rw [hfix]
              obtain ⟨hba, hbb⟩ := bal_red_inv hbal2
              simp only [Res.bind_okL]
              refine ⟨_, rfl, ?_, ?_, ?_, ?_⟩
              · rw [inorderP_node_tail]
                simp only [inorderP_node] at hino ⊢
                simp [hino]
              · refine shapeOk_node_mk (by simp) (Or.inl (by simp)) ?_ ?_
                · rw [shapeOk_recolor .Black .Red]
                  exact hshape2
                · rw [shapeOk_recolor .Black .Red] at hsr2
                  rw [shapeOk_recolor .Black .Red]
                  exact hsr2
              · refine ⟨hL1 + 1 + (if c = .Black then 1 else 0), ?_⟩
                exact bal_node_mk k v (Bal.black hba hbb) (Bal.black hbrl hbrr)
              · intro hdpT
                refine ⟨?_, ?_, ?_⟩
                · rw [hh, hhl]
                  exact bal_node_mk k v (Bal.black hba hbb) (Bal.black hbrl hbrr)
                · intro hx
                  simpa using hx
                · intro hx
                  simp
          | true =>
            -- borrow: the right sibling's left child is red
            obtain ⟨A, ak, av, B, hrl0q⟩ := isRed_true_cases hrl0
            subst hrl0q
            obtain ⟨ha1, ha2, ha3, ha4⟩ := shapeOk_node_parts hr3
            have hANr : isRed A = false := by
              rcases hr2 with hx | hx
              · simp at hx
              · simpa using hx
            obtain ⟨hbA, hbB⟩ := bal_red_inv hbrl
            have hmrl : moveRedLeft (Tree.node c (.node .Black ll lk lv lr) k v
                (.node .Black (.node .Red A ak av B) rk0 rv0 rr0)) =
                .ok (.node c
                  (.node .Black (.node .Red ll lk lv lr) k v A) ak av
                  (.node .Black B rk0 rv0 rr0)) := by
              simp [moveRedLeft, flipColors, rotateRight, rotateLeft]
            rw [hmrl]
            simp only [Res.bind_okL]
            -- recurse into the rebuilt left subtree
            have hsL1 : shapeOk (Tree.node Color.Black
                (.node .Red ll lk lv lr) k v A) = true := by
              refine shapeOk_node_mk hANr (Or.inr (by simpa using hgll)) ?_ ha3
              rw [shapeOk_recolor .Red .Black]
              exact hsl
            have hbL1 : Bal (Tree.node Color.Black
                (.node .Red ll lk lv lr) k v A) (hL1 + 1) :=
              Bal.black (Bal.red hbll hblr) hbA
            have hcnt2 : (Tree.node Color.Black
                (.node .Red ll lk lv lr) k v A).count < fuel := by
              simp only [Tree.count] at hc ⊢
              omega
            obtain ⟨l2, hdel, hino, hshape2, hex, hdp2⟩ :=
              ih hcnt2 hsL1 hbL1 (by intro hx; simp at hx) (by simp)
            obtain ⟨hbal2, hcol2, hrr2⟩ := hdp2 (Or.inr (by simp))
            have hl2B : isRed l2 = false := hcol2 (by simp)
            rw [hdel]
            simp only [Res.bind_okL]
            rw [fixUp_id (by simp) (Or.inl (by simpa using hl2B))]
            simp only [Res.bind_okL]
            refine ⟨_, rfl, ?_, ?_, ?_, ?_⟩
            · rw [inorderP_node_tail]
              rw [inorderP_node_tail] at hino
              simp only [inorderP_node] at hino ⊢
              simp [hino]
            · refine shapeOk_node_mk (by simp) (Or.inl hl2B) hshape2 ?_
              exact shapeOk_node_mk hr1 (Or.inl ha1) ha4 hr4
            · refine ⟨hL1 + 1 + (if c = .Black then 1 else 0), ?_⟩
              exact bal_node_mk ak av hbal2 (Bal.black hbB hbrr)
            · intro hdpT
              refine ⟨?_, ?_, ?_⟩
              · rw [hh, hhl]
                exact bal_node_mk ak av hbal2 (Bal.black hbB hbrr)
              · intro hx
                simpa using hx
              · intro hx
                simpa using hl2B
theorem inorderP_node_dropLast (c : Color) (l : Tree α β) (k : α) (v : β)
    (r : Tree α β) :
    (inorderP (Tree.node c l k v r)).dropLast =
      inorderP l ++ ((k, v) :: inorderP r).dropLast := by
  simp only [inorderP_node]
  exact List.dropLast_append_cons

theorem deleteMax_main {fuel : Nat} : ∀ {t : Tree α β} {s : Int} {h : Nat},
    t.count < fuel →
    shapeOk t.left = true → shapeOk t.right = true →
    (isRed t.left = true → isRed t.left.left = false) →
    (isRed t = true → isRed t.left = false) →
    (isRed t = true → isRed t.right = false) →
    (isRed t.left = true → isRed t.right = false) →
    (isRed t.right = true → isRed t.right.left = false) →
    Bal t h → t ≠ .nil →
    ∃ t2, deleteMaxNodeF fuel t s = .ok (t2, s - 1) ∧
      inorderP t2 = (inorderP t).dropLast ∧ shapeOk t2 = true ∧
      (∃ h2, Bal t2 h2) ∧
      ((isRed t = true ∨ isRed t.left = true ∨ isRed t.right = true) →
        (Bal t2 h ∧ (isRed t2 = true → isRed t2.left = false) ∧
          (isRed t = false → isRed t2 = false))) := by
  induction fuel with
  | zero => intro t s h hc _ _ _ _ _ _ _ _ _; omega
  | succ fuel ih =>
    intro t s h hc hsl hsr hsll h1 h2 h3 h4 hb hne
    match t with
    | .nil => exact absurd rfl hne
    | .node c l k v r =>
      simp only [Tree.left_node, Tree.right_node] at hsl hsr hsll h1 h2 h3 h4
      obtain ⟨h0, hbl, hbr, hh⟩ := bal_node_inv hb
      simp only [deleteMaxNodeF, Res.monadBind, Res.monadPure]
      cases hIl : isRed l with
      | true =>
        -- left child red: rotate right first, recursion goes into the
        -- rebuilt red right child
        obtain ⟨ll, lk, lv, lr, rfl⟩ := isRed_true_cases hIl
        have hcB : c = .Black := by
          cases c with
          | Red => have h5 := h1 (by simp); simp at h5
          | Black => rfl
        subst hcB
        obtain ⟨hp1, hp2, hp3, hp4⟩ := shapeOk_node_parts hsl
        have hll : isRed ll = false := hsll (by simp)
        have hrB : isRed r = false := h3 (by simp)
        obtain ⟨hbll, hblr⟩ := bal_red_inv hbl
        have hrot : rotateRight (Tree.node .Black
            (.node .Red ll lk lv lr) k v r) =
            .ok (.node .Black ll lk lv (.node .Red lr k v r)) := by
          simp [rotateRight]
        rw [hrot]
        simp only [Res.bind_okL, isRed_red, Bool.not_true, Bool.false_and,
          Bool.false_eq_true, if_false]
        obtain ⟨m2, hdel, hino, hshape2, hex, hdp2⟩ :=
          ih (by simp only [Tree.count] at hc ⊢; omega)
            (by simpa using hp4) (by simpa using hsr)
            (by intro hx; rw [Tree.left_node] at hx; rw [hp1] at hx; cases hx)
            (by intro _; simpa using hp1)
            (by intro _; simpa using hrB)
            (by intro hx; rw [Tree.left_node] at hx; rw [hp1] at hx; cases hx)
            (by intro hx; rw [Tree.right_node] at hx; rw [hrB] at hx; cases hx)
            (Bal.red hblr hbr) (by simp)
        obtain ⟨hbal2, hrr2, hcol2⟩ := hdp2 (Or.inl (by simp))
        rw [hdel]
        simp only [Res.bind_okL]
        have hino2 : inorderP m2 =
            inorderP lr ++ ((k, v) :: inorderP r).dropLast := by
          rw [hino, inorderP_node_dropLast]
        cases hm2 : isRed m2 with
        | false =>
          rw [fixUp_id (by simpa using hm2) (Or.inl (by simpa using hll))]
          simp only [Res.bind_okL]
          have hhh : h = h0 + 1 := by simpa using hh
          refine ⟨_, rfl, ?_, ?_, ?_, ?_⟩
          · simp only [inorderP_node]
            rw [List.dropLast_append_cons, hino2]
            simp [List.append_assoc]
          · exact shapeOk_node_mk hm2 (Or.inl hll) hp3 hshape2
          · exact ⟨h0 + 1, Bal.black hbll hbal2⟩
          · intro _
            refine ⟨by rw [hhh]; exact Bal.black hbll hbal2, ?_, ?_⟩
            · intro hx; simp at hx
            · intro _; simp
        | true =>
          obtain ⟨m2l, mk, mv, m2r, rfl⟩ := isRed_true_cases hm2
          have hrr2m := hrr2 (by simp)
          rw [Tree.left_node] at hrr2m
          obtain ⟨hq1, hq2, hq3, hq4⟩ := shapeOk_node_parts hshape2
          have hfix : fixUp (Tree.node .Black ll lk lv
              (.node .Red m2l mk mv m2r)) =
              .ok (.node .Black (.node .Red ll lk lv m2l) mk mv m2r) := by
            simp [fixUp, hll, rotateLeft, hrr2m, hq1]
          rw [hfix]
          simp only [Res.bind_okL]
          obtain ⟨hbm2l, hbm2r⟩ := bal_red_inv hbal2
          have hhh : h = h0 + 1 := by simpa using hh
          refine ⟨_, rfl, ?_, ?_, ?_, ?_⟩
          · simp only [inorderP_node] at hino2 ⊢
            rw [List.dropLast_append_cons]
            simp only [List.append_assoc, List.cons_append]
            rw [hino2]
          · refine shapeOk_node_mk hq1 (Or.inr (by simpa using hll)) ?_ hq4
            exact shapeOk_node_mk hrr2m (Or.inl hll) hp3 hq3
          · exact ⟨h0 + 1, Bal.black (Bal.red hbll hbm2l) hbm2r⟩
          · intro _
            refine ⟨by rw [hhh]; exact Bal.black (Bal.red hbll hbm2l) hbm2r,
              ?_, ?_⟩
            · intro hx; simp at hx
            · intro _; simp
      | false =>
        simp only [hIl, Bool.false_eq_true, if_false, Res.bind_okL]
        match r with
        | .nil =>
          have hr0 : h0 = 0 := bal_nil_inv hbr
          subst hr0
          have hlnil : l = .nil := bal_zero_not_red hbl hIl
          subst hlnil
          refine ⟨.nil, rfl, by simp, rfl, ⟨0, Bal.nil⟩, ?_⟩
          rintro (hdp | hdp | hdp)
          · cases c with
            | Black => simp at hdp
            | Red =>
              simp only [if_neg (by simp : ¬(Color.Red = Color.Black))] at hh
              subst hh
              exact ⟨Bal.nil, fun hf => by simp at hf, fun hf => by simp at hf⟩
          · simp at hdp
          · simp at hdp
        | .node rc rl rk rv rr =>
          obtain ⟨hr1, hr2, hr3, hr4⟩ := shapeOk_node_parts hsr
          cases hIr : isRed (Tree.node rc rl rk rv rr) with
          | true =>
            -- red right child at the root: recurse into it directly
            have hrcR : rc = .Red := by
              cases rc with
              | Red => rfl
              | Black => simp at hIr
            subst hrcR
            have hcB : c = .Black := by
              cases c with
              | Red => have h5 := h2 (by simp); simp at h5
              | Black => rfl
            subst hcB
            have hrl : isRed rl = false := by
              have := h4 (by simp)
              simpa using this
            simp only [isRed_red, Bool.not_true, Bool.false_and,
              Bool.false_eq_true, if_false, Res.bind_okL]
            obtain ⟨m2, hdel, hino, hshape2, hex, hdp2⟩ :=
              ih (by simp only [Tree.count] at hc ⊢; omega)
                (by simpa using hr3) (by simpa using hr4)
                (by intro hx; rw [Tree.left_node] at hx; rw [hrl] at hx; cases hx)
                (by intro _; simpa using hrl)
                (by intro _; simpa using hr1)
                (by intro hx; rw [Tree.left_node] at hx; rw [hrl] at hx; cases hx)
                (by intro hx; rw [Tree.right_node] at hx; rw [hr1] at hx; cases hx)
                hbr (by simp)
            obtain ⟨hbal2, hrr2, hcol2⟩ := hdp2 (Or.inl (by simp))
            rw [hdel]
            simp only [Res.bind_okL]
            have hhh : h = h0 + 1 := by simpa using hh
            cases hm2 : isRed m2 with
            | false =>
              rw [fixUp_id (by simpa using hm2) (Or.inl (by simpa using hIl))]
              simp only [Res.bind_okL]
              refine ⟨_, rfl, ?_, ?_, ?_, ?_⟩
              · simp only [inorderP_node]
                simp only [inorderP_node] at hino
                rw [List.dropLast_append_cons,
                  List.dropLast_cons_of_ne_nil (by simp), ← hino]
              · exact shapeOk_node_mk hm2 (Or.inl hIl) hsl hshape2
              · exact ⟨h0 + 1, Bal.black hbl hbal2⟩
              · intro _
                refine ⟨by rw [hhh]; exact Bal.black hbl hbal2, ?_, ?_⟩
                · intro hx; simp at hx
                · intro _; simp
            | true =>
              obtain ⟨m2l, mk, mv, m2r, rfl⟩ := isRed_true_cases hm2
              have hrr2m := hrr2 (by simp)
              rw [Tree.left_node] at hrr2m
              obtain ⟨hq1, hq2, hq3, hq4⟩ := shapeOk_node_parts hshape2
              have hfix : fixUp (Tree.node .Black l k v
                  (.node .Red m2l mk mv m2r)) =
                  .ok (.node .Black (.node .Red l k v m2l) mk mv m2r) := by
                simp [fixUp, hIl, rotateLeft, hrr2m, hq1]
              rw [hfix]
              simp only [Res.bind_okL]
              obtain ⟨hbm2l, hbm2r⟩ := bal_red_inv hbal2
              refine ⟨_, rfl, ?_, ?_, ?_, ?_⟩
              · simp only [inorderP_node] at hino ⊢
                rw [List.dropLast_append_cons,
                  List.dropLast_cons_of_ne_nil (by simp), ← hino]
                simp [List.append_assoc]
              · refine shapeOk_node_mk hq1 (Or.inr (by simpa using hIl)) ?_ hq4
                exact shapeOk_node_mk hrr2m (Or.inl hIl) hsl hq3
              · exact ⟨h0 + 1, Bal.black (Bal.red hbl hbm2l) hbm2r⟩
              · intro _
                refine ⟨by rw [hhh]; exact Bal.black (Bal.red hbl hbm2l) hbm2r,
                  ?_, ?_⟩
                · intro hx; simp at hx
                · intro _; simp
          | false =>
            have hrcB : rc = .Black := by
              cases rc with
              | Red => simp at hIr
              | Black => rfl
            subst hrcB
            obtain ⟨hR1, hhr, hbrl, hbrr⟩ := bal_black_inv hbr
            cases hrl : isRed rl with
            | true =>
              -- the right child already carries a red: recurse directly
              simp only [isRed_black, Tree.left_node, hrl, Bool.not_false,
                Bool.not_true, Bool.true_and, Bool.false_eq_true, if_false,
                Res.bind_okL]
              have hrll : isRed rl.left = false := by
                rcases hr2 with hx | hx
                · rw [hrl] at hx; cases hx
                · exact hx
              obtain ⟨m2, hdel, hino, hshape2, hex, hdp2⟩ :=
                ih (by simp only [Tree.count] at hc ⊢; omega)
                  (by simpa using hr3) (by simpa using hr4)
                  (by intro _; simpa using hrll)
                  (by intro hx; simp at hx)
                  (by intro hx; simp at hx)
                  (by intro _; simpa using hr1)
                  (by intro hx; rw [Tree.right_node] at hx; rw [hr1] at hx; cases hx)
                  hbr (by simp)
              obtain ⟨hbal2, hrr2, hcol2⟩ :=
                hdp2 (Or.inr (Or.inl (by simpa using hrl)))
              have hm2B : isRed m2 = false := hcol2 (by simp)
              rw [hdel]
              simp only [Res.bind_okL]
              rw [fixUp_id (by simpa using hm2B) (Or.inl (by simpa using hIl))]
              simp only [Res.bind_okL]
              refine ⟨_, rfl, ?_, ?_, ?_, ?_⟩
              · simp only [inorderP_node]
                simp only [inorderP_node] at hino
                rw [List.dropLast_append_cons,
                  List.dropLast_cons_of_ne_nil (by simp), ← hino]
              · exact shapeOk_node_mk hm2B (Or.inl hIl) hsl hshape2
              · exact ⟨h0 + (if c = .Black then 1 else 0),
                  bal_node_mk k v hbl hbal2⟩
              · intro _
                refine ⟨by rw [hh]; exact bal_node_mk k v hbl hbal2, ?_, ?_⟩
                · intro hx
                  simpa using hIl
                · intro hx
                  simpa using hx
            | false =>
              -- both the right child and its left child are black:
              -- moveRedRight borrows from the left side
              simp only [isRed_black, Tree.left_node, hrl, Bool.not_false,
                Bool.true_and, if_true]
              obtain ⟨ll, lk, lv, lr, hlq, hbll, hblr⟩ := by
                rw [hhr] at hbl
                exact bal_pos_not_red hbl hIl
              subst hlq
              obtain ⟨hp1, hp2, hp3, hp4⟩ := shapeOk_node_parts hsl
              cases hll2 : isRed ll with
              | false =>
                -- no borrow: the color flip alone
                have hmrr : moveRedRight (Tree.node c
                    (.node .Black ll lk lv lr) k v
                    (.node .Black rl rk rv rr)) =
                    .ok (.node (flipColor c) (.node .Red ll lk lv lr) k v
                      (.node .Red rl rk rv rr)) := by
                  simp [moveRedRight, flipColors, hll2]
                rw [hmrr]
                simp only [Res.bind_okL]
                obtain ⟨m2, hdel, hino, hshape2, hex, hdp2⟩ :=
                  ih (by simp only [Tree.count] at hc ⊢; omega)
                    (by simpa using hr3) (by simpa using hr4)
                    (by intro hx; rw [Tree.left_node] at hx; rw [hrl] at hx; cases hx)
                    (by intro _; simpa using hrl)
                    (by intro _; simpa using hr1)
                    (by intro hx; rw [Tree.left_node] at hx; rw [hrl] at hx; cases hx)
                    (by intro hx; rw [Tree.right_node] at hx; rw [hr1] at hx; cases hx)
                    (Bal.red hbrl hbrr) (by simp)
                obtain ⟨hbal2, hrr2, hcol2⟩ := hdp2 (Or.inl (by simp))
                rw [hdel]
                simp only [Res.bind_okL]
                cases hm2 : isRed m2 with
                | false =>
                  rw [fixUp_id (by simpa using hm2)
                    (Or.inr (by simpa using hll2))]
                  simp only [Res.bind_okL]
                  refine ⟨_, rfl, ?_, ?_, ?_, ?_⟩
                  · simp only [inorderP_node]
                    simp only [inorderP_node] at hino
                    rw [List.dropLast_append_cons,
                      List.dropLast_cons_of_ne_nil (by simp), ← hino]
                  · refine shapeOk_node_mk hm2 (Or.inr (by simpa using hll2))
                      ?_ hshape2
                    rw [shapeOk_recolor .Red .Black]
                    exact hsl
                  · cases c with
                    | Red =>
                      refine ⟨hR1 + 1, ?_⟩
                      simp only [flipColor_red]
                      exact Bal.black (Bal.red hbll hblr) hbal2
                    | Black =>
                      refine ⟨hR1, ?_⟩
                      simp only [flipColor_black]
                      exact Bal.red (Bal.red hbll hblr) hbal2
                  · intro hdpT
                    have hcR : c = .Red := by
                      rcases hdpT with hx | hx | hx
                      · cases c with
                        | Red => rfl
                        | Black => simp at hx
                      · simp at hx
                      · simp at hx
                    subst hcR
                    have hhh : h = hR1 + 1 := by
                      rw [hh, hhr]
                      simp
                    refine ⟨?_, ?_, ?_⟩
                    · rw [hhh]
                      simp only [flipColor_red]
                      exact Bal.black (Bal.red hbll hblr) hbal2
                    · intro hx
                      simp only [flipColor_red] at hx
                      simp at hx
                    · intro hx
                      simp at hx
                | true =>
                  obtain ⟨m2l, mk, mv, m2r, rfl⟩ := isRed_true_cases hm2
                  have hrr2m := hrr2 (by simp)
                  rw [Tree.left_node] at hrr2m
                  obtain ⟨hq1, hq2, hq3, hq4⟩ := shapeOk_node_parts hshape2
                  have hfix : fixUp (Tree.node (flipColor c)
                      (.node .Red ll lk lv lr) k v
                      (.node .Red m2l mk mv m2r)) =
                      .ok (.node c (.node .Black ll lk lv lr) k v
                        (.node .Black m2l mk mv m2r)) := by
                    simp [fixUp, flipColors, hll2]
                  rw [hfix]
                  simp only [Res.bind_okL]
                  obtain ⟨hbm2l, hbm2r⟩ := bal_red_inv hbal2
                  refine ⟨_, rfl, ?_, ?_, ?_, ?_⟩
                  · simp only [inorderP_node]
                    simp only [inorderP_node] at hino
                    rw [List.dropLast_append_cons,
                      List.dropLast_cons_of_ne_nil (by simp), ← hino]
                  · refine shapeOk_node_mk (by simp) (Or.inl (by simp)) ?_ ?_
                    · rw [shapeOk_recolor .Black .Red]
                      exact hsl
                    · exact shapeOk_node_mk hq1 (Or.inl hrr2m) hq3 hq4
                  · refine ⟨hR1 + 1 + (if c = .Black then 1 else 0), ?_⟩
                    exact bal_node_mk k v (Bal.black hbll hblr)
                      (Bal.black hbm2l hbm2r)
                  · intro _
                    refine ⟨?_, ?_, ?_⟩
                    · rw [hh, hhr]
                      exact bal_node_mk k v (Bal.black hbll hblr)
                        (Bal.black hbm2l hbm2r)
                    · intro hx
                      simp
                    · intro hx
                      simpa using hx
              | true =>
                -- borrow: the left child has a red left child
                obtain ⟨A, ax, av, B, rfl⟩ := isRed_true_cases hll2
                have hANr : isRed A = false := by
                  rcases hp2 with hx | hx
                  · simp at hx
                  · simpa using hx
                obtain ⟨hz1, hz2, hz3, hz4⟩ := shapeOk_node_parts hp3
                obtain ⟨hbA, hbB⟩ := bal_red_inv hbll
                have hsRR : shapeOk (Tree.node Color.Red rl rk rv rr) = true :=
                  shapeOk_node_mk hr1 (Or.inl hrl) hr3 hr4
                have hmrr : moveRedRight (Tree.node c
                    (.node .Black (.node .Red A ax av B) lk lv lr) k v
                    (.node .Black rl rk rv rr)) =
                    .ok (.node c (.node .Black A ax av B) lk lv
                      (.node .Black lr k v (.node .Red rl rk rv rr))) := by
                  simp [moveRedRight, flipColors, rotateRight]
                rw [hmrr]
                simp only [Res.bind_okL]
                obtain ⟨m2, hdel, hino, hshape2, hex, hdp2⟩ :=
                  ih (by simp only [Tree.count] at hc ⊢; omega)
                    (by simpa using hp4)
                    (by simpa using hsRR)
                    (by intro hx; rw [Tree.left_node] at hx; rw [hp1] at hx; cases hx)
                    (by intro hx; simp at hx)
                    (by intro hx; simp at hx)
                    (by intro hx; rw [Tree.left_node] at hx; rw [hp1] at hx; cases hx)
                    (by intro _; simpa using hrl)
                    (Bal.black hblr (Bal.red hbrl hbrr)) (by simp)
                obtain ⟨hbal2, hrr2, hcol2⟩ := hdp2 (Or.inr (Or.inr (by simp)))
                have hm2B : isRed m2 = false := hcol2 (by simp)
                rw [hdel]
                simp only [Res.bind_okL]
                rw [fixUp_id (by simpa using hm2B) (Or.inl (by simp))]
                simp only [Res.bind_okL]
                refine ⟨_, rfl, ?_, ?_, ?_, ?_⟩
                · simp only [inorderP_node]
                  simp only [inorderP_node] at hino
                  rw [List.dropLast_append_cons,
                    List.dropLast_cons_of_ne_nil (by simp)]
                  rw [List.dropLast_append_cons,
                    List.dropLast_cons_of_ne_nil (by simp)] at hino
                  rw [hino]
                  simp [List.append_assoc]
                · refine shapeOk_node_mk hm2B (Or.inl (by simp)) ?_ hshape2
                  exact shapeOk_node_mk hz1 (Or.inl hANr) hz3 hz4
                · refine ⟨hR1 + 1 + (if c = .Black then 1 else 0), ?_⟩
                  exact bal_node_mk lk lv (Bal.black hbA hbB) hbal2
                · intro _
                  refine ⟨?_, ?_, ?_⟩
                  · rw [hh, hhr]
                    exact bal_node_mk lk lv (Bal.black hbA hbB) hbal2
                  · intro hx
                    simp
                  · intro hx
                    simpa using hx
@[simp]
theorem inorderKeys_nil : inorderKeys (Tree.nil : Tree α β) = [] := rfl

@[simp]
theorem inorderKeys_node (c : Color) (l : Tree α β) (k : α) (v : β)
    (r : Tree α β) :
    inorderKeys (Tree.node c l k v r) =
      inorderKeys l ++ k :: inorderKeys r := by
  simp [inorderKeys, inorderP]

theorem pairwise_node_parts {c : Color} {l r : Tree α β} {k : α} {v : β}
    (h : List.Pairwise (fun a b => a < b)
      (inorderKeys (Tree.node c l k v r))) :
    List.Pairwise (fun a b => a < b) (inorderKeys l) ∧
      List.Pairwise (fun a b => a < b) (inorderKeys r) ∧
      (∀ a ∈ inorderKeys l, a < k) ∧ (∀ b ∈ inorderKeys r, k < b) := by
  rw [inorderKeys_node, List.pairwise_append] at h
  obtain ⟨hl, hkr, hx⟩ := h
  rw [List.pairwise_cons] at hkr
  refine ⟨hl, hkr.2, ?_, hkr.1⟩
  intro a ha
  exact hx a ha k (by simp)

theorem pairwise_node_mk {k : α} {keysl keysr : List α}
    (hl : List.Pairwise (fun a b => a < b) keysl)
    (hr : List.Pairwise (fun a b => a < b) keysr)
    (hlk : ∀ a ∈ keysl, a < k) (hkr : ∀ b ∈ keysr, k < b) :
    List.Pairwise (fun a b => a < b) (keysl ++ k :: keysr) := by
  rw [List.pairwise_append]
  refine ⟨hl, ?_, ?_⟩
  · rw [List.pairwise_cons]
    exact ⟨hkr, hr⟩
  · intro a ha b hb
    rcases List.mem_cons.mp hb with rfl | hb
    · exact hlk a ha
    · exact lt_trans (hlk a ha) (hkr b hb)

theorem filter_ne_eq_self {key : α} {L : List (α × β)}
    (h : ∀ p ∈ L, ¬ p.1 = key) :
    L.filter (fun p => decide (¬ p.1 = key)) = L := by
  rw [List.filter_eq_self]
  intro p hp
  simpa using h p hp

theorem keys_lt_not_mem {key k : α} {L : List (α × β)}
    (h : ∀ a ∈ L.map Prod.fst, a < k) (hk : ¬ key < k) :
    ∀ p ∈ L, ¬ p.1 = key := by
  intro p hp he
  exact hk (he ▸ h p.1 (List.mem_map_of_mem Prod.fst hp))

theorem keys_gt_not_mem {key k : α} {L : List (α × β)}
    (h : ∀ a ∈ L.map Prod.fst, k < a) (hk : key < k ∨ key = k) :
    ∀ p ∈ L, ¬ p.1 = key := by
  intro p hp he
  have := h p.1 (List.mem_map_of_mem Prod.fst hp)
  rcases hk with hk | rfl
  · rw [he] at this
    exact absurd (lt_trans hk this) (lt_irrefl key)
  · rw [he] at this
    exact absurd this (lt_irrefl key)

theorem head?_append_of_some {γ : Type} {A B : List γ} {x : γ}
    (h : A.head? = some x) : (A ++ B).head? = some x := by
  cases A with
  | nil => simp at h
  | cons a rest => simpa using h

theorem minNode_spec : ∀ {t : Tree α β}, t ≠ .nil →
    ∃ mc mk mv mr, minNode t = .node mc .nil mk mv mr ∧
      (inorderP t).head? = some (mk, mv) := by
  intro t
  induction t with
  | nil => intro hx; exact absurd rfl hx
  | node c l k v r ihl ihr =>
    intro _
    match l, ihl with
    | .nil, _ =>
      exact ⟨c, k, v, r, rfl, rfl⟩
    | .node lc ll lk lv lr, ihl =>
      obtain ⟨mc, mk, mv, mr, hm, hh⟩ := ihl (by simp)
      refine ⟨mc, mk, mv, mr, ?_, ?_⟩
      · rw [minNode]
        exact hm
      · simp only [inorderP_node] at hh ⊢
        exact head?_append_of_some hh
set_option maxHeartbeats 2000000 in
theorem delete_main {fuel : Nat} : ∀ {t : Tree α β} {key : α} {s : Int}
    {h : Nat},
    t.count < fuel →
    shapeOk t.left = true → shapeOk t.right = true →
    (isRed t.left = true → isRed t.left.left = false) →
    (isRed t = true → isRed t.left = false) →
    (isRed t = true → isRed t.right = false) →
    (isRed t.left = true → isRed t.right = false) →
    (isRed t.right = true → isRed t.right.left = false) →
    (∀ k0, t.key? = some k0 → isRed t.right = true → ¬ key < k0) →
    List.Pairwise (fun a b => a < b) (inorderKeys t) →
    Bal t h → t ≠ .nil →
    (deleteNodeF fuel t key s = .assertFail ∧ key ∉ inorderKeys t) ∨
    (∃ t2 s2, deleteNodeF fuel t key s = .ok (t2, s2) ∧
      s2 = (if key ∈ inorderKeys t then s - 1 else s) ∧
      inorderP t2 = (inorderP t).filter (fun p => decide (¬ p.1 = key)) ∧
      shapeOk t2 = true ∧ (∃ h2, Bal t2 h2) ∧
      ((isRed t = true ∨ isRed t.left = true ∨ isRed t.right = true) →
        (Bal t2 h ∧ (isRed t2 = true → isRed t2.left = false) ∧
          (isRed t = false → isRed t2 = false)))) := by
  induction fuel with
  | zero => intro t key s h hc _ _ _ _ _ _ _ _ _ _ _; omega
  | succ fuel ih =>
    intro t key s h hc hsl hsr hsll h1 h2 h3 h4 hkc hord hb hne
    match t with
    | .nil => exact absurd rfl hne
    | .node c l k v r =>
      simp only [Tree.left_node, Tree.right_node] at hsl hsr hsll h1 h2 h3 h4 hkc
      obtain ⟨h0, hbl, hbr, hh⟩ := bal_node_inv hb
      obtain ⟨hordl, hordr, hblo, hbhi⟩ := pairwise_node_parts hord
      simp only [deleteNodeF, Res.monadBind, Res.monadPure]
      by_cases hklt : key < k
      · -- search goes left; a red right child cannot occur here
        rw [if_pos hklt]
        have hrB : isRed r = false := by
          cases hx : isRed r with
          | false => rfl
          | true => exact absurd hklt (hkc k rfl hx)
        have hkne : ¬ key = k := fun he => absurd (he ▸ hklt) (lt_irrefl key)
        have hmem : (key ∈ inorderKeys (Tree.node c l k v r)) ↔
            key ∈ inorderKeys l := by
          simp only [inorderKeys_node, List.mem_append, List.mem_cons]
          constructor
          · rintro (hx | hx | hx)
            · exact hx
            · exact absurd hx hkne
            · exact absurd hklt (asymm (hbhi key hx))
          · exact Or.inl
        have hfR : ((k, v) :: inorderP r).filter
            (fun p => decide (¬ p.1 = key)) = (k, v) :: inorderP r := by
          apply filter_ne_eq_self
          intro p hp
          rcases List.mem_cons.mp hp with rfl | hp
          · intro he; exact hkne he.symm
          · exact keys_gt_not_mem hbhi (Or.inl hklt) p hp
        match l with
        | .nil =>
          left
          refine ⟨rfl, ?_⟩
          rw [hmem]
          simp
        | .node lc ll lk lv lr =>
          have hcnt : (Tree.node lc ll lk lv lr).count < fuel := by
            simp only [Tree.count] at hc ⊢
            omega
          obtain ⟨hsp1, hsp2, hsp3, hsp4⟩ := shapeOk_node_parts hsl
          by_cases hcase : isRed (Tree.node lc ll lk lv lr) = true ∨
              isRed ll = true
          · -- the left child or its left child is red: recurse directly
            have hguard : (!isRed (Tree.node lc ll lk lv lr)
                && !isRed (Tree.node lc ll lk lv lr).left) = false := by
              rcases hcase with hcase | hcase <;> simp [hcase]
            rw [hguard]
            simp only [Bool.false_eq_true, if_false, Res.bind_okL]
            rcases ih hcnt (by simpa using hsp3) (by simpa using hsp4)
              (by intro hx
                  rcases hsp2 with hy | hy
                  · rw [Tree.left_node] at hx; rw [hx] at hy; cases hy
                  · simpa using hy)
              (by intro hx; have := hsll hx; simpa using this)
              (by intro _; simpa using hsp1)
              (by intro _; simpa using hsp1)
              (by intro hx; rw [Tree.right_node] at hx; rw [hsp1] at hx; cases hx)
              (by intro k0 _ hx; rw [Tree.right_node] at hx; rw [hsp1] at hx;
                  cases hx)
              hordl hbl (by simp) with ⟨hfail, hnm⟩ |
                ⟨l2, s2, hdel, hsz, hino, hshape2, hex, hdp2⟩
            · rw [hfail]
              simp only [Res.bind_failL]
              refine Or.inl ⟨by simp, ?_⟩
              rw [hmem]
              exact hnm
            · have hdpL : isRed (Tree.node lc ll lk lv lr) = true ∨
                  isRed (Tree.node lc ll lk lv lr).left = true ∨
                  isRed (Tree.node lc ll lk lv lr).right = true := by
                rcases hcase with hcase | hcase
                · exact Or.inl hcase
                · exact Or.inr (Or.inl (by simpa using hcase))
              obtain ⟨hbal2, hrr2, hcol2⟩ := hdp2 hdpL
              have hl2or : isRed l2 = false ∨ isRed l2.left = false := by
                cases hx : isRed l2 with
                | false => exact Or.inl rfl
                | true => exact Or.inr (hrr2 hx)
              rw [hdel]
              simp only [Res.bind_okL]
              rw [fixUp_id (by simpa using hrB) (by simpa using hl2or)]
              simp only [Res.bind_okL]
              refine Or.inr ⟨_, s2, rfl, ?_, ?_, ?_, ?_, ?_⟩
              · rw [hsz]
                exact if_congr hmem.symm rfl rfl
              · simp only [inorderP_node, List.filter_append]
                rw [hino, hfR]
                simp
              · exact shapeOk_node_mk hrB hl2or hshape2 hsr
              · exact ⟨_, bal_node_mk k v hbal2 hbr⟩
              · intro hdpT
                refine ⟨by rw [hh]; exact bal_node_mk k v hbal2 hbr, ?_, ?_⟩
                · intro hx
                  rw [Tree.left_node]
                  have hcred : isRed (Tree.node lc ll lk lv lr) = false := by
                    apply h1
                    simpa using hx
                  exact hcol2 hcred
                · intro hx
                  simpa using hx
          · -- both black: moveRedLeft borrows from the right sibling
            have hgl : isRed (Tree.node lc ll lk lv lr) = false := by
              cases hx : isRed (Tree.node lc ll lk lv lr) with
              | false => rfl
              | true => exact absurd (Or.inl hx) hcase
            have hgll : isRed ll = false := by
              cases hx : isRed ll with
              | false => rfl
              | true => exact absurd (Or.inr hx) hcase
            have hlcB : lc = .Black := by
              cases lc with
              | Red => simp at hgl
              | Black => rfl
            subst hlcB
            obtain ⟨hL1, hhl, hbll, hblr⟩ := bal_black_inv hbl
            obtain ⟨rl0, rk0, rv0, rr0, hrq, hbrl, hbrr⟩ := by
              rw [hhl] at hbr
              exact bal_pos_not_red hbr hrB
            subst hrq
            obtain ⟨hr1, hr2, hr3, hr4⟩ := shapeOk_node_parts hsr
            obtain ⟨hordrl, hordrr, hrlo, hrhi⟩ := pairwise_node_parts hordr
            have hguard : (!isRed (Tree.node .Black ll lk lv lr)
                && !isRed (Tree.node .Black ll lk lv lr).left) = true := by
              simp [hgll]
            rw [hguard]
            simp only [if_true]
            cases hrl0 : isRed rl0 with
            | false =>
              -- no borrow: flip colors only
              have hmrl : moveRedLeft (Tree.node c (.node .Black ll lk lv lr)
                  k v (.node .Black rl0 rk0 rv0 rr0)) =
                  .ok (.node (flipColor c) (.node .Red ll lk lv lr) k v
                    (.node .Red rl0 rk0 rv0 rr0)) := by
                simp [moveRedLeft, flipColors, hrl0]
              rw [hmrl]
              simp only [Res.bind_okL]
              rcases ih (by simpa [Tree.count] using hcnt)
                (by simpa using hsp3) (by simpa using hsp4)
                (by intro hx; rw [Tree.left_node] at hx; rw [hgll] at hx;
                    cases hx)
                (by intro _; simpa using hgll)
                (by intro _; simpa using hsp1)
                (by intro _; simpa using hsp1)
                (by intro hx; rw [Tree.right_node] at hx; rw [hsp1] at hx;
                    cases hx)
                (by intro k0 _ hx; rw [Tree.right_node] at hx; rw [hsp1] at hx;
                    cases hx)
                (by simpa using hordl) (Bal.red hbll hblr) (by simp)
                with ⟨hfail, hnm⟩ |
                  ⟨l2, s2, hdel, hsz, hino, hshape2, hex, hdp2⟩
              · rw [hfail]
                simp only [Res.bind_failL]
                refine Or.inl ⟨by simp, ?_⟩
                rw [hmem]
                simpa using hnm
              · obtain ⟨hbal2, hrr2, hcol2⟩ := hdp2 (Or.inl (by simp))
                rw [hdel]
                simp only [Res.bind_okL]
                have hszf : s2 = if key ∈ inorderKeys
                    (Tree.node c (.node .Black ll lk lv lr) k v
                      (.node .Black rl0 rk0 rv0 rr0)) then s - 1 else s := by
                  rw [hsz]
                  refine if_congr ?_ rfl rfl
                  rw [hmem]
                  simp
                cases hl2 : isRed l2 with
                | false =>
                  have hfix : fixUp (Tree.node (flipColor c) l2 k v
                      (.node .Red rl0 rk0 rv0 rr0)) =
                      .ok (.node (flipColor c) (.node .Red l2 k v rl0)
                        rk0 rv0 rr0) := by
                    simp [fixUp, hl2, rotateLeft, hrl0, hr1]
                  rw [hfix]
                  simp only [Res.bind_okL]
                  refine Or.inr ⟨_, s2, rfl, hszf, ?_, ?_, ?_, ?_⟩
                  · have hfR2 := hfR
                    simp only [inorderP_node] at hfR2 hino ⊢
                    rw [List.filter_append, hfR2, ← hino]
                    simp [List.append_assoc]
                  · refine shapeOk_node_mk (by simpa using hr1)
                      (Or.inr (by simpa using hl2)) ?_ hr4
                    exact shapeOk_node_mk hrl0 (Or.inl hl2) hshape2 hr3
                  · cases c with
                    | Red =>
                      refine ⟨hL1 + 1, ?_⟩
                      simp only [flipColor_red]
                      exact Bal.black (Bal.red hbal2 hbrl) hbrr
                    | Black =>
                      refine ⟨hL1, ?_⟩
                      simp only [flipColor_black]
                      exact Bal.red (Bal.red hbal2 hbrl) hbrr
                  · intro hdpT
                    have hcR : c = .Red := by
                      rcases hdpT with hx | hx | hx
                      · cases c with
                        | Red => rfl
                        | Black => simp at hx
                      · simp at hx
                      · simp at hx
                    subst hcR
                    refine ⟨?_, ?_, ?_⟩
                    · rw [hh, hhl]
                      simp only [flipColor_red]
                      have : hL1 + 1 +
                          (if Color.Red = Color.Black then 1 else 0) =
                          hL1 + 1 := by simp
                      rw [this]
                      exact Bal.black (Bal.red hbal2 hbrl) hbrr
                    · intro hx
                      simp only [flipColor_red] at hx
                      simp at hx
                    · intro hx
                      simp at hx
                | true =>
                  obtain ⟨a, ak, av, b, rfl⟩ := isRed_true_cases hl2
                  have hrra := hrr2 hl2
                  simp only [Tree.left_node] at hrra
                  have hfix : fixUp (Tree.node (flipColor c)
                      (.node .Red a ak av b) k v
                      (.node .Red rl0 rk0 rv0 rr0)) =
                      .ok (.node c (.node .Black a ak av b) k v
                        (.node .Black rl0 rk0 rv0 rr0)) := by
                    simp [fixUp, flipColors, hrra]
                  rw [hfix]
                  simp only [Res.bind_okL]
                  obtain ⟨hba, hbb⟩ := bal_red_inv hbal2
                  refine Or.inr ⟨_, s2, rfl, hszf, ?_, ?_, ?_, ?_⟩
                  · have hfR2 := hfR
                    simp only [inorderP_node] at hfR2 hino ⊢
                    rw [List.filter_append, hfR2, ← hino]
                  · refine shapeOk_node_mk (by simp) (Or.inl (by simp)) ?_ ?_
                    · rw [shapeOk_recolor .Black .Red]
                      exact hshape2
                    · rw [shapeOk_recolor .Black .Red] at hsr
                      rw [shapeOk_recolor .Black .Red]
                      exact hsr
                  · refine ⟨hL1 + 1 + (if c = .Black then 1 else 0), ?_⟩
                    exact bal_node_mk k v (Bal.black hba hbb)
                      (Bal.black hbrl hbrr)
                  · intro hdpT
                    refine ⟨?_, ?_, ?_⟩
                    · rw [hh, hhl]
                      exact bal_node_mk k v (Bal.black hba hbb)
                        (Bal.black hbrl hbrr)
                    · intro hx
                      simp
                    · intro hx
                      simpa using hx
            | true =>
              -- borrow from the right sibling
              obtain ⟨A, ak, av, B, rfl⟩ := isRed_true_cases hrl0
              obtain ⟨ha1, ha2, ha3, ha4⟩ := shapeOk_node_parts hr3
              have hANr : isRed A = false := by
                rcases hr2 with hx | hx
                · simp at hx
                · simpa using hx
              obtain ⟨hbA, hbB⟩ := bal_red_inv hbrl
              obtain ⟨hordA, hordB, hAlo, hAhi⟩ := pairwise_node_parts hordrl
              have hmrl : moveRedLeft (Tree.node c
                  (.node .Black ll lk lv lr) k v
                  (.node .Black (.node .Red A ak av B) rk0 rv0 rr0)) =
                  .ok (.node c
                    (.node .Black (.node .Red ll lk lv lr) k v A) ak av
                    (.node .Black B rk0 rv0 rr0)) := by
                simp [moveRedLeft, flipColors, rotateRight, rotateLeft]
              rw [hmrl]
              simp only [Res.bind_okL]
              have hAsubr : ∀ b0 ∈ inorderKeys A, k < b0 := by
                intro b0 hb
                apply hbhi
                simp only [inorderKeys_node, List.mem_append, List.mem_cons]
                exact Or.inl (Or.inl hb)
              rcases ih (by simp only [Tree.count] at hc ⊢; omega)
                (by simp only [Tree.left_node]
                    rw [shapeOk_recolor .Red .Black]
                    exact hsl)
                (by simpa using ha3)
                (by intro _; simpa using hgll)
                (by intro hx; simp at hx)
                (by intro hx; simp at hx)
                (by intro _; simpa using hANr)
                (by intro hx; rw [Tree.right_node] at hx; rw [hANr] at hx;
                    cases hx)
                (by intro k0 _ hx; rw [Tree.right_node] at hx; rw [hANr] at hx;
                    cases hx)
                (by simp only [inorderKeys_node]
                    refine pairwise_node_mk ?_ hordA ?_ hAsubr
                    · simpa using hordl
                    · simpa using hblo)
                (Bal.black (Bal.red hbll hblr) hbA) (by simp)
                with ⟨hfail, hnm⟩ |
                  ⟨l2, s2, hdel, hsz, hino, hshape2, hex, hdp2⟩
              · rw [hfail]
                simp only [Res.bind_failL]
                refine Or.inl ⟨by simp, ?_⟩
                rw [hmem]
                intro hx
                apply hnm
                simp only [inorderKeys_node, List.mem_append, List.mem_cons]
                  at hx ⊢
                exact Or.inl hx
              · obtain ⟨hbal2, hrr2, hcol2⟩ :=
                  hdp2 (Or.inr (Or.inl (by simp)))
                have hl2B : isRed l2 = false := hcol2 (by simp)
                rw [hdel]
                simp only [Res.bind_okL]
                rw [fixUp_id (by simp) (Or.inl (by simpa using hl2B))]
                simp only [Res.bind_okL]
                have hfA : ((k, v) :: inorderP A).filter
                    (fun p => decide (¬ p.1 = key)) = (k, v) :: inorderP A := by
                  apply filter_ne_eq_self
                  intro p hp
                  rcases List.mem_cons.mp hp with rfl | hp
                  · intro he; exact hkne he.symm
                  · intro he
                    have hk2 : k < p.1 := hAsubr p.1
                      (List.mem_map_of_mem Prod.fst hp)
                    rw [he] at hk2
                    exact absurd hklt (asymm hk2)
                refine Or.inr ⟨_, s2, rfl, ?_, ?_, ?_, ?_, ?_⟩
                · rw [hsz]
                  refine if_congr ?_ rfl rfl
                  rw [hmem]
                  simp only [inorderKeys_node, List.mem_append, List.mem_cons]
                  constructor
                  · rintro (hx | hx | hx)
                    · exact hx
                    · exact absurd hx hkne
                    · exact absurd hklt (asymm (hAsubr key hx))
                  · exact Or.inl
                · have hfR2 := hfR
                  simp only [inorderP_node] at hfR2 hino ⊢
                  rw [List.filter_append, hfR2]
                  rw [List.filter_append, hfA] at hino
                  rw [hino]
                  simp [List.append_assoc]
                · refine shapeOk_node_mk (by simp) (Or.inl hl2B) hshape2 ?_
                  exact shapeOk_node_mk hr1 (Or.inl ha1) ha4 hr4
                · refine ⟨hL1 + 1 + (if c = .Black then 1 else 0), ?_⟩
                  exact bal_node_mk ak av hbal2 (Bal.black hbB hbrr)
                · intro hdpT
                  refine ⟨?_, ?_, ?_⟩
                  · rw [hh, hhl]
                    exact bal_node_mk ak av hbal2 (Bal.black hbB hbrr)
                  · intro hx
                    simpa using hl2B
                  · intro hx
                    simpa using hx
      · -- search goes right (or hits this node)
        rw [if_neg hklt]
        have hfL : (inorderP l).filter (fun p => decide (¬ p.1 = key)) =
            inorderP l := filter_ne_eq_self (keys_lt_not_mem hblo hklt)
        have hmemR : (key ∈ inorderKeys (Tree.node c l k v r)) ↔
            (key = k ∨ key ∈ inorderKeys r) := by
          simp only [inorderKeys_node, List.mem_append, List.mem_cons]
          constructor
          · rintro (hx | hx | hx)
            · exact absurd (hblo key hx) hklt
            · exact Or.inl hx
            · exact Or.inr hx
          · rintro (hx | hx)
            · exact Or.inr (Or.inl hx)
            · exact Or.inr (Or.inr hx)
        cases hIl : isRed l with
        | true =>
          -- left child red: rotate right first
          obtain ⟨ll, lk, lv, lr, rfl⟩ := isRed_true_cases hIl
          have hcB : c = .Black := by
            cases c with
            | Red => have h5 := h1 (by simp); simp at h5
            | Black => rfl
          subst hcB
          obtain ⟨hp1, hp2, hp3, hp4⟩ := shapeOk_node_parts hsl
          have hll : isRed ll = false := hsll (by simp)
          have hrB : isRed r = false := h3 (by simp)
          obtain ⟨hbll, hblr⟩ := bal_red_inv hbl
          obtain ⟨hordll, hordlr, hlklo, hlkhi⟩ := pairwise_node_parts hordl
          have hrot : rotateRight (Tree.node .Black
              (.node .Red ll lk lv lr) k v r) =
              .ok (.node .Black ll lk lv (.node .Red lr k v r)) := by
            simp [rotateRight]
          rw [hrot]
          simp only [Res.bind_okL, Tree.isNil_node, Bool.and_false,
            Bool.false_eq_true, if_false, isRed_red, Bool.not_true,
            Bool.false_and]
          have hkne2 : ¬ key = lk := by
            intro he
            exact hklt (he ▸ hblo lk (by simp))
          rw [if_neg hkne2]
          have hfLR : (inorderP lr).filter (fun p => decide (¬ p.1 = key)) =
              inorderP lr := by
            apply filter_ne_eq_self
            apply keys_lt_not_mem ?_ hklt
            intro a ha
            exact hblo a (by
              simp only [inorderKeys_node, List.mem_append, List.mem_cons]
              exact Or.inr (Or.inr ha))
          rcases ih (by simp only [Tree.count] at hc ⊢; omega)
            (by simpa using hp4) (by simpa using hsr)
            (by intro hx; rw [Tree.left_node] at hx; rw [hp1] at hx; cases hx)
            (by intro _; simpa using hp1)
            (by intro _; simpa using hrB)
            (by intro hx; rw [Tree.left_node] at hx; rw [hp1] at hx; cases hx)
            (by intro hx; rw [Tree.right_node] at hx; rw [hrB] at hx; cases hx)
            (by intro k0 _ hx; rw [Tree.right_node] at hx; rw [hrB] at hx;
                cases hx)
            (by simp only [inorderKeys_node]
                refine pairwise_node_mk ?_ hordr ?_ hbhi
                · exact hordlr
                · intro a ha
                  exact hblo a (by
                    simp only [inorderKeys_node, List.mem_append, List.mem_cons]
                    exact Or.inr (Or.inr ha)))
            (Bal.red hblr hbr) (by simp)
            with ⟨hfail, hnm⟩ | ⟨m2, s2, hdel, hsz, hino, hshape2, hex, hdp2⟩
          · rw [hfail]
            simp only [Res.bind_failL]
            refine Or.inl ⟨by simp, ?_⟩
            rw [hmemR]
            intro hx
            apply hnm
            simp only [inorderKeys_node, List.mem_append, List.mem_cons]
            rcases hx with hx | hx
            · exact Or.inr (Or.inl hx)
            · exact Or.inr (Or.inr hx)
          · obtain ⟨hbal2, hrr2, hcol2⟩ := hdp2 (Or.inl (by simp))
            rw [hdel]
            simp only [Res.bind_okL]
            have hino2 : inorderP m2 = inorderP lr ++
                ((k, v) :: inorderP r).filter (fun p => decide (¬ p.1 = key)) := by
              rw [hino]
              simp only [inorderP_node, List.filter_append]
              rw [hfLR]
            have hszf : s2 = if key ∈ inorderKeys (Tree.node Color.Black
                (.node .Red ll lk lv lr) k v r) then s - 1 else s := by
              rw [hsz]
              refine if_congr ?_ rfl rfl
              rw [hmemR]
              simp only [inorderKeys_node, List.mem_append, List.mem_cons]
              constructor
              · rintro (hx | hx | hx)
                · exact absurd hklt (by
                    intro _
                    exact hklt (hblo key (by
                      simp only [inorderKeys_node, List.mem_append,
                        List.mem_cons]
                      exact Or.inr (Or.inr hx))))
                · exact Or.inl hx
                · exact Or.inr hx
              · rintro (hx | hx)
                · exact Or.inr (Or.inl hx)
                · exact Or.inr (Or.inr hx)
            cases hm2 : isRed m2 with
            | false =>
              rw [fixUp_id (by simpa using hm2) (Or.inl (by simpa using hll))]
              simp only [Res.bind_okL]
              refine Or.inr ⟨_, s2, rfl, hszf, ?_, ?_, ?_, ?_⟩
              · simp only [inorderP_node] at hfL hino2 ⊢
                rw [List.filter_append, hfL, hino2]
                simp only [List.append_assoc, List.cons_append]
              · exact shapeOk_node_mk hm2 (Or.inl hll) hp3 hshape2
              · exact ⟨h0 + 1, Bal.black hbll hbal2⟩
              · intro _
                have hhh : h = h0 + 1 := by simpa using hh
                refine ⟨by rw [hhh]; exact Bal.black hbll hbal2, ?_, ?_⟩
                · intro hx; simp at hx
                · intro _; simp
            | true =>
              obtain ⟨m2l, mk, mv, m2r, rfl⟩ := isRed_true_cases hm2
              have hrr2m := hrr2 (by simp)
              rw [Tree.left_node] at hrr2m
              obtain ⟨hq1, hq2, hq3, hq4⟩ := shapeOk_node_parts hshape2
              have hfix : fixUp (Tree.node .Black ll lk lv
                  (.node .Red m2l mk mv m2r)) =
                  .ok (.node .Black (.node .Red ll lk lv m2l) mk mv m2r) := by
                simp [fixUp, hll, rotateLeft, hrr2m, hq1]
              rw [hfix]
              simp only [Res.bind_okL]
              obtain ⟨hbm2l, hbm2r⟩ := bal_red_inv hbal2
              refine Or.inr ⟨_, s2, rfl, hszf, ?_, ?_, ?_, ?_⟩
              · simp only [inorderP_node] at hfL hino2 ⊢
                rw [List.filter_append, hfL]
                simp only [List.append_assoc, List.cons_append]
                rw [hino2]
              · refine shapeOk_node_mk hq1 (Or.inr (by simpa using hll)) ?_ hq4
                exact shapeOk_node_mk hrr2m (Or.inl hll) hp3 hq3
              · exact ⟨h0 + 1, Bal.black (Bal.red hbll hbm2l) hbm2r⟩
              · intro _
                have hhh : h = h0 + 1 := by simpa using hh
                refine ⟨by rw [hhh]; exact Bal.black (Bal.red hbll hbm2l) hbm2r,
                  ?_, ?_⟩
                · intro hx; simp at hx
                · intro _; simp
        | false =>
          simp only [hIl, Bool.false_eq_true, if_false, Res.bind_okL]
          match r with
          | .nil =>
            by_cases hkeq : key = k
            · subst key
              rw [if_pos (show (decide (k = k) &&
                (Tree.nil : Tree α β).isNil) = true by simp)]
              have hr0 : h0 = 0 := bal_nil_inv hbr
              subst hr0
              have hlnil : l = .nil := bal_zero_not_red hbl hIl
              subst hlnil
              refine Or.inr ⟨.nil, s - 1, rfl, ?_, by simp, rfl,
                ⟨0, Bal.nil⟩, ?_⟩
              · rw [if_pos (by simp)]
              · rintro (hdp | hdp | hdp)
                · cases c with
                  | Black => simp at hdp
                  | Red =>
                    simp only [if_neg (by simp : ¬(Color.Red = Color.Black))]
                      at hh
                    subst hh
                    exact ⟨Bal.nil, fun hf => by simp at hf,
                      fun hf => by simp at hf⟩
                · simp at hdp
                · simp at hdp
            · simp only [Tree.isNil_nil, Bool.and_true, decide_eq_false hkeq,
                Bool.false_eq_true, if_false, isRed_nil, Bool.not_false,
                Bool.not_true, Bool.false_and, Bool.and_false, Bool.true_and,
                Res.bind_okL]
              rw [if_neg hkeq]
              rw [fixUp_id (by simp) (Or.inl (by simpa using hIl))]
              simp only [Res.bind_okL]
              refine Or.inr ⟨_, s, rfl, ?_, ?_, ?_, ⟨h, hb⟩, ?_⟩
              · rw [if_neg ?_]
                intro hx
                rcases hmemR.mp hx with hx | hx
                · exact hkeq hx
                · simp at hx
              · refine (filter_ne_eq_self ?_).symm
                intro p hp
                simp only [inorderP_node, inorderP_nil, List.mem_append,
                  List.mem_cons, List.not_mem_nil, or_false] at hp
                rcases hp with hp | hp
                · exact keys_lt_not_mem hblo hklt p hp
                · subst hp
                  exact fun he => hkeq he.symm
              · exact shapeOk_node_mk (by simp) (Or.inl hIl) hsl hsr
              · intro _
                refine ⟨hb, ?_, fun hx => hx⟩
                intro hx
                rw [Tree.left_node]
                exact h1 hx
          | .node rc rl rk rv rr =>
            simp only [Tree.isNil_node, Bool.and_false, Bool.false_eq_true,
              if_false]
            obtain ⟨hr1, hr2, hr3, hr4⟩ := shapeOk_node_parts hsr
            have hmemR2 : (key ∈ inorderKeys (Tree.node c l k v
                (.node rc rl rk rv rr))) ↔
                (key = k ∨ key ∈ inorderKeys (Tree.node rc rl rk rv rr)) :=
              hmemR
            cases hIr : isRed (Tree.node rc rl rk rv rr) with
            | true =>
              have hrcR : rc = .Red := by
                cases rc with
                | Red => rfl
                | Black => simp at hIr
              subst hrcR
              have hcB : c = .Black := by
                cases c with
                | Red => have h5 := h2 (by simp); simp at h5
                | Black => rfl
              subst hcB
              have hrl : isRed rl = false := by
                have := h4 (by simp)
                simpa using this
              have hhh : h = h0 + 1 := by simpa using hh
              simp only [isRed_red, Bool.not_true, Bool.false_and,
                Bool.false_eq_true, if_false, Res.bind_okL]
              by_cases hkeq : key = k
              · -- key found at the root: splice in the successor
                subst key
                rw [if_pos rfl]
                obtain ⟨mc, mk, mv, mr, hmeq, hhead⟩ :=
                  minNode_spec (show (Tree.node .Red rl rk rv rr : Tree α β)
                    ≠ .nil by simp)
                rw [hmeq]
                have hcnt : (Tree.node .Red rl rk rv rr : Tree α β).count
                    < fuel := by
                  simp only [Tree.count] at hc ⊢
                  omega
                obtain ⟨r2m, hdelmin, hinomin, hsmin, hexmin, hdpmin⟩ :=
                  deleteMin_main hcnt (by simpa using hsr) hbr
                    (by intro _; simpa using hrl) (by simp)
                obtain ⟨hbalmin, hcolmin, hrrmin⟩ := hdpmin (Or.inl (by simp))
                rw [hdelmin]
                simp only [Res.bind_okL]
                have hfR2 : (inorderP (Tree.node Color.Red rl rk rv rr)).filter
                    (fun p => decide (¬ p.1 = k)) =
                    inorderP (Tree.node Color.Red rl rk rv rr) :=
                  filter_ne_eq_self (keys_gt_not_mem hbhi (Or.inr rfl))
                have hfdrop : ((k, v) :: inorderP
                    (Tree.node Color.Red rl rk rv rr)).filter
                    (fun p => decide (¬ p.1 = k)) =
                    inorderP (Tree.node Color.Red rl rk rv rr) := by
                  rw [List.filter_cons_of_neg (by simp), hfR2]
                have hcons : (mk, mv) :: (inorderP
                    (Tree.node Color.Red rl rk rv rr)).tail =
                    inorderP (Tree.node Color.Red rl rk rv rr) :=
                  List.cons_head?_tail (Option.mem_def.mpr hhead)
                have hmemT : k ∈ inorderKeys (Tree.node Color.Black l k v
                    (.node .Red rl rk rv rr)) := by simp
                cases hm2 : isRed r2m with
                | false =>
                  rw [fixUp_id (by simpa using hm2)
                    (Or.inl (by simpa using hIl))]
                  simp only [Res.bind_okL]
                  refine Or.inr ⟨_, s - 1, rfl, by rw [if_pos hmemT], ?_, ?_,
                    ?_, ?_⟩
                  · simp only [inorderP_node] at hinomin hcons hfdrop ⊢
                    rw [List.filter_append, hfL, hfdrop, hinomin, hcons]
                  · exact shapeOk_node_mk hm2 (Or.inl hIl) hsl hsmin
                  · exact ⟨h0 + 1, Bal.black hbl hbalmin⟩
                  · intro _
                    refine ⟨by rw [hhh]; exact Bal.black hbl hbalmin, ?_, ?_⟩
                    · intro hx; simp at hx
                    · intro _; simp
                | true =>
                  obtain ⟨p, pk, pv, q, rfl⟩ := isRed_true_cases hm2
                  have hrrm := hrrmin (by simp)
                  rw [Tree.left_node] at hrrm
                  obtain ⟨hq1, hq2, hq3, hq4⟩ := shapeOk_node_parts hsmin
                  have hfix : fixUp (Tree.node .Black l mk mv
                      (.node .Red p pk pv q)) =
                      .ok (.node .Black (.node .Red l mk mv p) pk pv q) := by
                    simp [fixUp, hIl, rotateLeft, hrrm, hq1]
                  rw [hfix]
                  simp only [Res.bind_okL]
                  obtain ⟨hbp, hbq⟩ := bal_red_inv hbalmin
                  refine Or.inr ⟨_, s - 1, rfl, by rw [if_pos hmemT], ?_, ?_,
                    ?_, ?_⟩
                  · simp only [inorderP_node] at hinomin hcons hfdrop ⊢
                    rw [List.filter_append, hfL, hfdrop, ← hcons, ← hinomin]
                    simp [List.append_assoc]
                  · refine shapeOk_node_mk hq1 (Or.inr (by simpa using hIl))
                      ?_ hq4
                    exact shapeOk_node_mk hrrm (Or.inl hIl) hsl hq3
                  · exact ⟨h0 + 1, Bal.black (Bal.red hbl hbp) hbq⟩
                  · intro _
                    refine ⟨by rw [hhh]; exact Bal.black (Bal.red hbl hbp) hbq,
                      ?_, ?_⟩
                    · intro hx; simp at hx
                    · intro _; simp
              · -- key not at the root: recurse into the red right child
                rw [if_neg hkeq]
                have hkne2 : ¬ k = key := fun he => hkeq he.symm
                have hfkeep : ((k, v) :: inorderP
                    (Tree.node Color.Red rl rk rv rr)).filter
                    (fun p => decide (¬ p.1 = key)) = (k, v) ::
                    (inorderP (Tree.node Color.Red rl rk rv rr)).filter
                    (fun p => decide (¬ p.1 = key)) :=
                  List.filter_cons_of_pos (by simpa using hkne2)
                rcases ih (by simp only [Tree.count] at hc ⊢; omega)
                  (by simpa using hr3) (by simpa using hr4)
                  (by intro hx; rw [Tree.left_node] at hx; rw [hrl] at hx;
                      cases hx)
                  (by intro _; simpa using hrl)
                  (by intro _; simpa using hr1)
                  (by intro hx; rw [Tree.left_node] at hx; rw [hrl] at hx;
                      cases hx)
                  (by intro hx; rw [Tree.right_node] at hx; rw [hr1] at hx;
                      cases hx)
                  (by intro k0 _ hx; rw [Tree.right_node] at hx; rw [hr1]
                        at hx; cases hx)
                  hordr hbr (by simp)
                  with ⟨hfail, hnm⟩ |
                    ⟨m2, s2, hdel, hsz, hino, hshape2, hex, hdp2⟩
                · rw [hfail]
                  simp only [Res.bind_failL]
                  refine Or.inl ⟨by simp, ?_⟩
                  rw [hmemR2]
                  rintro (hx | hx)
                  · exact hkeq hx
                  · exact hnm hx
                · obtain ⟨hbal2, hrr2, hcol2⟩ := hdp2 (Or.inl (by simp))
                  rw [hdel]
                  simp only [Res.bind_okL]
                  have hszf : s2 = if key ∈ inorderKeys (Tree.node Color.Black
                      l k v (.node .Red rl rk rv rr)) then s - 1 else s := by
                    rw [hsz]
                    refine if_congr ?_ rfl rfl
                    rw [hmemR2]
                    constructor
                    · exact Or.inr
                    · rintro (hx | hx)
                      · exact absurd hx hkeq
                      · exact hx
                  cases hm2 : isRed m2 with
                  | false =>
                    rw [fixUp_id (by simpa using hm2)
                      (Or.inl (by simpa using hIl))]
                    simp only [Res.bind_okL]
                    refine Or.inr ⟨_, s2, rfl, hszf, ?_, ?_, ?_, ?_⟩
                    · simp only [inorderP_node] at hfkeep hino ⊢
                      rw [List.filter_append, hfL, hfkeep, hino]
                    · exact shapeOk_node_mk hm2 (Or.inl hIl) hsl hshape2
                    · exact ⟨h0 + 1, Bal.black hbl hbal2⟩
                    · intro _
                      refine ⟨by rw [hhh]; exact Bal.black hbl hbal2, ?_, ?_⟩
                      · intro hx; simp at hx
                      · intro _; simp
                  | true =>
                    obtain ⟨m2l, m2k, m2v, m2r, rfl⟩ := isRed_true_cases hm2
                    have hrr2m := hrr2 (by simp)
                    rw [Tree.left_node] at hrr2m
                    obtain ⟨hq1, hq2, hq3, hq4⟩ := shapeOk_node_parts hshape2
                    have hfix : fixUp (Tree.node .Black l k v
                        (.node .Red m2l m2k m2v m2r)) =
                        .ok (.node .Black (.node .Red l k v m2l) m2k m2v
                          m2r) := by
                      simp [fixUp, hIl, rotateLeft, hrr2m, hq1]
                    rw [hfix]
                    simp only [Res.bind_okL]
                    obtain ⟨hbm2l, hbm2r⟩ := bal_red_inv hbal2
                    refine Or.inr ⟨_, s2, rfl, hszf, ?_, ?_, ?_, ?_⟩
                    · simp only [inorderP_node] at hfkeep hino ⊢
                      rw [List.filter_append, hfL, hfkeep, ← hino]
                      simp [List.append_assoc]
                    · refine shapeOk_node_mk hq1 (Or.inr (by simpa using hIl))
                        ?_ hq4
                      exact shapeOk_node_mk hrr2m (Or.inl hIl) hsl hq3
                    · exact ⟨h0 + 1, Bal.black (Bal.red hbl hbm2l) hbm2r⟩
                    · intro _
                      refine ⟨?_, ?_, ?_⟩
                      · rw [hhh]
                        exact Bal.black (Bal.red hbl hbm2l) hbm2r
                      · intro hx; simp at hx
                      · intro _; simp
            | false =>
              have hrcB : rc = .Black := by
                cases rc with
                | Red => simp at hIr
                | Black => rfl
              subst hrcB
              obtain ⟨hR1, hhr, hbrl, hbrr⟩ := bal_black_inv hbr
              cases hrl : isRed rl with
              | true =>
                -- the right child already has a red left child:
                -- no borrowing needed
                simp only [isRed_black, Tree.isNil_node, Tree.left_node, hrl,
                  Bool.not_false, Bool.not_true, Bool.true_and, Bool.and_false,
                  Bool.false_eq_true, if_false, Res.bind_okL]
                by_cases hkeq : key = k
                · -- key found at the root: splice in the successor
                  subst key
                  rw [if_pos rfl]
                  obtain ⟨mc, mk, mv, mr, hmeq, hhead⟩ :=
                    minNode_spec (show (Tree.node .Black rl rk rv rr : Tree α β)
                      ≠ .nil by simp)
                  rw [hmeq]
                  have hcnt : (Tree.node .Black rl rk rv rr : Tree α β).count
                      < fuel := by
                    simp only [Tree.count] at hc ⊢
                    omega
                  obtain ⟨r2m, hdelmin, hinomin, hsmin, hexmin, hdpmin⟩ :=
                    deleteMin_main hcnt (by simpa using hsr) hbr
                      (by intro hx; simp at hx) (by simp)
                  obtain ⟨hbalmin, hcolmin, hrrmin⟩ :=
                    hdpmin (Or.inr (by simpa using hrl))
                  have hm2B : isRed r2m = false := hcolmin (by simp)
                  rw [hdelmin]
                  simp only [Res.bind_okL]
                  have hfR2 : (inorderP (Tree.node Color.Black rl rk rv
                      rr)).filter (fun p => decide (¬ p.1 = k)) =
                      inorderP (Tree.node Color.Black rl rk rv rr) :=
                    filter_ne_eq_self (keys_gt_not_mem hbhi (Or.inr rfl))
                  have hfdrop : ((k, v) :: inorderP
                      (Tree.node Color.Black rl rk rv rr)).filter
                      (fun p => decide (¬ p.1 = k)) =
                      inorderP (Tree.node Color.Black rl rk rv rr) := by
                    rw [List.filter_cons_of_neg (by simp), hfR2]
                  have hcons : (mk, mv) :: (inorderP
                      (Tree.node Color.Black rl rk rv rr)).tail =
                      inorderP (Tree.node Color.Black rl rk rv rr) :=
                    List.cons_head?_tail (Option.mem_def.mpr hhead)
                  have hmemT : k ∈ inorderKeys (Tree.node c l k v
                      (.node .Black rl rk rv rr)) := by simp
                  rw [fixUp_id (by simpa using hm2B)
                    (Or.inl (by simpa using hIl))]
                  simp only [Res.bind_okL]
                  refine Or.inr ⟨_, s - 1, rfl, by rw [if_pos hmemT], ?_, ?_,
                    ?_, ?_⟩
                  · simp only [inorderP_node] at hinomin hcons hfdrop ⊢
                    rw [List.filter_append, hfL, hfdrop, hinomin, hcons]
                  · exact shapeOk_node_mk hm2B (Or.inl hIl) hsl hsmin
                  · exact ⟨h0 + (if c = .Black then 1 else 0),
                      bal_node_mk mk mv hbl hbalmin⟩
                  · intro _
                    refine ⟨?_, ?_, ?_⟩
                    · rw [hh]
                      exact bal_node_mk mk mv hbl hbalmin
                    · intro hx
                      rw [Tree.left_node]
                      exact h1 hx
                    · intro hx
                      simpa using hx
                · -- key not at the root: recurse into the right child
                  rw [if_neg hkeq]
                  have hkne2 : ¬ k = key := fun he => hkeq he.symm
                  have hfkeep : ((k, v) :: inorderP
                      (Tree.node Color.Black rl rk rv rr)).filter
                      (fun p => decide (¬ p.1 = key)) = (k, v) ::
                      (inorderP (Tree.node Color.Black rl rk rv rr)).filter
                      (fun p => decide (¬ p.1 = key)) :=
                    List.filter_cons_of_pos (by simpa using hkne2)
                  have hrll : isRed rl.left = false := by
                    rcases hr2 with hx | hx
                    · rw [hrl] at hx; cases hx
                    · exact hx
                  rcases ih (by simp only [Tree.count] at hc ⊢; omega)
                    (by simpa using hr3) (by simpa using hr4)
                    (by intro _; simpa using hrll)
                    (by intro hx; simp at hx)
                    (by intro hx; simp at hx)
                    (by intro _; simpa using hr1)
                    (by intro hx; rw [Tree.right_node] at hx; rw [hr1] at hx;
                        cases hx)
                    (by intro k0 _ hx; rw [Tree.right_node] at hx; rw [hr1]
                          at hx; cases hx)
                    hordr hbr (by simp)
                    with ⟨hfail, hnm⟩ |
                      ⟨m2, s2, hdel, hsz, hino, hshape2, hex, hdp2⟩
                  · rw [hfail]
                    simp only [Res.bind_failL]
                    refine Or.inl ⟨by simp, ?_⟩
                    rw [hmemR2]
                    rintro (hx | hx)
                    · exact hkeq hx
                    · exact hnm hx
                  · obtain ⟨hbal2, hrr2, hcol2⟩ :=
                      hdp2 (Or.inr (Or.inl (by simpa using hrl)))
                    have hm2B : isRed m2 = false := hcol2 (by simp)
                    rw [hdel]
                    simp only [Res.bind_okL]
                    rw [fixUp_id (by simpa using hm2B)
                      (Or.inl (by simpa using hIl))]
                    simp only [Res.bind_okL]
                    have hszf : s2 = if key ∈ inorderKeys (Tree.node c l k v
                        (.node .Black rl rk rv rr)) then s - 1 else s := by
                      rw [hsz]
                      refine if_congr ?_ rfl rfl
                      rw [hmemR2]
                      constructor
                      · exact Or.inr
                      · rintro (hx | hx)
                        · exact absurd hx hkeq
                        · exact hx
                    refine Or.inr ⟨_, s2, rfl, hszf, ?_, ?_, ?_, ?_⟩
                    · simp only [inorderP_node] at hfkeep hino ⊢
                      rw [List.filter_append, hfL, hfkeep, hino]
                    · exact shapeOk_node_mk hm2B (Or.inl hIl) hsl hshape2
                    · exact ⟨h0 + (if c = .Black then 1 else 0),
                        bal_node_mk k v hbl hbal2⟩
                    · intro _
                      refine ⟨?_, ?_, ?_⟩
                      · rw [hh]
                        exact bal_node_mk k v hbl hbal2
                      · intro hx
                        rw [Tree.left_node]
                        exact h1 hx
                      · intro hx
                        simpa using hx
              | false =>
                -- both the right child and its left child are black:
                -- moveRedRight borrows from the left side
                simp only [isRed_black, Tree.isNil_node, Tree.left_node, hrl,
                  Bool.not_false, Bool.true_and, if_true]
                obtain ⟨ll, lk, lv, lr, hlq, hbll, hblr⟩ := by
                  rw [hhr] at hbl
                  exact bal_pos_not_red hbl hIl
                subst hlq
                obtain ⟨hp1, hp2, hp3, hp4⟩ := shapeOk_node_parts hsl
                obtain ⟨hordll, hordlr, hlklo, hlkhi⟩ :=
                  pairwise_node_parts hordl
                have hsRR : shapeOk (Tree.node Color.Red rl rk rv rr) = true :=
                  shapeOk_node_mk hr1 (Or.inl hrl) hr3 hr4
                cases hll2 : isRed ll with
                | false =>
                  -- no borrow available: the color flip alone
                  have hmrr : moveRedRight (Tree.node c
                      (.node .Black ll lk lv lr) k v
                      (.node .Black rl rk rv rr)) =
                      .ok (.node (flipColor c) (.node .Red ll lk lv lr) k v
                        (.node .Red rl rk rv rr)) := by
                    simp [moveRedRight, flipColors, hll2]
                  rw [hmrr]
                  simp only [Res.bind_okL]
                  by_cases hkeq : key = k
                  · -- key found at the root: splice in the successor
                    subst key
                    rw [if_pos rfl]
                    obtain ⟨mc, mk, mv, mr, hmeq, hhead⟩ :=
                      minNode_spec (show (Tree.node .Red rl rk rv rr :
                        Tree α β) ≠ .nil by simp)
                    rw [hmeq]
                    have hcnt : (Tree.node .Red rl rk rv rr :
                        Tree α β).count < fuel := by
                      simp only [Tree.count] at hc ⊢
                      omega
                    obtain ⟨r2m, hdelmin, hinomin, hsmin, hexmin, hdpmin⟩ :=
                      deleteMin_main hcnt (by simpa using hsRR)
                        (Bal.red hbrl hbrr) (by intro _; simpa using hrl)
                        (by simp)
                    obtain ⟨hbalmin, hcolmin, hrrmin⟩ :=
                      hdpmin (Or.inl (by simp))
                    rw [hdelmin]
                    simp only [Res.bind_okL]
                    have hfR2 : (inorderP (Tree.node Color.Black rl rk rv
                        rr)).filter (fun p => decide (¬ p.1 = k)) =
                        inorderP (Tree.node Color.Black rl rk rv rr) :=
                      filter_ne_eq_self (keys_gt_not_mem hbhi (Or.inr rfl))
                    have hfdrop : ((k, v) :: inorderP
                        (Tree.node Color.Black rl rk rv rr)).filter
                        (fun p => decide (¬ p.1 = k)) =
                        inorderP (Tree.node Color.Black rl rk rv rr) := by
                      rw [List.filter_cons_of_neg (by simp), hfR2]
                    have hcons : (mk, mv) :: (inorderP
                        (Tree.node Color.Red rl rk rv rr)).tail =
                        inorderP (Tree.node Color.Red rl rk rv rr) :=
                      List.cons_head?_tail (Option.mem_def.mpr hhead)
                    have hmemT : k ∈ inorderKeys (Tree.node c
                        (.node .Black ll lk lv lr) k v
                        (.node .Black rl rk rv rr)) := by simp
                    cases hm2 : isRed r2m with
                    | false =>
                      rw [fixUp_id (by simpa using hm2)
                        (Or.inr (by simpa using hll2))]
                      simp only [Res.bind_okL]
                      refine Or.inr ⟨_, s - 1, rfl, by rw [if_pos hmemT], ?_,
                        ?_, ?_, ?_⟩
                      · simp only [inorderP_node]
                          at hfL hinomin hcons hfdrop ⊢
                        rw [List.filter_append, hfL, hfdrop, hinomin, hcons]
                      · refine shapeOk_node_mk hm2
                          (Or.inr (by simpa using hll2)) ?_ hsmin
                        rw [shapeOk_recolor .Red .Black]
                        exact hsl
                      · cases c with
                        | Red =>
                          refine ⟨hR1 + 1, ?_⟩
                          simp only [flipColor_red]
                          exact Bal.black (Bal.red hbll hblr) hbalmin
                        | Black =>
                          refine ⟨hR1, ?_⟩
                          simp only [flipColor_black]
                          exact Bal.red (Bal.red hbll hblr) hbalmin
                      · intro hdpT
                        have hcR : c = .Red := by
                          rcases hdpT with hx | hx | hx
                          · cases c with
                            | Red => rfl
                            | Black => simp at hx
                          · simp at hx
                          · simp at hx
                        subst hcR
                        have hhh : h = hR1 + 1 := by
                          rw [hh, hhr]
                          simp
                        refine ⟨?_, ?_, ?_⟩
                        · rw [hhh]
                          simp only [flipColor_red]
                          exact Bal.black (Bal.red hbll hblr) hbalmin
                        · intro hx
                          simp only [flipColor_red] at hx
                          simp at hx
                        · intro hx
                          simp at hx
                    | true =>
                      obtain ⟨p, pk, pv, q, rfl⟩ := isRed_true_cases hm2
                      have hrrm := hrrmin (by simp)
                      rw [Tree.left_node] at hrrm
                      obtain ⟨hq1, hq2, hq3, hq4⟩ := shapeOk_node_parts hsmin
                      have hfix : fixUp (Tree.node (flipColor c)
                          (.node .Red ll lk lv lr) mk mv
                          (.node .Red p pk pv q)) =
                          .ok (.node c (.node .Black ll lk lv lr) mk mv
                            (.node .Black p pk pv q)) := by
                        simp [fixUp, flipColors, hll2]
                      rw [hfix]
                      simp only [Res.bind_okL]
                      obtain ⟨hbp, hbq⟩ := bal_red_inv hbalmin
                      refine Or.inr ⟨_, s - 1, rfl, by rw [if_pos hmemT], ?_,
                        ?_, ?_, ?_⟩
                      · simp only [inorderP_node]
                          at hfL hinomin hcons hfdrop ⊢
                        rw [List.filter_append, hfL, hfdrop, ← hcons,
                          ← hinomin]
                      · refine shapeOk_node_mk (by simp) (Or.inl (by simp))
                          ?_ ?_
                        · rw [shapeOk_recolor .Black .Red]
                          exact hsl
                        · exact shapeOk_node_mk hq1 (Or.inl hrrm) hq3 hq4
                      · exact ⟨hR1 + 1 + (if c = .Black then 1 else 0),
                          bal_node_mk mk mv (Bal.black hbll hblr)
                            (Bal.black hbp hbq)⟩
                      · intro _
                        refine ⟨?_, ?_, ?_⟩
                        · rw [hh, hhr]
                          exact bal_node_mk mk mv (Bal.black hbll hblr)
                            (Bal.black hbp hbq)
                        · intro hx
                          simp
                        · intro hx
                          simpa using hx
                  · -- key not at the root: recurse into the flipped
                    -- right child
                    rw [if_neg hkeq]
                    have hkne2 : ¬ k = key := fun he => hkeq he.symm
                    have hfkeep : ((k, v) :: inorderP
                        (Tree.node Color.Red rl rk rv rr)).filter
                        (fun p => decide (¬ p.1 = key)) = (k, v) ::
                        (inorderP (Tree.node Color.Red rl rk rv rr)).filter
                        (fun p => decide (¬ p.1 = key)) :=
                      List.filter_cons_of_pos (by simpa using hkne2)
                    rcases ih (by simp only [Tree.count] at hc ⊢; omega)
                      (by simpa using hr3) (by simpa using hr4)
                      (by intro hx; rw [Tree.left_node] at hx; rw [hrl] at hx;
                          cases hx)
                      (by intro _; simpa using hrl)
                      (by intro _; simpa using hr1)
                      (by intro hx; rw [Tree.left_node] at hx; rw [hrl] at hx;
                          cases hx)
                      (by intro hx; rw [Tree.right_node] at hx; rw [hr1]
                            at hx; cases hx)
                      (by intro k0 _ hx; rw [Tree.right_node] at hx; rw [hr1]
                            at hx; cases hx)
                      (by simpa using hordr) (Bal.red hbrl hbrr) (by simp)
                      with ⟨hfail, hnm⟩ |
                        ⟨m2, s2, hdel, hsz, hino, hshape2, hex, hdp2⟩
                    · rw [hfail]
                      simp only [Res.bind_failL]
                      refine Or.inl ⟨by simp, ?_⟩
                      rw [hmemR2]
                      rintro (hx | hx)
                      · exact hkeq hx
                      · apply hnm
                        simpa using hx
                    · obtain ⟨hbal2, hrr2, hcol2⟩ := hdp2 (Or.inl (by simp))
                      rw [hdel]
                      simp only [Res.bind_okL]
                      have hszf : s2 = if key ∈ inorderKeys (Tree.node c
                          (.node .Black ll lk lv lr) k v
                          (.node .Black rl rk rv rr)) then s - 1 else s := by
                        rw [hsz]
                        refine if_congr ?_ rfl rfl
                        rw [hmemR2]
                        constructor
                        · intro hx
                          exact Or.inr (by simpa using hx)
                        · rintro (hx | hx)
                          · exact absurd hx hkeq
                          · simpa using hx
                      cases hm2 : isRed m2 with
                      | false =>
                        rw [fixUp_id (by simpa using hm2)
                          (Or.inr (by simpa using hll2))]
                        simp only [Res.bind_okL]
                        refine Or.inr ⟨_, s2, rfl, hszf, ?_, ?_, ?_, ?_⟩
                        · simp only [inorderP_node] at hfL hfkeep hino ⊢
                          rw [List.filter_append, hfL, hfkeep, hino]
                        · refine shapeOk_node_mk hm2
                            (Or.inr (by simpa using hll2)) ?_ hshape2
                          rw [shapeOk_recolor .Red .Black]
                          exact hsl
                        · cases c with
                          | Red =>
                            refine ⟨hR1 + 1, ?_⟩
                            simp only [flipColor_red]
                            exact Bal.black (Bal.red hbll hblr) hbal2
                          | Black =>
                            refine ⟨hR1, ?_⟩
                            simp only [flipColor_black]
                            exact Bal.red (Bal.red hbll hblr) hbal2
                        · intro hdpT
                          have hcR : c = .Red := by
                            rcases hdpT with hx | hx | hx
                            · cases c with
                              | Red => rfl
                              | Black => simp at hx
                            · simp at hx
                            · simp at hx
                          subst hcR
                          have hhh : h = hR1 + 1 := by
                            rw [hh, hhr]
                            simp
                          refine ⟨?_, ?_, ?_⟩
                          · rw [hhh]
                            simp only [flipColor_red]
                            exact Bal.black (Bal.red hbll hblr) hbal2
                          · intro hx
                            simp only [flipColor_red] at hx
                            simp at hx
                          · intro hx
                            simp at hx
                      | true =>
                        obtain ⟨m2l, m2k, m2v, m2r, rfl⟩ :=
                          isRed_true_cases hm2
                        have hrr2m := hrr2 (by simp)
                        rw [Tree.left_node] at hrr2m
                        obtain ⟨hq1, hq2, hq3, hq4⟩ :=
                          shapeOk_node_parts hshape2
                        have hfix : fixUp (Tree.node (flipColor c)
                            (.node .Red ll lk lv lr) k v
                            (.node .Red m2l m2k m2v m2r)) =
                            .ok (.node c (.node .Black ll lk lv lr) k v
                              (.node .Black m2l m2k m2v m2r)) := by
                          simp [fixUp, flipColors, hll2]
                        rw [hfix]
                        simp only [Res.bind_okL]
                        obtain ⟨hbm2l, hbm2r⟩ := bal_red_inv hbal2
                        refine Or.inr ⟨_, s2, rfl, hszf, ?_, ?_, ?_, ?_⟩
                        · simp only [inorderP_node] at hfL hfkeep hino ⊢
                          rw [List.filter_append, hfL, hfkeep, ← hino]
                        · refine shapeOk_node_mk (by simp) (Or.inl (by simp))
                            ?_ ?_
                          · rw [shapeOk_recolor .Black .Red]
                            exact hsl
                          · exact shapeOk_node_mk hq1 (Or.inl hrr2m) hq3 hq4
                        · exact ⟨hR1 + 1 + (if c = .Black then 1 else 0),
                            bal_node_mk k v (Bal.black hbll hblr)
                              (Bal.black hbm2l hbm2r)⟩
                        · intro _
                          refine ⟨?_, ?_, ?_⟩
                          · rw [hh, hhr]
                            exact bal_node_mk k v (Bal.black hbll hblr)
                              (Bal.black hbm2l hbm2r)
                          · intro hx
                            simp
                          · intro hx
                            simpa using hx
                | true =>
                  -- borrow: the left child has a red left child
                  obtain ⟨A, ax, av, B, rfl⟩ := isRed_true_cases hll2
                  have hANr : isRed A = false := by
                    rcases hp2 with hx | hx
                    · simp at hx
                    · simpa using hx
                  obtain ⟨hz1, hz2, hz3, hz4⟩ := shapeOk_node_parts hp3
                  obtain ⟨hbA, hbB⟩ := bal_red_inv hbll
                  have hmrr : moveRedRight (Tree.node c
                      (.node .Black (.node .Red A ax av B) lk lv lr) k v
                      (.node .Black rl rk rv rr)) =
                      .ok (.node c (.node .Black A ax av B) lk lv
                        (.node .Black lr k v (.node .Red rl rk rv rr))) := by
                    simp [moveRedRight, flipColors, rotateRight]
                  rw [hmrr]
                  simp only [Res.bind_okL]
                  have hkne2 : ¬ key = lk := by
                    intro he
                    exact hklt (he ▸ hblo lk (by simp))
                  rw [if_neg hkne2]
                  have hfLR : (inorderP lr).filter
                      (fun p => decide (¬ p.1 = key)) = inorderP lr := by
                    apply filter_ne_eq_self
                    apply keys_lt_not_mem ?_ hklt
                    intro a ha
                    exact hblo a (by
                      simp only [inorderKeys_node, List.mem_append,
                        List.mem_cons]
                      exact Or.inr (Or.inr ha))
                  rcases ih (by simp only [Tree.count] at hc ⊢; omega)
                    (by simpa using hp4)
                    (by simpa using hsRR)
                    (by intro hx; rw [Tree.left_node] at hx; rw [hp1] at hx;
                        cases hx)
                    (by intro hx; simp at hx)
                    (by intro hx; simp at hx)
                    (by intro hx; rw [Tree.left_node] at hx; rw [hp1] at hx;
                        cases hx)
                    (by intro _; simpa using hrl)
                    (by intro k0 hk0 _
                        rw [Tree.key?_node] at hk0
                        have hkk : k = k0 := Option.some_inj.mp hk0
                        rw [← hkk]
                        exact hklt)
                    (by simp only [inorderKeys_node]
                        refine pairwise_node_mk hordlr (by simpa using hordr)
                          ?_ ?_
                        · intro a ha
                          exact hblo a (by
                            simp only [inorderKeys_node, List.mem_append,
                              List.mem_cons]
                            exact Or.inr (Or.inr ha))
                        · intro b hb
                          exact hbhi b (by simpa using hb))
                    (Bal.black hblr (Bal.red hbrl hbrr)) (by simp)
                    with ⟨hfail, hnm⟩ |
                      ⟨m2, s2, hdel, hsz, hino, hshape2, hex, hdp2⟩
                  · rw [hfail]
                    simp only [Res.bind_failL]
                    refine Or.inl ⟨by simp, ?_⟩
                    rw [hmemR2]
                    rintro (hx | hx)
                    · apply hnm
                      simp only [inorderKeys_node, List.mem_append,
                        List.mem_cons]
                      exact Or.inr (Or.inl hx)
                    · apply hnm
                      simp only [inorderKeys_node, List.mem_append,
                        List.mem_cons] at hx ⊢
                      exact Or.inr (Or.inr hx)
                  · obtain ⟨hbal2, hrr2, hcol2⟩ :=
                      hdp2 (Or.inr (Or.inr (by simp)))
                    have hm2B : isRed m2 = false := hcol2 (by simp)
                    rw [hdel]
                    simp only [Res.bind_okL]
                    rw [fixUp_id (by simpa using hm2B) (Or.inl (by simp))]
                    simp only [Res.bind_okL]
                    have hszf : s2 = if key ∈ inorderKeys (Tree.node c
                        (.node .Black (.node .Red A ax av B) lk lv lr) k v
                        (.node .Black rl rk rv rr)) then s - 1 else s := by
                      rw [hsz]
                      refine if_congr ?_ rfl rfl
                      constructor
                      · intro hx
                        simp only [inorderKeys_node, List.mem_append,
                          List.mem_cons] at hx ⊢
                        rcases hx with hx | hx
                        · exact Or.inl (Or.inr (Or.inr hx))
                        · exact Or.inr hx
                      · intro hx
                        rcases hmemR2.mp hx with hx | hx
                        · simp only [inorderKeys_node, List.mem_append,
                            List.mem_cons]
                          exact Or.inr (Or.inl hx)
                        · simp only [inorderKeys_node, List.mem_append,
                            List.mem_cons] at hx ⊢
                          exact Or.inr (Or.inr hx)
                    refine Or.inr ⟨_, s2, rfl, hszf, ?_, ?_, ?_, ?_⟩
                    · simp only [inorderP_node] at hfL hino ⊢
                      rw [List.filter_append, hfLR] at hino
                      rw [List.filter_append, hfL, hino]
                      simp only [List.append_assoc, List.cons_append]
                    · refine shapeOk_node_mk hm2B (Or.inl (by simp)) ?_
                        hshape2
                      exact shapeOk_node_mk hz1 (Or.inl hANr) hz3 hz4
                    · exact ⟨hR1 + 1 + (if c = .Black then 1 else 0),
                        bal_node_mk lk lv (Bal.black hbA hbB) hbal2⟩
                    · intro _
                      refine ⟨?_, ?_, ?_⟩
                      · rw [hh, hhr]
                        exact bal_node_mk lk lv (Bal.black hbA hbB) hbal2
                      · intro hx
                        simp
                      · intro hx
                        simpa using hx
theorem listInsert_append_left {key k : α} {v val : β} :
    ∀ {A : List (α × β)} {B : List (α × β)}, key < k →
    listInsert (A ++ (k, v) :: B) key val =
      listInsert A key val ++ (k, v) :: B := by
  intro A
  induction A with
  | nil =>
    intro B hkk
    simp [listInsert, ne_of_lt hkk, hkk]
  | cons p A ih =>
    intro B hkk
    obtain ⟨a, b⟩ := p
    by_cases h1 : key = a
    · simp [listInsert, h1]
    · by_cases h2 : key < a
      · simp [listInsert, h1, h2]
      · simp [listInsert, h1, h2, ih hkk]

theorem listInsert_append_right {key k : α} {v val : β} :
    ∀ {A : List (α × β)} {B : List (α × β)},
    (∀ p ∈ A, p.1 < key) → k < key →
    listInsert (A ++ (k, v) :: B) key val =
      A ++ (k, v) :: listInsert B key val := by
  intro A
  induction A with
  | nil =>
    intro B _ hkk
    simp [listInsert, (ne_of_lt hkk).symm, asymm hkk]
  | cons p A ih =>
    intro B hA hkk
    obtain ⟨a, b⟩ := p
    have ha : a < key := hA (a, b) (by simp)
    simp [listInsert, (ne_of_lt ha).symm, asymm ha,
      ih (fun q hq => hA q (by simp [hq])) hkk]

theorem listInsert_append_eq {key : α} {v val : β} :
    ∀ {A : List (α × β)} {B : List (α × β)},
    (∀ p ∈ A, p.1 < key) →
    listInsert (A ++ (key, v) :: B) key val = A ++ (key, val) :: B := by
  intro A
  induction A with
  | nil =>
    intro B _
    simp [listInsert]
  | cons p A ih =>
    intro B hA
    obtain ⟨a, b⟩ := p
    have ha : a < key := hA (a, b) (by simp)
    simp [listInsert, (ne_of_lt ha).symm, asymm ha,
      ih (fun q hq => hA q (by simp [hq]))]

set_option maxHeartbeats 1000000 in
theorem setNode_main {t : Tree α β} : ∀ {key : α} {value : β} {s : Int}
    {h : Nat},
    shapeOk t = true →
    List.Pairwise (fun a b => a < b) (inorderKeys t) →
    Bal t h →
    (isRed t = true → isRed t.left = false) →
    ∃ t2 s2, setNode t key value s = .ok (t2, s2) ∧
      inorderP t2 = listInsert (inorderP t) key value ∧
      s2 = s + (if key ∈ inorderKeys t then 0 else 1) ∧
      Bal t2 h ∧ shapeOk t2 = true ∧
      (isRed t2 = true ∧ isRed t2.left = true → isRed t = true) := by
  induction t with
  | nil =>
    intro key value s h _ _ hb _
    simp only [setNode]
    refine ⟨_, s + 1, rfl, ?_, ?_, ?_, ?_, ?_⟩
    · simp [inorderP_node, inorderP_nil, listInsert]
    · rw [if_neg (by simp)]
    · rw [bal_nil_inv hb]
      exact Bal.red Bal.nil Bal.nil
    · simp [shapeOk]
    · rintro ⟨_, hy⟩
      simp at hy
  | node c l k v r ihl ihr =>
    intro key value s h hs hord hb hrr
    obtain ⟨hs1, hs2, hs3, hs4⟩ := shapeOk_node_parts hs
    obtain ⟨h0, hbl, hbr, hh⟩ := bal_node_inv hb
    obtain ⟨hordl, hordr, hblo, hbhi⟩ := pairwise_node_parts hord
    simp only [setNode, Res.monadBind, Res.monadPure]
    by_cases hkeq : key = k
    · -- overwrite in place
      subst key
      rw [if_pos rfl]
      rw [fixUp_id (by simpa using hs1) (by simpa using hs2)]
      simp only [Res.bind_okL]
      refine ⟨_, s, rfl, ?_, ?_, ?_, ?_, ?_⟩
      · simp only [inorderP_node]
        rw [listInsert_append_eq
          (fun p hp => hblo p.1 (List.mem_map_of_mem Prod.fst hp))]
      · rw [if_pos (by simp)]
        omega
      · rw [hh]
        exact bal_node_mk k value hbl hbr
      · exact shapeOk_node_mk hs1 hs2 hs3 hs4
      · rintro ⟨hx, _⟩
        simpa using hx
    · by_cases hklt : key < k
      · -- insert on the left
        rw [if_neg hkeq, if_pos hklt]
        obtain ⟨l2, s2, hset, hino, hsz, hbal2, hshape2, hesc⟩ :=
          ihl hs3 hordl hbl
            (by intro hx
                rcases hs2 with hy | hy
                · rw [hx] at hy; cases hy
                · exact hy)
        rw [hset]
        simp only [Res.bind_okL]
        have hmem : (key ∈ inorderKeys (Tree.node c l k v r)) ↔
            key ∈ inorderKeys l := by
          simp only [inorderKeys_node, List.mem_append, List.mem_cons]
          constructor
          · rintro (hx | hx | hx)
            · exact hx
            · exact absurd hx hkeq
            · exact absurd hklt (asymm (hbhi key hx))
          · exact Or.inl
        by_cases hll2 : isRed l2 = true ∧ isRed l2.left = true
        · -- two reds in a row on the left: rotate right, then flip
          obtain ⟨hl2r, hl2lr⟩ := hll2
          have hlred : isRed l = true := hesc ⟨hl2r, hl2lr⟩
          have hcB : c = .Black := by
            cases c with
            | Red =>
              have h5 := hrr (by simp)
              rw [Tree.left_node] at h5
              rw [h5] at hlred
              cases hlred
            | Black => rfl
          subst hcB
          obtain ⟨p, pk, pv, q, rfl⟩ := isRed_true_cases hl2r
          rw [Tree.left_node] at hl2lr
          obtain ⟨pa, pax, pav, pb, rfl⟩ := isRed_true_cases hl2lr
          obtain ⟨hq1, hq2, hq3, hq4⟩ := shapeOk_node_parts hshape2
          have hpa : isRed pa = false := by
            rcases hq2 with hy | hy
            · simp at hy
            · simpa using hy
          obtain ⟨hbp, hbq⟩ := bal_red_inv hbal2
          obtain ⟨hbpa, hbpb⟩ := bal_red_inv hbp
          have hfix : fixUp (Tree.node .Black
              (.node .Red (.node .Red pa pax pav pb) pk pv q) k v r) =
              .ok (.node .Red (.node .Black pa pax pav pb) pk pv
                (.node .Black q k v r)) := by
            simp [fixUp, rotateRight, flipColors, hs1]
          rw [hfix]
          simp only [Res.bind_okL]
          refine ⟨_, s2, rfl, ?_, ?_, ?_, ?_, ?_⟩
          · simp only [inorderP_node] at hino ⊢
            rw [listInsert_append_left hklt, ← hino]
            simp only [List.append_assoc, List.cons_append]
          · rw [hsz]
            congr 1
            exact if_congr hmem.symm rfl rfl
          · have hhh : h = h0 + 1 := by simpa using hh
            rw [hhh]
            exact Bal.red (Bal.black hbpa hbpb) (Bal.black hbq hbr)
          · refine shapeOk_node_mk (by simp) (Or.inl (by simp)) ?_ ?_
            · rw [shapeOk_recolor .Black .Red]
              exact hq3
            · exact shapeOk_node_mk hs1 (Or.inl hq1) hq4 hs4
          · rintro ⟨_, hy⟩
            rw [Tree.left_node] at hy
            simp at hy
        · -- the rebuilt node needs no rotation
          have hor : isRed l2 = false ∨ isRed l2.left = false := by
            by_cases hx : isRed l2 = true
            · right
              by_cases hy : isRed l2.left = true
              · exact absurd ⟨hx, hy⟩ hll2
              · simpa using hy
            · left
              simpa using hx
          rw [fixUp_id (by simpa using hs1) (by simpa using hor)]
          simp only [Res.bind_okL]
          refine ⟨_, s2, rfl, ?_, ?_, ?_, ?_, ?_⟩
          · simp only [inorderP_node]
            rw [listInsert_append_left hklt, hino]
          · rw [hsz]
            congr 1
            exact if_congr hmem.symm rfl rfl
          · rw [hh]
            exact bal_node_mk k v hbal2 hbr
          · exact shapeOk_node_mk hs1 hor hshape2 hs4
          · rintro ⟨hx, _⟩
            simpa using hx
      · -- insert on the right
        have hkgt : k < key :=
          lt_of_le_of_ne (not_lt.mp hklt) (fun he => hkeq he.symm)
        rw [if_neg hkeq, if_neg hklt]
        obtain ⟨r2, s2, hset, hino, hsz, hbal2, hshape2, hesc⟩ :=
          ihr hs4 hordr hbr (by intro hx; rw [hs1] at hx; cases hx)
        rw [hset]
        simp only [Res.bind_okL]
        have hmem : (key ∈ inorderKeys (Tree.node c l k v r)) ↔
            key ∈ inorderKeys r := by
          simp only [inorderKeys_node, List.mem_append, List.mem_cons]
          constructor
          · rintro (hx | hx | hx)
            · exact absurd hkgt (asymm (hblo key hx))
            · exact absurd hx hkeq
            · exact hx
          · intro hx
            exact Or.inr (Or.inr hx)
        have hA : ∀ p ∈ inorderP l, p.1 < key := fun p hp =>
          lt_trans (hblo p.1 (List.mem_map_of_mem Prod.fst hp)) hkgt
        have hr2l : ¬(isRed r2 = true ∧ isRed r2.left = true) := by
          intro hx
          have hy := hesc hx
          rw [hs1] at hy
          cases hy
        by_cases hir2 : isRed r2 = true
        · -- the new right child is red
          obtain ⟨u, uk, uv, w, rfl⟩ := isRed_true_cases hir2
          have hu : isRed u = false := by
            by_cases hy : isRed u = true
            · exact (hr2l ⟨by simp, by simpa using hy⟩).elim
            · simpa using hy
          obtain ⟨hw1, hw2, hw3, hw4⟩ := shapeOk_node_parts hshape2
          obtain ⟨hbu, hbw⟩ := bal_red_inv hbal2
          by_cases hil : isRed l = true
          · -- red on both sides: flip colors
            have hcB : c = .Black := by
              cases c with
              | Red =>
                have h5 := hrr (by simp)
                rw [Tree.left_node] at h5
                rw [h5] at hil
                cases hil
              | Black => rfl
            subst hcB
            obtain ⟨la, lax, lav, lb, rfl⟩ := isRed_true_cases hil
            obtain ⟨hbla, hblb⟩ := bal_red_inv hbl
            have hlpair : isRed la = false := by
              rcases hs2 with hy | hy
              · simp at hy
              · simpa using hy
            have hfix : fixUp (Tree.node .Black
                (.node .Red la lax lav lb) k v (.node .Red u uk uv w)) =
                .ok (.node .Red (.node .Black la lax lav lb) k v
                  (.node .Black u uk uv w)) := by
              simp [fixUp, flipColors, hlpair]
            rw [hfix]
            simp only [Res.bind_okL]
            refine ⟨_, s2, rfl, ?_, ?_, ?_, ?_, ?_⟩
            · simp only [inorderP_node]
              rw [listInsert_append_right
                (by intro p hp
                    exact hA p (by simpa using hp)) hkgt, ← hino]
              simp only [inorderP_node]
            · rw [hsz]
              congr 1
              exact if_congr hmem.symm rfl rfl
            · have hhh : h = h0 + 1 := by simpa using hh
              rw [hhh]
              exact Bal.red (Bal.black hbla hblb) (Bal.black hbu hbw)
            · refine shapeOk_node_mk (by simp) (Or.inl (by simp)) ?_ ?_
              · rw [shapeOk_recolor .Black .Red]
                exact hs3
              · exact shapeOk_node_mk hw1 (Or.inl hu) hw3 hw4
            · rintro ⟨_, hy⟩
              rw [Tree.left_node] at hy
              simp at hy
          · -- right red only: rotate left
            have hilf : isRed l = false := by simpa using hil
            have hfixL : fixUp (Tree.node c l k v (.node .Red u uk uv w)) =
                .ok (.node c (.node .Red l k v u) uk uv w) := by
              simp [fixUp, rotateLeft, hilf, hw1]
            rw [hfixL]
            simp only [Res.bind_okL]
            refine ⟨_, s2, rfl, ?_, ?_, ?_, ?_, ?_⟩
            · simp only [inorderP_node]
              rw [listInsert_append_right hA hkgt, ← hino]
              simp only [inorderP_node, List.append_assoc, List.cons_append]
            · rw [hsz]
              congr 1
              exact if_congr hmem.symm rfl rfl
            · rw [hh]
              exact bal_node_mk uk uv (Bal.red hbl hbu) hbw
            · refine shapeOk_node_mk hw1 (Or.inr (by simpa using hilf)) ?_ hw4
              exact shapeOk_node_mk hu hs2 hs3 hw3
            · rintro ⟨hx, _⟩
              simpa using hx
        · -- right child stays black: plain reassembly
          have hirf : isRed r2 = false := by simpa using hir2
          rw [fixUp_id (by simpa using hirf) (by simpa using hs2)]
          simp only [Res.bind_okL]
          refine ⟨_, s2, rfl, ?_, ?_, ?_, ?_, ?_⟩
          · simp only [inorderP_node]
            rw [listInsert_append_right hA hkgt, hino]
          · rw [hsz]
            congr 1
            exact if_congr hmem.symm rfl rfl
          · rw [hh]
            exact bal_node_mk k v hbl hbal2
          · exact shapeOk_node_mk hirf hs2 hs3 hshape2
          · rintro ⟨hx, _⟩
            simpa using hx

theorem lookupKV_append (A B : List (α × β)) (key : α) :
    lookupKV (A ++ B) key = (lookupKV A key).or (lookupKV B key) := by
  induction A with
  | nil => simp [lookupKV]
  | cons p A ih =>
    obtain ⟨a, b⟩ := p
    by_cases h : key = a
    · simp [lookupKV, h]
    · simp [lookupKV, h, ih]

theorem lookupKV_eq_none {A : List (α × β)} {key : α}
    (h : ∀ p ∈ A, ¬ p.1 = key) : lookupKV A key = none := by
  induction A with
  | nil => rfl
  | cons p A ih =>
    obtain ⟨a, b⟩ := p
    have ha := h (a, b) (by simp)
    simp only at ha
    simp [lookupKV, show ¬ key = a from fun he => ha he.symm,
      ih (fun q hq => h q (by simp [hq]))]

theorem lookupKV_listInsert_self (L : List (α × β)) (key : α) (val : β) :
    lookupKV (listInsert L key val) key = some val := by
  induction L with
  | nil => simp [listInsert, lookupKV]
  | cons p L ih =>
    obtain ⟨a, b⟩ := p
    by_cases h1 : key = a
    · simp [listInsert, h1, lookupKV]
    · by_cases h2 : key < a
      · simp [listInsert, h1, h2, lookupKV]
      · simp [listInsert, h1, h2, lookupKV, ih]

theorem lookupKV_listInsert_other (L : List (α × β)) {key key2 : α}
    (val : β) (hne : ¬ key2 = key) :
    lookupKV (listInsert L key val) key2 = lookupKV L key2 := by
  induction L with
  | nil => simp [listInsert, lookupKV, hne]
  | cons p L ih =>
    obtain ⟨a, b⟩ := p
    by_cases h1 : key = a
    · subst h1
      simp [listInsert, lookupKV, hne]
    · by_cases h2 : key < a
      · simp [listInsert, h1, h2, lookupKV, hne]
      · simp [listInsert, h1, h2, lookupKV, ih]

theorem mem_listInsert_keys {key x : α} {val : β} : ∀ {L : List (α × β)},
    (x ∈ (listInsert L key val).map Prod.fst ↔
      x = key ∨ x ∈ L.map Prod.fst) := by
  intro L
  induction L with
  | nil => simp [listInsert]
  | cons p L ih =>
    obtain ⟨a, b⟩ := p
    by_cases h1 : key = a
    · simp only [listInsert, if_pos h1, List.map_cons, List.mem_cons]
      subst h1
      tauto
    · by_cases h2 : key < a
      · simp only [listInsert, if_neg h1, if_pos h2, List.map_cons,
          List.mem_cons]
      · simp only [listInsert, if_neg h1, if_neg h2, List.map_cons,
          List.mem_cons, ih]
        tauto

theorem listInsert_pairwise {key : α} {val : β} : ∀ {L : List (α × β)},
    List.Pairwise (fun a b => a < b) (L.map Prod.fst) →
    List.Pairwise (fun a b => a < b)
      ((listInsert L key val).map Prod.fst) := by
  intro L
  induction L with
  | nil =>
    intro _
    simp [listInsert]
  | cons p L ih =>
    intro h
    obtain ⟨a, b⟩ := p
    simp only [List.map_cons, List.pairwise_cons] at h
    obtain ⟨ha, hL⟩ := h
    by_cases h1 : key = a
    · simp only [listInsert, if_pos h1, List.map_cons, List.pairwise_cons]
      refine ⟨?_, hL⟩
      intro x hx
      rw [h1]
      exact ha x hx
    · by_cases h2 : key < a
      · simp only [listInsert, if_neg h1, if_pos h2, List.map_cons,
          List.pairwise_cons]
        refine ⟨?_, ha, hL⟩
        intro x hx
        rcases List.mem_cons.mp hx with rfl | hx
        · exact h2
        · exact lt_trans h2 (ha x hx)
      · have h3 : a < key :=
          lt_of_le_of_ne (not_lt.mp h2) (fun he => h1 he.symm)
        simp only [listInsert, if_neg h1, if_neg h2, List.map_cons,
          List.pairwise_cons]
        refine ⟨?_, ih hL⟩
        intro x hx
        rcases mem_listInsert_keys.mp hx with rfl | hx
        · exact h3
        · exact ha x hx

theorem listInsert_length (key : α) (val : β) : ∀ {L : List (α × β)},
    List.Pairwise (fun a b => a < b) (L.map Prod.fst) →
    (listInsert L key val).length =
      L.length + (if key ∈ L.map Prod.fst then 0 else 1) := by
  intro L
  induction L with
  | nil =>
    intro _
    simp [listInsert]
  | cons p L ih =>
    intro h
    obtain ⟨a, b⟩ := p
    simp only [List.map_cons, List.pairwise_cons] at h
    obtain ⟨ha, hL⟩ := h
    by_cases h1 : key = a
    · simp [listInsert, h1]
    · by_cases h2 : key < a
      · have hnm : ¬ key ∈ a :: List.map Prod.fst L := by
          simp only [List.mem_cons]
          rintro (rfl | hx)
          · exact h1 rfl
          · exact absurd (lt_trans h2 (ha key hx)) (lt_irrefl key)
        simp [listInsert, h1, h2]
        rw [if_neg hnm]
      · by_cases hm : key ∈ List.map Prod.fst L
        · simp [listInsert, h1, h2, ih hL, hm]
        · simp [listInsert, h1, h2, ih hL, hm]

theorem filter_length_key {key : α} : ∀ {L : List (α × β)},
    List.Pairwise (fun a b => a < b) (L.map Prod.fst) →
    (L.filter (fun p => decide (¬ p.1 = key))).length =
      L.length - (if key ∈ L.map Prod.fst then 1 else 0) := by
  intro L
  induction L with
  | nil =>
    intro _
    simp
  | cons p L ih =>
    intro h
    obtain ⟨a, b⟩ := p
    simp only [List.map_cons, List.pairwise_cons] at h
    obtain ⟨ha, hL⟩ := h
    by_cases h1 : a = key
    · subst h1
      have hnm : ¬ a ∈ List.map Prod.fst L := by
        intro hx
        exact absurd (ha a hx) (lt_irrefl a)
      rw [List.filter_cons_of_neg (by simp)]
      rw [ih hL, if_neg hnm]
      rw [if_pos (by simp)]
      simp
    · rw [List.filter_cons_of_pos (by simpa using h1)]
      rw [List.length_cons, ih hL]
      by_cases hm : key ∈ List.map Prod.fst L
      · have hm2 : key ∈ List.map Prod.fst ((a, b) :: L) := by simp [hm]
        rw [if_pos hm, if_pos hm2]
        have h1L : 1 ≤ L.length := by
          cases L with
          | nil => simp at hm
          | cons q Q => simp
        simp only [List.length_cons]
        omega
      · have hm2 : ¬ key ∈ List.map Prod.fst ((a, b) :: L) := by
          simp only [List.map_cons, List.mem_cons]
          rintro (rfl | hx)
          · exact h1 rfl
          · exact hm hx
        rw [if_neg hm, if_neg hm2]
        simp

@[simp]
theorem paintBlack_nil : paintBlack (.nil : Tree α β) = .nil := rfl

theorem paintBlack_inorderP (t : Tree α β) :
    inorderP (paintBlack t) = inorderP t := by
  cases t <;> simp [paintBlack, inorderP_node]

theorem paintBlack_shapeOk {t : Tree α β} (hs : shapeOk t = true) :
    shapeOk (paintBlack t) = true := by
  cases t with
  | nil => rfl
  | node c l k v r =>
    obtain ⟨h1, h2, h3, h4⟩ := shapeOk_node_parts hs
    exact shapeOk_node_mk h1 h2 h3 h4

theorem paintBlack_bal {t : Tree α β} {h : Nat} (hb : Bal t h) :
    ∃ h2, Bal (paintBlack t) h2 := by
  cases t with
  | nil => exact ⟨0, Bal.nil⟩
  | node c l k v r =>
    obtain ⟨h0, hbl, hbr, _⟩ := bal_node_inv hb
    exact ⟨h0 + 1, Bal.black hbl hbr⟩

@[simp]
theorem paintBlack_isRed (t : Tree α β) : isRed (paintBlack t) = false := by
  cases t <;> simp [paintBlack]

theorem paintBlack_count (t : Tree α β) : (paintBlack t).count = t.count := by
  cases t <;> simp [paintBlack, Tree.count]

theorem getNode_spec {t : Tree α β} : ∀ {key : α},
    List.Pairwise (fun a b => a < b) (inorderKeys t) →
    (getNode t key).value? = lookupKV (inorderP t) key := by
  induction t with
  | nil =>
    intro key _
    rfl
  | node c l k v r ihl ihr =>
    intro key hord
    obtain ⟨hordl, hordr, hblo, hbhi⟩ := pairwise_node_parts hord
    simp only [getNode]
    by_cases h1 : key = k
    · subst h1
      rw [if_pos rfl]
      rw [inorderP_node, lookupKV_append,
        lookupKV_eq_none (keys_lt_not_mem hblo (lt_irrefl key))]
      simp [lookupKV]
    · by_cases h2 : key < k
      · rw [if_neg h1, if_pos h2, ihl hordl]
        rw [inorderP_node, lookupKV_append]
        have hnone : lookupKV ((k, v) :: inorderP r) key = none := by
          apply lookupKV_eq_none
          intro p hp
          rcases List.mem_cons.mp hp with rfl | hp
          · exact fun he => h1 he.symm
          · exact keys_gt_not_mem hbhi (Or.inl h2) p hp
        rw [hnone]
        simp
      · rw [if_neg h1, if_neg h2, ihr hordr]
        rw [inorderP_node, lookupKV_append,
          lookupKV_eq_none (keys_lt_not_mem hblo h2)]
        simp [lookupKV, h1]

theorem invariant_empty : Invariant (RedBlackTree.empty : RedBlackTree α β) :=
  ⟨rfl, rfl, rfl, List.Pairwise.nil, by simp [RedBlackTree.empty, Tree.count]⟩

theorem set_ok (key : α) (value : β) {m : RedBlackTree α β}
    (hI : Invariant m) :
    ∃ m2, m.set key value = .ok m2 ∧
      inorderP m2.root = listInsert (inorderP m.root) key value ∧
      m2.size = m.size + (if key ∈ inorderKeys m.root then 0 else 1) ∧
      Invariant m2 := by
  obtain ⟨hs, hroot, hbh, hord, hsz⟩ := hI
  obtain ⟨h, hb⟩ := (blackHeight_isSome_iff_bal m.root).mp hbh
  obtain ⟨t2, s2, hset, hino, hs2, hbal2, hshape2, _⟩ :=
    @setNode_main α β _ m.root key value m.size h hs hord hb
      (by intro hx; rw [hroot] at hx; cases hx)
  refine ⟨⟨paintBlack t2, s2⟩, ?_, ?_, hs2, ?_, ?_, ?_, ?_, ?_⟩
  · simp only [RedBlackTree.set, Res.monadBind, Res.monadPure, hset,
      Res.bind_okL]
  · rw [paintBlack_inorderP, hino]
  · exact paintBlack_shapeOk hshape2
  · exact paintBlack_isRed t2
  · exact (blackHeight_isSome_iff_bal _).mpr (paintBlack_bal hbal2)
  · show List.Pairwise (fun a b => a < b) (inorderKeys (paintBlack t2))
    rw [inorderKeys, paintBlack_inorderP, hino]
    exact listInsert_pairwise hord
  · show s2 = ((paintBlack t2).count : Int)
    rw [paintBlack_count]
    have hct : t2.count = (listInsert (inorderP m.root) key value).length := by
      rw [count_eq_length_inorderP, hino]
    have hlen := listInsert_length key value hord
    have hc0 := count_eq_length_inorderP m.root
    by_cases hm : key ∈ inorderKeys m.root
    · rw [if_pos hm] at hs2
      rw [if_pos (show key ∈ List.map Prod.fst (inorderP m.root) from hm)]
        at hlen
      omega
    · rw [if_neg hm] at hs2
      rw [if_neg (show ¬ key ∈ List.map Prod.fst (inorderP m.root) from hm)]
        at hlen
      omega

theorem deleteMin_pub {m : RedBlackTree α β} (hI : Invariant m) :
    (m.root = .nil ∧ m.deleteMin = .ok (m, false)) ∨
    (m.root ≠ .nil ∧ ∃ m2, m.deleteMin = .ok (m2, true) ∧ Invariant m2 ∧
      inorderP m2.root = (inorderP m.root).tail ∧
      m2.size = m.size - 1) := by
  obtain ⟨hs, hroot, hbh, hord, hsz⟩ := hI
  obtain ⟨h, hb⟩ := (blackHeight_isSome_iff_bal m.root).mp hbh
  cases hm : m.root with
  | nil =>
    left
    refine ⟨rfl, ?_⟩
    simp [RedBlackTree.deleteMin, hm]
  | node c l k v r =>
    right
    refine ⟨by simp, ?_⟩
    rw [hm] at hs hb
    obtain ⟨t2, hdel, hino, hshape2, hex, _⟩ :=
      @deleteMin_main α β _ ((Tree.node c l k v r).count + 1)
        (Tree.node c l k v r) m.size h
        (by omega) hs hb
        (by intro hx; rw [hm] at hroot; rw [hroot] at hx; cases hx)
        (by simp)
    obtain ⟨h2, hbal2⟩ := hex
    refine ⟨⟨paintBlack t2, m.size - 1⟩, ?_, ?_, ?_, ?_⟩
    · simp only [RedBlackTree.deleteMin, hm, hdel, Res.bind_okL,
        Res.monadBind, Res.monadPure]
      have : (decide (m.size - 1 < m.size)) = true := by
        rw [decide_eq_true_eq]
        omega
      rw [this]
    · refine ⟨paintBlack_shapeOk hshape2, paintBlack_isRed t2,
        (blackHeight_isSome_iff_bal _).mpr (paintBlack_bal hbal2), ?_, ?_⟩
      · show List.Pairwise (fun a b => a < b) (inorderKeys (paintBlack t2))
        rw [inorderKeys, paintBlack_inorderP, hino]
        rw [hm] at hord
        exact List.Pairwise.sublist
          ((List.tail_sublist _).map Prod.fst) hord
      · show (m.size - 1 : Int) = ((paintBlack t2).count : Int)
        rw [paintBlack_count]
        have hct : t2.count = (inorderP (Tree.node c l k v r)).length - 1 := by
          rw [count_eq_length_inorderP, hino, List.length_tail]
        have hc0 := count_eq_length_inorderP (Tree.node c l k v r)
        have hpos : 1 ≤ (Tree.node c l k v r).count := by
          simp only [Tree.count]
          omega
        rw [hm] at hsz
        omega
    · rw [paintBlack_inorderP, hino]
    · rfl

theorem deleteMax_pub {m : RedBlackTree α β} (hI : Invariant m) :
    (m.root = .nil ∧ m.deleteMax = .ok (m, false)) ∨
    (m.root ≠ .nil ∧ ∃ m2, m.deleteMax = .ok (m2, true) ∧ Invariant m2 ∧
      inorderP m2.root = (inorderP m.root).dropLast ∧
      m2.size = m.size - 1) := by
  obtain ⟨hs, hroot, hbh, hord, hsz⟩ := hI
  obtain ⟨h, hb⟩ := (blackHeight_isSome_iff_bal m.root).mp hbh
  cases hm : m.root with
  | nil =>
    left
    refine ⟨rfl, ?_⟩
    simp [RedBlackTree.deleteMax, hm]
  | node c l k v r =>
    right
    refine ⟨by simp, ?_⟩
    rw [hm] at hs hb
    obtain ⟨hs1, hs2x, hs3, hs4⟩ := shapeOk_node_parts hs
    have hrootB : isRed (Tree.node c l k v r) = false := by
      rw [← hm]
      exact hroot
    obtain ⟨t2, hdel, hino, hshape2, hex, _⟩ :=
      @deleteMax_main α β _ ((Tree.node c l k v r).count + 1)
        (Tree.node c l k v r) m.size h
        (by omega) (by simpa using hs3) (by simpa using hs4)
        (by intro hx
            rcases hs2x with hy | hy
            · rw [Tree.left_node] at hx; rw [hx] at hy; cases hy
            · simpa using hy)
        (by intro hx; rw [hrootB] at hx; cases hx)
        (by intro hx; rw [hrootB] at hx; cases hx)
        (by intro _; simpa using hs1)
        (by intro hx; rw [Tree.right_node] at hx; rw [hs1] at hx; cases hx)
        hb (by simp)
    obtain ⟨h2, hbal2⟩ := hex
    refine ⟨⟨paintBlack t2, m.size - 1⟩, ?_, ?_, ?_, ?_⟩
    · simp only [RedBlackTree.deleteMax, hm, hdel, Res.bind_okL,
        Res.monadBind, Res.monadPure]
      have : (decide (m.size - 1 < m.size)) = true := by
        rw [decide_eq_true_eq]
        omega
      rw [this]
    · refine ⟨paintBlack_shapeOk hshape2, paintBlack_isRed t2,
        (blackHeight_isSome_iff_bal _).mpr (paintBlack_bal hbal2), ?_, ?_⟩
      · show List.Pairwise (fun a b => a < b) (inorderKeys (paintBlack t2))
        rw [inorderKeys, paintBlack_inorderP, hino]
        rw [hm] at hord
        exact List.Pairwise.sublist
          ((List.dropLast_sublist _).map Prod.fst) hord
      · show (m.size - 1 : Int) = ((paintBlack t2).count : Int)
        rw [paintBlack_count]
        have hct : t2.count = (inorderP (Tree.node c l k v r)).length - 1 := by
          rw [count_eq_length_inorderP, hino, List.length_dropLast]
        have hc0 := count_eq_length_inorderP (Tree.node c l k v r)
        have hpos : 1 ≤ (Tree.node c l k v r).count := by
          simp only [Tree.count]
          omega
        rw [hm] at hsz
        omega
    · rw [paintBlack_inorderP, hino]
    · rfl

theorem delete_pub (key : α) {m : RedBlackTree α β} (hI : Invariant m) :
    (m.delete key = .assertFail ∧ key ∉ inorderKeys m.root) ∨
    (∃ m2 b, m.delete key = .ok (m2, b) ∧ Invariant m2 ∧
      inorderP m2.root =
        (inorderP m.root).filter (fun p => decide (¬ p.1 = key)) ∧
      (b = true ↔ key ∈ inorderKeys m.root) ∧
      m2.size = m.size -
        (if key ∈ inorderKeys m.root then 1 else 0)) := by
  obtain ⟨hs, hroot, hbh, hord, hsz⟩ := hI
  obtain ⟨h, hb⟩ := (blackHeight_isSome_iff_bal m.root).mp hbh
  cases hm : m.root with
  | nil =>
    right
    refine ⟨m, false, ?_, ⟨hs, hroot, hbh, hord, hsz⟩, ?_, ?_, ?_⟩
    · simp [RedBlackTree.delete, hm]
    · rw [hm]
      simp
    · simp
    · simp
  | node c l k v r =>
    rw [hm] at hs hb hord
    obtain ⟨hs1, hs2x, hs3, hs4⟩ := shapeOk_node_parts hs
    have hrootB : isRed (Tree.node c l k v r) = false := by
      rw [← hm]
      exact hroot
    rcases @delete_main α β _ ((Tree.node c l k v r).count + 1)
        (Tree.node c l k v r) key m.size h
        (by omega) (by simpa using hs3) (by simpa using hs4)
        (by intro hx
            rcases hs2x with hy | hy
            · rw [Tree.left_node] at hx; rw [hx] at hy; cases hy
            · simpa using hy)
        (by intro hx; rw [hrootB] at hx; cases hx)
        (by intro hx; rw [hrootB] at hx; cases hx)
        (by intro _; simpa using hs1)
        (by intro hx; rw [Tree.right_node] at hx; rw [hs1] at hx; cases hx)
        (by intro k0 _ hx; rw [Tree.right_node] at hx; rw [hs1] at hx;
            cases hx)
        hord hb (by simp)
      with ⟨hfail, hnm⟩ | ⟨t2, s2, hdel, hs2, hino, hshape2, hex, _⟩
    · left
      refine ⟨?_, ?_⟩
      · simp [RedBlackTree.delete, hm, hfail, Res.monadBind]
      · exact hnm
    · right
      obtain ⟨h2, hbal2⟩ := hex
      refine ⟨⟨paintBlack t2, s2⟩,
        decide (key ∈ inorderKeys (Tree.node c l k v r)), ?_, ?_, ?_, ?_, ?_⟩
      · simp only [RedBlackTree.delete, hm, hdel, Res.bind_okL,
          Res.monadBind, Res.monadPure]
        have hsz2 : m.size = ((Tree.node c l k v r).count : Int) := by
          rw [hsz, hm]
        have hb2 : (decide (s2 < m.size)) =
            (decide (key ∈ inorderKeys (Tree.node c l k v r))) := by
          by_cases hmem : key ∈ inorderKeys (Tree.node c l k v r)
          · rw [hs2, if_pos hmem, decide_eq_true hmem, decide_eq_true_eq]
            omega
          · rw [hs2, if_neg hmem, decide_eq_false hmem, decide_eq_false_iff_not]
            omega
        rw [hb2]
      · refine ⟨paintBlack_shapeOk hshape2, paintBlack_isRed t2,
          (blackHeight_isSome_iff_bal _).mpr (paintBlack_bal hbal2), ?_, ?_⟩
        · show List.Pairwise (fun a b => a < b) (inorderKeys (paintBlack t2))
          rw [inorderKeys, paintBlack_inorderP, hino]
          exact List.Pairwise.sublist
            ((List.filter_sublist _).map Prod.fst) hord
        · show s2 = ((paintBlack t2).count : Int)
          rw [paintBlack_count]
          have hct := count_eq_length_inorderP t2
          rw [hino] at hct
          rw [filter_length_key hord] at hct
          have hc0 := count_eq_length_inorderP (Tree.node c l k v r)
          have hsz2 : m.size = ((Tree.node c l k v r).count : Int) := by
            rw [hsz, hm]
          by_cases hmem : key ∈ inorderKeys (Tree.node c l k v r)
          · rw [if_pos (show key ∈ (inorderP (Tree.node c l k v r)).map
                Prod.fst from hmem)] at hct
            rw [hs2, if_pos hmem]
            have hpos : key ∈ (inorderP (Tree.node c l k v r)).map
                Prod.fst := hmem
            have hlen1 : 1 ≤ (inorderP (Tree.node c l k v r)).length := by
              cases hq : inorderP (Tree.node c l k v r) with
              | nil => rw [hq] at hpos; simp at hpos
              | cons a L => simp
            omega
          · rw [if_neg (show ¬ key ∈ (inorderP (Tree.node c l k v r)).map
                Prod.fst from hmem)] at hct
            rw [hs2, if_neg hmem]
            omega
      · rw [paintBlack_inorderP, hino]
      · simp
      · show s2 = m.size -
          (if key ∈ inorderKeys (Tree.node c l k v r) then 1 else 0)
        rw [hs2]
        by_cases hmem : key ∈ inorderKeys (Tree.node c l k v r)
        · rw [if_pos hmem, if_pos hmem]
        · rw [if_neg hmem, if_neg hmem]
          omega

theorem applyOp_invariant {m m2 : RedBlackTree α β} {op : Op α β}
    (hI : Invariant m) (h : applyOp m op = .ok m2) : Invariant m2 := by
  cases op with
  | set k v =>
    obtain ⟨m3, hset, _, _, hI3⟩ := set_ok k v hI
    rw [applyOp, hset] at h
    cases h
    exact hI3
  | del k =>
    rcases delete_pub k hI with ⟨hfail, _⟩ |
      ⟨m3, b, hdel, hI3, _, _, _⟩
    · rw [applyOp, hfail] at h
      cases h
    · rw [applyOp, hdel] at h
      simp only [Res.bind_okL] at h
      cases h
      exact hI3
  | delMin =>
    rcases deleteMin_pub hI with ⟨_, hdel⟩ | ⟨_, m3, hdel, hI3, _, _⟩
    · rw [applyOp, hdel] at h
      simp only [Res.bind_okL] at h
      cases h
      exact ⟨hI.1, hI.2.1, hI.2.2.1, hI.2.2.2.1, hI.2.2.2.2⟩
    · rw [applyOp, hdel] at h
      simp only [Res.bind_okL] at h
      cases h
      exact hI3
  | delMax =>
    rcases deleteMax_pub hI with ⟨_, hdel⟩ | ⟨_, m3, hdel, hI3, _, _⟩
    · rw [applyOp, hdel] at h
      simp only [Res.bind_okL] at h
      cases h
      exact ⟨hI.1, hI.2.1, hI.2.2.1, hI.2.2.2.1, hI.2.2.2.2⟩
    · rw [applyOp, hdel] at h
      simp only [Res.bind_okL] at h
      cases h
      exact hI3
  | clear =>
    rw [applyOp] at h
    cases h
    exact invariant_empty

theorem applyOps_invariant : ∀ {ops : List (Op α β)}
    {m m2 : RedBlackTree α β},
    Invariant m → applyOps m ops = .ok m2 → Invariant m2 := by
  intro ops
  induction ops with
  | nil =>
    intro m m2 hI h
    simp only [applyOps, Res.ok.injEq] at h
    rw [← h]
    exact hI
  | cons op rest ih =>
    intro m m2 hI h
    simp only [applyOps] at h
    cases hop : applyOp m op with
    | ok mm =>
      rw [hop, Res.bind_okL] at h
      exact ih (applyOp_invariant hI hop) h
    | assertFail =>
      rw [hop, Res.bind_failL] at h
      cases h
    | outOfFuel =>
      rw [hop, Res.bind_fuelL] at h
      cases h

theorem reachable_invariant {m : RedBlackTree α β} (h : Reachable m) :
    Invariant m := by
  obtain ⟨ops, hops⟩ := h
  exact applyOps_invariant invariant_empty hops

/-! Iterator equivalence. -/

theorem entriesAux_node (c : Color) (l : Tree α β) (k : α) (v : β)
    (r : Tree α β) (stack : List (Tree α β)) :
    entriesAux (.node c l k v r) stack =
      entriesAux l (.node c l k v r :: stack) := by
  rw [entriesAux, entriesAux]
  rfl

theorem entriesAux_pop (c : Color) (l : Tree α β) (k : α) (v : β)
    (r : Tree α β) (rest : List (Tree α β)) :
    entriesAux (.nil : Tree α β) (.node c l k v r :: rest) =
      (k, v) :: entriesAux r rest := by
  rw [entriesAux]
  rfl

theorem entriesAux_done : entriesAux (.nil : Tree α β) [] = [] := by
  rw [entriesAux]
  rfl

theorem keysAux_node (c : Color) (l : Tree α β) (k : α) (v : β)
    (r : Tree α β) (stack : List (Tree α β)) :
    keysAux (.node c l k v r) stack =
      keysAux l (.node c l k v r :: stack) := by
  rw [keysAux, keysAux]
  rfl

theorem keysAux_pop (c : Color) (l : Tree α β) (k : α) (v : β)
    (r : Tree α β) (rest : List (Tree α β)) :
    keysAux (.nil : Tree α β) (.node c l k v r :: rest) =
      k :: keysAux r rest := by
  rw [keysAux]
  rfl

theorem keysAux_done : keysAux (.nil : Tree α β) [] = [] := by
  rw [keysAux]
  rfl

theorem valuesAux_node (c : Color) (l : Tree α β) (k : α) (v : β)
    (r : Tree α β) (stack : List (Tree α β)) :
    valuesAux (.node c l k v r) stack =
      valuesAux l (.node c l k v r :: stack) := by
  rw [valuesAux, valuesAux]
  rfl

theorem valuesAux_pop (c : Color) (l : Tree α β) (k : α) (v : β)
    (r : Tree α β) (rest : List (Tree α β)) :
    valuesAux (.nil : Tree α β) (.node c l k v r :: rest) =
      v :: valuesAux r rest := by
  rw [valuesAux]
  rfl

theorem valuesAux_done : valuesAux (.nil : Tree α β) [] = [] := by
  rw [valuesAux]
  rfl

theorem entriesAux_split : ∀ (t : Tree α β) (stack : List (Tree α β)),
    entriesAux t stack = inorderP t ++ entriesAux .nil stack := by
  intro t
  induction t with
  | nil =>
    intro stack
    rw [inorderP_nil]
    rfl
  | node c l k v r ihl ihr =>
    intro stack
    rw [entriesAux_node, ihl, entriesAux_pop, ihr, inorderP_node]
    simp [List.append_assoc]

theorem keysAux_split : ∀ (t : Tree α β) (stack : List (Tree α β)),
    keysAux t stack = inorderKeys t ++ keysAux .nil stack := by
  intro t
  induction t with
  | nil =>
    intro stack
    rw [inorderKeys_nil]
    rfl
  | node c l k v r ihl ihr =>
    intro stack
    rw [keysAux_node, ihl, keysAux_pop, ihr, inorderKeys_node]
    simp [List.append_assoc]

theorem valuesAux_split : ∀ (t : Tree α β) (stack : List (Tree α β)),
    valuesAux t stack = (inorderP t).map Prod.snd ++ valuesAux .nil stack := by
  intro t
  induction t with
  | nil =>
    intro stack
    rw [inorderP_nil]
    rfl
  | node c l k v r ihl ihr =>
    intro stack
    rw [valuesAux_node, ihl, valuesAux_pop, ihr, inorderP_node]
    simp [List.append_assoc]

theorem entries_eq_inorderP (m : RedBlackTree α β) :
    m.entries = inorderP m.root := by
  rw [RedBlackTree.entries, entriesAux_split, entriesAux_done,
    List.append_nil]

theorem keys_eq_inorderKeys (m : RedBlackTree α β) :
    m.keys = inorderKeys m.root := by
  rw [RedBlackTree.keys, keysAux_split, keysAux_done, List.append_nil]

theorem values_eq_inorderValues (m : RedBlackTree α β) :
    m.values = (inorderP m.root).map Prod.snd := by
  rw [RedBlackTree.values, valuesAux_split, valuesAux_done, List.append_nil]

/-! Minimum and maximum. -/

theorem count_eq_zero {t : Tree α β} (h : t.count = 0) : t = .nil := by
  cases t with
  | nil => rfl
  | node c l k v r => simp [Tree.count] at h

theorem maxNode_spec : ∀ {t : Tree α β}, t ≠ .nil →
    ∃ mc ml mk mv, maxNode t = .node mc ml mk mv .nil ∧
      (inorderP t).getLast? = some (mk, mv) := by
  intro t
  induction t with
  | nil =>
    intro hx
    exact absurd rfl hx
  | node c l k v r ihl ihr =>
    intro _
    match r, ihr with
    | .nil, _ =>
      refine ⟨c, l, k, v, rfl, ?_⟩
      rw [inorderP_node, inorderP_nil]
      exact List.getLast?_concat _
    | .node rc rl rk rv rr, ihr =>
      obtain ⟨mc, ml, mk, mv, hm, hh⟩ := ihr (by simp)
      refine ⟨mc, ml, mk, mv, ?_, ?_⟩
      · rw [maxNode]
        exact hm
      · rw [inorderP_node,
          show inorderP l ++ (k, v) :: inorderP (Tree.node rc rl rk rv rr) =
            (inorderP l ++ [(k, v)]) ++
              inorderP (Tree.node rc rl rk rv rr) by simp,
          List.getLast?_append_of_ne_nil _ (inorderP_ne_nil rc rl rk rv rr)]
        exact hh

theorem minKey_spec (m : RedBlackTree α β) :
    m.minKey = (inorderKeys m.root).head? := by
  cases hm : m.root with
  | nil => simp [RedBlackTree.minKey, hm, inorderKeys]
  | node c l k v r =>
    simp only [RedBlackTree.minKey, hm]
    obtain ⟨mc, mk, mv, mr, hmeq, hhead⟩ :=
      minNode_spec (show (Tree.node c l k v r : Tree α β) ≠ .nil by simp)
    rw [hmeq, inorderKeys, List.head?_map, hhead]
    rfl

theorem maxKey_spec (m : RedBlackTree α β) :
    m.maxKey = (inorderKeys m.root).getLast? := by
  cases hm : m.root with
  | nil => simp [RedBlackTree.maxKey, hm, inorderKeys]
  | node c l k v r =>
    simp only [RedBlackTree.maxKey, hm]
    obtain ⟨mc, ml, mk, mv, hmeq, hlast⟩ :=
      maxNode_spec (show (Tree.node c l k v r : Tree α β) ≠ .nil by simp)
    rw [hmeq, inorderKeys, List.getLast?_map, hlast]
    rfl

/-! Draining the tree by repeated deleteMin / deleteMax. -/

theorem drainMin_keys : ∀ {n : Nat} {m : RedBlackTree α β},
    Invariant m → m.root.count ≤ n →
    drainMin n m = .ok (inorderKeys m.root) := by
  intro n
  induction n with
  | zero =>
    intro m hI hc
    have hnil : m.root = .nil := count_eq_zero (by omega)
    rw [drainMin, hnil]
    simp [inorderKeys]
  | succ n ih =>
    intro m hI hc
    cases hm : m.root with
    | nil =>
      have hmk : m.minKey = none := by
        rw [minKey_spec, hm]
        simp [inorderKeys]
      rw [drainMin, hmk]
      simp [inorderKeys]
    | node c l k v r =>
      have hne : m.root ≠ .nil := by rw [hm]; simp
      obtain ⟨mc, mk, mv, mr, hmeq, hhead⟩ := minNode_spec hne
      have hheadk : (inorderKeys m.root).head? = some mk := by
        rw [inorderKeys, List.head?_map, hhead]
        rfl
      have hmk : m.minKey = some mk := by
        rw [minKey_spec, hheadk]
      rcases deleteMin_pub hI with ⟨hnil, _⟩ | ⟨_, m2, hdel, hI2, hino2, hsz2⟩
      · rw [hm] at hnil
        cases hnil
      · rw [drainMin, hmk, hdel]
        simp only [Res.bind_okL]
        have hpos : 1 ≤ m.root.count := by
          rw [hm]
          simp only [Tree.count]
          omega
        have hcnt2 : m2.root.count ≤ n := by
          have h1 := hI.2.2.2.2
          have h2 := hI2.2.2.2.2
          omega
        rw [ih hI2 hcnt2]
        simp only [Res.bind_okL]
        congr 1
        have hkeys2 : inorderKeys m2.root = (inorderKeys m.root).tail := by
          rw [inorderKeys, hino2, inorderKeys, List.map_tail]
        rw [hkeys2, ← hm]
        exact List.cons_head?_tail (Option.mem_def.mpr hheadk)

theorem drainMax_keys : ∀ {n : Nat} {m : RedBlackTree α β},
    Invariant m → m.root.count ≤ n →
    drainMax n m = .ok (inorderKeys m.root).reverse := by
  intro n
  induction n with
  | zero =>
    intro m hI hc
    have hnil : m.root = .nil := count_eq_zero (by omega)
    rw [drainMax, hnil]
    simp [inorderKeys]
  | succ n ih =>
    intro m hI hc
    cases hm : m.root with
    | nil =>
      have hmk : m.maxKey = none := by
        rw [maxKey_spec, hm]
        simp [inorderKeys]
      rw [drainMax, hmk]
      simp [inorderKeys]
    | node c l k v r =>
      have hne : m.root ≠ .nil := by rw [hm]; simp
      obtain ⟨mc, ml, mk, mv, hmeq, hlast⟩ := maxNode_spec hne
      have hlastk : (inorderKeys m.root).getLast? = some mk := by
        rw [inorderKeys, List.getLast?_map, hlast]
        rfl
      have hmk : m.maxKey = some mk := by
        rw [maxKey_spec, hlastk]
      rcases deleteMax_pub hI with ⟨hnil, _⟩ | ⟨_, m2, hdel, hI2, hino2, hsz2⟩
      · rw [hm] at hnil
        cases hnil
      · rw [drainMax, hmk, hdel]
        simp only [Res.bind_okL]
        have hpos : 1 ≤ m.root.count := by
          rw [hm]
          simp only [Tree.count]
          omega
        have hcnt2 : m2.root.count ≤ n := by
          have h1 := hI.2.2.2.2
          have h2 := hI2.2.2.2.2
          omega
        rw [ih hI2 hcnt2]
        simp only [Res.bind_okL]
        congr 1
        have hkeys2 : inorderKeys m2.root = (inorderKeys m.root).dropLast := by
          rw [inorderKeys, hino2, inorderKeys, List.map_dropLast]
        rw [hkeys2, ← hm]
        have hknn : inorderKeys m.root ≠ [] := by
          intro hx
          rw [hx] at hlastk
          simp at hlastk
        have hgl : (inorderKeys m.root).getLast hknn = mk := by
          have := List.getLast?_eq_getLast (inorderKeys m.root) hknn
          rw [hlastk] at this
          exact (Option.some_inj.mp this).symm
        conv_rhs => rw [← List.dropLast_concat_getLast hknn]
        rw [List.reverse_append, hgl]
        rfl

/-! Predecessor and successor. -/

theorem getLast?_append_cons_ne {γ : Type} (A : List γ) (b : γ) {B : List γ}
    (h : B ≠ []) : (A ++ b :: B).getLast? = B.getLast? := by
  rw [show A ++ b :: B = (A ++ [b]) ++ B by simp]
  exact List.getLast?_append_of_ne_nil _ h

theorem previousNode_spec {t : Tree α β} : ∀ {key : α},
    List.Pairwise (fun a b => a < b) (inorderKeys t) →
    (previousNode t key).key? =
      ((inorderKeys t).filter (fun a => decide (a < key))).getLast? := by
  induction t with
  | nil =>
    intro key _
    rfl
  | node c l k v r ihl ihr =>
    intro key hord
    obtain ⟨hordl, hordr, hblo, hbhi⟩ := pairwise_node_parts hord
    rw [previousNode]
    by_cases h1 : key ≤ k
    · rw [if_pos h1, ihl hordl]
      rw [inorderKeys_node, List.filter_append]
      have hdrop : ((k :: inorderKeys r).filter
          (fun a => decide (a < key))) = [] := by
        rw [List.filter_eq_nil_iff]
        intro a ha
        simp only [decide_eq_true_eq]
        rcases List.mem_cons.mp ha with rfl | ha
        · exact not_lt.mpr h1
        · exact not_lt.mpr (le_trans h1 (le_of_lt (hbhi a ha)))
      rw [hdrop, List.append_nil]
    · have hk : k < key := not_le.mp h1
      rw [if_neg h1]
      rw [inorderKeys_node, List.filter_append]
      have hkeep : (inorderKeys l).filter (fun a => decide (a < key)) =
          inorderKeys l := by
        apply List.filter_eq_self.mpr
        intro a ha
        simp only [decide_eq_true_eq]
        exact lt_trans (hblo a ha) hk
      rw [hkeep, List.filter_cons_of_pos (by simpa using hk)]
      cases hpr : previousNode r key with
      | nil =>
        have hspec := @ihr key hordr
        rw [hpr] at hspec
        have hB : (inorderKeys r).filter (fun a => decide (a < key)) = [] := by
          have h2 := hspec.symm
          rw [Tree.key?_nil] at h2
          exact List.getLast?_eq_none_iff.mp h2
        simp only [hpr, Tree.key?_node]
        rw [hB, List.getLast?_concat]
      | node pc pl pk pv pr =>
        have hspec := @ihr key hordr
        rw [hpr, Tree.key?_node] at hspec
        have hBne : (inorderKeys r).filter (fun a => decide (a < key)) ≠
            [] := by
          intro hx
          rw [hx] at hspec
          simp at hspec
        simp only [hpr, Tree.key?_node]
        rw [getLast?_append_cons_ne _ _ hBne]
        exact hspec

theorem nextNode_spec {t : Tree α β} : ∀ {key : α},
    List.Pairwise (fun a b => a < b) (inorderKeys t) →
    (nextNode t key).key? =
      ((inorderKeys t).filter (fun a => decide (key < a))).head? := by
  induction t with
  | nil =>
    intro key _
    rfl
  | node c l k v r ihl ihr =>
    intro key hord
    obtain ⟨hordl, hordr, hblo, hbhi⟩ := pairwise_node_parts hord
    rw [nextNode]
    by_cases h1 : key ≥ k
    · rw [if_pos h1, ihr hordr]
      rw [inorderKeys_node, List.filter_append]
      have hdropl : (inorderKeys l).filter (fun a => decide (key < a)) =
          [] := by
        rw [List.filter_eq_nil_iff]
        intro a ha
        simp only [decide_eq_true_eq]
        exact not_lt.mpr (le_of_lt (lt_of_lt_of_le (hblo a ha) h1))
      rw [hdropl, List.filter_cons_of_neg (by simpa using not_lt.mpr h1)]
      rw [List.nil_append]
    · have hk : key < k := not_le.mp h1
      rw [if_neg h1]
      rw [inorderKeys_node, List.filter_append]
      have hkeepr : (inorderKeys r).filter (fun a => decide (key < a)) =
          inorderKeys r := by
        apply List.filter_eq_self.mpr
        intro a ha
        simp only [decide_eq_true_eq]
        exact lt_trans hk (hbhi a ha)
      rw [List.filter_cons_of_pos (by simpa using hk), hkeepr]
      cases hnl : nextNode l key with
      | nil =>
        have hspec := @ihl key hordl
        rw [hnl] at hspec
        have hB : (inorderKeys l).filter (fun a => decide (key < a)) = [] := by
          have h2 := hspec.symm
          rw [Tree.key?_nil] at h2
          exact List.head?_eq_none_iff.mp h2
        simp only [hnl, Tree.key?_node]
        rw [hB, List.nil_append, List.head?_cons]
      | node pc pl pk pv pr =>
        have hspec := @ihl key hordl
        rw [hnl, Tree.key?_node] at hspec
        simp only [hnl, Tree.key?_node]
        exact (head?_append_of_some hspec.symm).symm

/-! Overwriting the value of a present key. -/

theorem updateValue_isRed (t : Tree α β) (key : α) (val : β) :
    isRed (updateValue t key val) = isRed t := by
  cases t with
  | nil => rfl
  | node c l k v r =>
    rw [updateValue]
    by_cases h1 : key = k
    · rw [if_pos h1]
      cases c <;> rfl
    · by_cases h2 : key < k
      · rw [if_neg h1, if_pos h2]
        cases c <;> rfl
      · rw [if_neg h1, if_neg h2]
        cases c <;> rfl

theorem updateValue_left_isRed (t : Tree α β) (key : α) (val : β) :
    isRed (updateValue t key val).left = isRed t.left := by
  cases t with
  | nil => rfl
  | node c l k v r =>
    rw [updateValue]
    by_cases h1 : key = k
    · rw [if_pos h1]
      rfl
    · by_cases h2 : key < k
      · rw [if_neg h1, if_pos h2, Tree.left_node, Tree.left_node,
          updateValue_isRed]
      · rw [if_neg h1, if_neg h2]
        rfl

theorem updateValue_keyColorShape (t : Tree α β) (key : α) (val : β) :
    (updateValue t key val).keyColorShape = t.keyColorShape := by
  induction t with
  | nil => rfl
  | node c l k v r ihl ihr =>
    rw [updateValue]
    by_cases h1 : key = k
    · rw [if_pos h1]
      rfl
    · by_cases h2 : key < k
      · rw [if_neg h1, if_pos h2]
        simp [Tree.keyColorShape, ihl]
      · rw [if_neg h1, if_neg h2]
        simp [Tree.keyColorShape, ihr]

theorem setNode_present {t : Tree α β} : ∀ {key : α} {val : β} {s : Int},
    shapeOk t = true →
    List.Pairwise (fun a b => a < b) (inorderKeys t) →
    key ∈ inorderKeys t →
    setNode t key val s = .ok (updateValue t key val, s) := by
  induction t with
  | nil =>
    intro key val s _ _ hmem
    simp [inorderKeys] at hmem
  | node c l k v r ihl ihr =>
    intro key val s hs hord hmem
    obtain ⟨hs1, hs2, hs3, hs4⟩ := shapeOk_node_parts hs
    obtain ⟨hordl, hordr, hblo, hbhi⟩ := pairwise_node_parts hord
    simp only [setNode, Res.monadBind, Res.monadPure]
    by_cases h1 : key = k
    · rw [if_pos h1]
      rw [fixUp_id (by simpa using hs1) (by simpa using hs2)]
      simp only [Res.bind_okL]
      rw [updateValue, if_pos h1]
    · by_cases h2 : key < k
      · rw [if_neg h1, if_pos h2]
        have hmeml : key ∈ inorderKeys l := by
          simp only [inorderKeys_node, List.mem_append, List.mem_cons] at hmem
          rcases hmem with hx | hx | hx
          · exact hx
          · exact absurd hx h1
          · exact absurd h2 (asymm (hbhi key hx))
        rw [ihl hs3 hordl hmeml]
        simp only [Res.bind_okL]
        have hA : isRed (Tree.node c (updateValue l key val) k v r).right =
            false := by
          simpa using hs1
        have hB : isRed (Tree.node c (updateValue l key val) k v r).left =
            false ∨
            isRed (Tree.node c (updateValue l key val) k v r).left.left =
              false := by
          rcases hs2 with hy | hy
          · left
            rw [Tree.left_node, updateValue_isRed]
            exact hy
          · right
            rw [Tree.left_node, updateValue_left_isRed]
            exact hy
        rw [fixUp_id hA hB]
        simp only [Res.bind_okL]
        rw [updateValue, if_neg h1, if_pos h2]
      · rw [if_neg h1, if_neg h2]
        have hmemr : key ∈ inorderKeys r := by
          simp only [inorderKeys_node, List.mem_append, List.mem_cons] at hmem
          rcases hmem with hx | hx | hx
          · exact absurd (hblo key hx) h2
          · exact absurd hx h1
          · exact hx
        rw [ihr hs4 hordr hmemr]
        simp only [Res.bind_okL]
        have hA : isRed (Tree.node c l k v (updateValue r key val)).right =
            false := by
          rw [Tree.right_node, updateValue_isRed]
          exact hs1
        rw [fixUp_id hA (by simpa using hs2)]
        simp only [Res.bind_okL]
        rw [updateValue, if_neg h1, if_neg h2]

theorem paintBlack_of_black {t : Tree α β} (h : isRed t = false) :
    paintBlack t = t := by
  cases t with
  | nil => rfl
  | node c l k v r =>
    cases c with
    | Red => simp at h
    | Black => rfl

theorem set_present {m : RedBlackTree α β} {key : α} {val : β}
    (hI : Invariant m) (hmem : key ∈ inorderKeys m.root) :
    m.set key val = .ok ⟨updateValue m.root key val, m.size⟩ := by
  obtain ⟨hs, hroot, hbh, hord, hsz⟩ := hI
  simp only [RedBlackTree.set, Res.monadBind, Res.monadPure,
    setNode_present hs hord hmem, Res.bind_okL]
  rw [paintBlack_of_black (by rw [updateValue_isRed]; exact hroot)]

/-! Last-writer-wins semantics of a sequence of inserts. -/

theorem lookupKV_isSome_iff : ∀ {L : List (α × β)} {key : α},
    ((lookupKV L key).isSome = true ↔ key ∈ L.map Prod.fst) := by
  intro L
  induction L with
  | nil =>
    intro key
    simp [lookupKV]
  | cons p L ih =>
    intro key
    obtain ⟨a, b⟩ := p
    by_cases h : key = a
    · simp [lookupKV, h]
    · simp [lookupKV, h, ih]

theorem lastValue_nil (key : α) :
    lastValue ([] : List (α × β)) key = none := rfl

theorem lastValue_cons (e : α × β) (ops : List (α × β)) (key : α) :
    lastValue (e :: ops) key =
      (lastValue ops key).or (if key = e.1 then some e.2 else none) := by
  rw [lastValue, lastValue, List.reverse_cons, List.find?_append]
  cases hf : List.find? (fun p => decide (p.1 = key)) ops.reverse with
  | some p => simp [hf]
  | none =>
    simp only [hf, Option.none_or]
    by_cases hkey : key = e.1
    · simp [List.find?, hkey]
    · simp [List.find?, hkey, show ¬ e.1 = key from fun he => hkey he.symm]

theorem foldl_set_get : ∀ {ops : List (α × β)} {m m2 : RedBlackTree α β},
    Invariant m →
    List.foldlM (fun m e => m.set e.1 e.2) m ops = .ok m2 →
    Invariant m2 ∧
      ∀ key, m2.get key = (lastValue ops key).or (m.get key) := by
  intro ops
  induction ops with
  | nil =>
    intro m m2 hI h
    rw [List.foldlM_nil] at h
    simp only [Res.monadPure, Res.ok.injEq] at h
    subst h
    exact ⟨hI, fun key => by rw [lastValue_nil, Option.none_or]⟩
  | cons e ops ih =>
    intro m m2 hI h
    rw [List.foldlM_cons] at h
    obtain ⟨m3, hset, hino3, hsz3, hI3⟩ := set_ok e.1 e.2 hI
    rw [Res.monadBind, hset, Res.bind_okL] at h
    obtain ⟨hI2, hget⟩ := ih hI3 h
    refine ⟨hI2, fun key => ?_⟩
    rw [hget key, lastValue_cons, Option.or_assoc]
    congr 1
    have hg3 : m3.get key = lookupKV (inorderP m3.root) key := by
      rw [RedBlackTree.get, getNode_spec hI3.2.2.2.1]
    have hgm : m.get key = lookupKV (inorderP m.root) key := by
      rw [RedBlackTree.get, getNode_spec hI.2.2.2.1]
    rw [hg3, hgm, hino3]
    by_cases hkey : key = e.1
    · subst hkey
      rw [lookupKV_listInsert_self]
      simp
    · rw [lookupKV_listInsert_other _ _ hkey]
      simp [hkey]

theorem ofList_get {ops : List (α × β)} {m : RedBlackTree α β}
    (h : RedBlackTree.ofList ops = .ok m) :
    Invariant m ∧ ∀ key, m.get key = lastValue ops key := by
  rw [RedBlackTree.ofList] at h
  obtain ⟨hI, hget⟩ := foldl_set_get invariant_empty h
  refine ⟨hI, fun key => ?_⟩
  rw [hget key]
  have : (RedBlackTree.empty : RedBlackTree α β).get key = none := rfl
  rw [this, Option.or_none]

theorem get_isSome_iff_mem {m : RedBlackTree α β} (hI : Invariant m)
    (key : α) : (m.get key).isSome = true ↔ key ∈ inorderKeys m.root := by
  rw [RedBlackTree.get, getNode_spec hI.2.2.2.1]
  exact lookupKV_isSome_iff

theorem sampleA_reachable : Reachable sampleA :=
  ⟨[Op.set 2 20, Op.set 1 10, Op.set 3 30, Op.del 1], rfl⟩

theorem sample1357_reachable : Reachable sample1357 :=
  ⟨[Op.set 1 1, Op.set 3 3, Op.set 5 5, Op.set 7 7], rfl⟩

theorem sampleC3_ofList : RedBlackTree.ofList
    ([(1, 10), (2, 20), (1, 30)] : List (Nat × Nat)) = .ok sampleC3 := rfl

/-- C1: every tree state reachable from the empty tree by public `set`,
`delete`, `deleteMin`, `deleteMax` (and `clear`) calls that return
satisfies the LLRB structural invariants: the local shape conditions
(`shapeOk`: no red right child, and no red left child whose own left child
is red), a black root (or empty tree), equal black counts on every path
from the root to a null leaf (`blackHeight?` is defined), and strictly
increasing in-order keys. -/
theorem reachable_states_satisfy_invariants {m : RedBlackTree α β}
    (h : Reachable m) :
    shapeOk m.root = true ∧ isRed m.root = false ∧
      (blackHeight? m.root).isSome = true ∧
      List.Pairwise (fun a b => a < b) (inorderKeys m.root) := by
  obtain ⟨h1, h2, h3, h4, _⟩ := reachable_invariant h
  exact ⟨h1, h2, h3, h4⟩

theorem reachable_states_satisfy_invariants_witness :
    Reachable sampleA ∧
    (shapeOk sampleA.root = true ∧ isRed sampleA.root = false ∧
      (blackHeight? sampleA.root).isSome = true ∧
      List.Pairwise (fun a b => a < b) (inorderKeys sampleA.root)) :=
  ⟨sampleA_reachable,
    reachable_states_satisfy_invariants sampleA_reachable⟩

/-- C2: refuted as stated — deleting an absent key is not always a clean
no-op. On the valid, reachable one-element tree holding key 5, the public
`delete(3)` runs into `assert(node.left !== null)` and throws instead of
returning false: the recursion takes the `key < node.key` branch, whose
first statement asserts a left child that does not exist. -/
theorem delete_absent_key_asserts :
    Invariant sampleC2 ∧
    applyOps (RedBlackTree.empty : RedBlackTree Nat Nat) [Op.set 5 50] =
      .ok sampleC2 ∧
    (3 ∉ inorderKeys sampleC2.root) ∧
    sampleC2.delete 3 = .assertFail := by
  refine ⟨by decide, rfl, by decide, rfl⟩

/-- C3: building a tree by a sequence of `set` calls, `get` returns the
value of the last `set` for each key and `none` for keys never set; a
further `set` overwrites in place when the key is present (size unchanged)
and grows the size by one otherwise. -/
theorem set_get_roundtrip {ops : List (α × β)} {m : RedBlackTree α β}
    (h : RedBlackTree.ofList ops = .ok m) (key : α) (value : β) :
    (∀ k2 : α, m.get k2 = lastValue ops k2) ∧
    (∃ m2, m.set key value = .ok m2 ∧ m2.get key = some value ∧
      m2.size = m.size + (if (m.get key).isSome = true then 0 else 1)) := by
  obtain ⟨hI, hget⟩ := ofList_get h
  refine ⟨hget, ?_⟩
  obtain ⟨m2, hset, hino2, hsz2, hI2⟩ := set_ok key value hI
  refine ⟨m2, hset, ?_, ?_⟩
  · rw [RedBlackTree.get, getNode_spec hI2.2.2.2.1, hino2,
      lookupKV_listInsert_self]
  · rw [hsz2]
    congr 1
    refine if_congr ?_ rfl rfl
    exact (get_isSome_iff_mem hI key).symm

theorem set_get_roundtrip_witness :
    RedBlackTree.ofList ([(1, 10), (2, 20), (1, 30)] :
      List (Nat × Nat)) = .ok sampleC3 ∧
    sampleC3.get 1 = lastValue [(1, 10), (2, 20), (1, 30)] 1 ∧
    sampleC3.get 7 = lastValue [(1, 10), (2, 20), (1, 30)] 7 ∧
    (∃ m2, sampleC3.set 5 99 = .ok m2 ∧ m2.get 5 = some 99 ∧
      m2.size = sampleC3.size +
        (if (sampleC3.get 5).isSome = true then 0 else 1)) :=
  ⟨sampleC3_ofList, (set_get_roundtrip sampleC3_ofList 5 99).1 1,
    (set_get_roundtrip sampleC3_ofList 5 99).1 7,
    (set_get_roundtrip sampleC3_ofList 5 99).2⟩

/-- C4: on every reachable tree, `entries()` yields exactly the stored
keys (those `get` finds), each once, in strictly increasing key order. -/
theorem entries_sorted {m : RedBlackTree α β} (h : Reachable m) :
    m.entries.map Prod.fst = inorderKeys m.root ∧
    List.Pairwise (fun a b => a < b) (m.entries.map Prod.fst) ∧
    ∀ key : α, ((m.get key).isSome = true ↔
      key ∈ m.entries.map Prod.fst) := by
  have hI := reachable_invariant h
  have he : m.entries.map Prod.fst = inorderKeys m.root := by
    rw [entries_eq_inorderP]
    rfl
  refine ⟨he, ?_, ?_⟩
  · rw [he]
    exact hI.2.2.2.1
  · intro key
    rw [he]
    exact get_isSome_iff_mem hI key

theorem entries_sorted_witness :
    Reachable sampleA ∧
    sampleA.entries.map Prod.fst = inorderKeys sampleA.root ∧
    List.Pairwise (fun a b => a < b) (sampleA.entries.map Prod.fst) ∧
    ((sampleA.get 2).isSome = true ↔
      2 ∈ sampleA.entries.map Prod.fst) :=
  ⟨sampleA_reachable, (entries_sorted sampleA_reachable).1,
    (entries_sorted sampleA_reachable).2.1,
    (entries_sorted sampleA_reachable).2.2 2⟩

/-- C5: on every reachable non-empty tree, `deleteMin()` returns true,
shrinks the size by one and removes exactly the minimum (first in-order)
key; draining the tree by repeated `deleteMin` observes the keys in
strictly increasing order, and by repeated `deleteMax` in strictly
decreasing order. -/
theorem deleteMin_deleteMax_spec {m : RedBlackTree α β} (h : Reachable m) :
    (m.root ≠ .nil → ∃ m2, m.deleteMin = .ok (m2, true) ∧
      m2.size = m.size - 1 ∧
      inorderKeys m2.root = (inorderKeys m.root).tail ∧
      m.minKey = (inorderKeys m.root).head?) ∧
    (∃ ks, drainMin m.root.count m = .ok ks ∧
      List.Pairwise (fun a b => a < b) ks) ∧
    (∃ ks, drainMax m.root.count m = .ok ks ∧
      List.Pairwise (fun a b => b < a) ks) := by
  have hI := reachable_invariant h
  refine ⟨?_, ?_, ?_⟩
  · intro hne
    rcases deleteMin_pub hI with ⟨hnil, _⟩ | ⟨_, m2, hdel, hI2, hino2, hsz2⟩
    · exact absurd hnil hne
    · refine ⟨m2, hdel, hsz2, ?_, minKey_spec m⟩
      rw [inorderKeys, hino2, inorderKeys, List.map_tail]
  · exact ⟨_, drainMin_keys hI le_rfl, hI.2.2.2.1⟩
  · refine ⟨_, drainMax_keys hI le_rfl, ?_⟩
    exact List.pairwise_reverse.mpr hI.2.2.2.1

theorem deleteMin_deleteMax_spec_witness :
    Reachable sample1357 ∧
    (sample1357.root ≠ .nil → ∃ m2, sample1357.deleteMin = .ok (m2, true) ∧
      m2.size = sample1357.size - 1 ∧
      inorderKeys m2.root = (inorderKeys sample1357.root).tail ∧
      sample1357.minKey = (inorderKeys sample1357.root).head?) ∧
    (∃ ks, drainMin sample1357.root.count sample1357 = .ok ks ∧
      List.Pairwise (fun a b => a < b) ks) ∧
    (∃ ks, drainMax sample1357.root.count sample1357 = .ok ks ∧
      List.Pairwise (fun a b => b < a) ks) :=
  ⟨sample1357_reachable, (deleteMin_deleteMax_spec sample1357_reachable).1,
    (deleteMin_deleteMax_spec sample1357_reachable).2.1,
    (deleteMin_deleteMax_spec sample1357_reachable).2.2⟩

/-- C6: on every reachable tree, `previous(key)` returns the largest
stored key strictly below `key` (`none` if there is none) and `next(key)`
the smallest stored key strictly above it; in particular on the tree with
keys 1, 3, 5, 7: previous(5) = 3, next(5) = 7, previous(1) = none,
next(7) = none, previous(4) = 3, next(4) = 5. -/
theorem previous_next_spec {m : RedBlackTree α β} (h : Reachable m)
    (key : α) :
    m.previous key =
      ((inorderKeys m.root).filter (fun a => decide (a < key))).getLast? ∧
    m.next key =
      ((inorderKeys m.root).filter (fun a => decide (key < a))).head? := by
  have hI := reachable_invariant h
  constructor
  · rw [RedBlackTree.previous, previousNode_spec hI.2.2.2.1]
  · rw [RedBlackTree.next, nextNode_spec hI.2.2.2.1]

theorem previous_next_spec_witness :
    Reachable sample1357 ∧
    sample1357.previous 5 = some 3 ∧ sample1357.next 5 = some 7 ∧
    sample1357.previous 1 = none ∧ sample1357.next 7 = none ∧
    sample1357.previous 4 = some 3 ∧ sample1357.next 4 = some 5 :=
  ⟨sample1357_reachable,
    ((previous_next_spec sample1357_reachable 5).1).trans (by decide),
    ((previous_next_spec sample1357_reachable 5).2).trans (by decide),
    ((previous_next_spec sample1357_reachable 1).1).trans (by decide),
    ((previous_next_spec sample1357_reachable 7).2).trans (by decide),
    ((previous_next_spec sample1357_reachable 4).1).trans (by decide),
    ((previous_next_spec sample1357_reachable 4).2).trans (by decide)⟩

/-- C7: after every public mutating call returns — any reachable state,
and any state built from an iterable through the constructor's repeated
`set` — the size attribute equals the number of live nodes of the tree. -/
theorem size_matches_count :
    (∀ m : RedBlackTree α β, Reachable m →
      m.size = (m.root.count : Int)) ∧
    (∀ (ops : List (α × β)) (m : RedBlackTree α β),
      RedBlackTree.ofList ops = .ok m →
      m.size = (m.root.count : Int)) := by
  constructor
  · intro m h
    exact (reachable_invariant h).2.2.2.2
  · intro ops m h
    exact (ofList_get h).1.2.2.2.2

theorem size_matches_count_witness :
    sampleA.size = (sampleA.root.count : Int) ∧
    sampleC3.size = (sampleC3.root.count : Int) :=
  ⟨size_matches_count.1 sampleA sampleA_reachable,
    size_matches_count.2 [(1, 10), (2, 20), (1, 30)] sampleC3
      sampleC3_ofList⟩

/-- C8: `rotateLeft` asserts (fails fast) on a node without a right child;
with a right child present it returns the old right child as the new root
carrying the old root's color, recolors the old root red as the new left
child, hands the right child's former left subtree to the old root, and
preserves the in-order sequence. -/
theorem rotateLeft_spec :
    (∀ (c : Color) (l : Tree α β) (k : α) (v : β),
      rotateLeft (.node c l k v .nil) = .assertFail) ∧
    (∀ (c rc : Color) (l rl rr : Tree α β) (k rk : α) (v rv : β),
      rotateLeft (.node c l k v (.node rc rl rk rv rr)) =
        .ok (.node c (.node .Red l k v rl) rk rv rr) ∧
      inorderP (Tree.node c (.node .Red l k v rl) rk rv rr : Tree α β) =
        inorderP (Tree.node c l k v (.node rc rl rk rv rr))) := by
  refine ⟨fun c l k v => rfl, fun c rc l rl rr k rk v rv => ⟨rfl, ?_⟩⟩
  simp [inorderP_node, List.append_assoc]

/-- C9: on a tree satisfying the invariants, `set` of an already stored
key only replaces that key's value: every `fixUp` on the search path is
the identity, so the returned tree is the value-updated tree with shape,
keys, colors and size untouched. -/
theorem set_present_frame {m : RedBlackTree α β} {key : α} {value : β}
    (hI : Invariant m) (hmem : key ∈ inorderKeys m.root) :
    m.set key value = .ok ⟨updateValue m.root key value, m.size⟩ ∧
    (updateValue m.root key value).keyColorShape = m.root.keyColorShape ∧
    inorderP (updateValue m.root key value) =
      listInsert (inorderP m.root) key value := by
  refine ⟨set_present hI hmem, updateValue_keyColorShape _ _ _, ?_⟩
  obtain ⟨m2, hset2, hino2, _, _⟩ := set_ok key value hI
  have heq : Res.ok (⟨updateValue m.root key value, m.size⟩ :
      RedBlackTree α β) = Res.ok m2 := by
    rw [← set_present hI hmem, hset2]
  simp only [Res.ok.injEq] at heq
  rw [← heq] at hino2
  exact hino2

theorem set_present_frame_witness :
    Invariant sampleC9 ∧ 5 ∈ inorderKeys sampleC9.root ∧
    (sampleC9.set 5 99 = .ok ⟨updateValue sampleC9.root 5 99,
      sampleC9.size⟩ ∧
    (updateValue sampleC9.root 5 99).keyColorShape =
      sampleC9.root.keyColorShape ∧
    inorderP (updateValue sampleC9.root 5 99) =
      listInsert (inorderP sampleC9.root) 5 99) :=
  ⟨by decide, by decide, set_present_frame (by decide) (by decide)⟩

/-- C10: for every tree, `keys()` yields exactly the first components of
the pairs `entries()` yields, `values()` the second components, in the
same order, and the `Symbol.iterator` iterator yields the same pairs as
`entries()`. -/
theorem iterators_agree (m : RedBlackTree α β) :
    m.keys = m.entries.map Prod.fst ∧
    m.values = m.entries.map Prod.snd ∧
    m.symbolIterator = m.entries := by
  refine ⟨?_, ?_, rfl⟩
  · rw [keys_eq_inorderKeys, entries_eq_inorderP]
    rfl
  · rw [values_eq_inorderValues, entries_eq_inorderP]

end Calcium
